import Mathlib

/-!
Verification of the on-demand SLG evaluator (`src/solve/slg/on_demand/logic.rs`).

The evaluator itself (`Forest::ensure_root_answer`, `ensure_answer_recursively`,
`pursue_next_strand`, `cycle`, `clear_strands_after_cycle`,
`delay_strands_after_cycle`, `pursue_strand`, `pursue_answer`,
`get_or_create_table_for_subgoal`, `get_or_create_table_for_ucanonical_goal`,
`push_initial_strands`, `abstract_positive_literal`, `abstract_negative_literal`,
`pursue_positive_subgoal`, `push_strand_pursuing_next_answer`,
`pursue_negative_subgoal`) is embedded function by function from the source.

The collaborators the evaluator consumes (the inference table, resolvent engine,
truncation, clause enumeration, HH simplification) and the container types it
uses (tables, stack, answers, strands, minimums) are not part of the source
tree; they are modelled from the spec's data-model and interface sections and
kept abstract where the spec keeps them abstract.

The Rust functions are mutually recursive with no structural termination
argument, so the embedding is fuel-indexed: every call consumes one unit of
fuel, and running out of fuel is a distinguished outcome (`Res.noFuel`),
separate from the evaluator's own panics (`Res.panicked`).
-/

namespace ChalkSLG

/-- Modelled from the spec: `TableIndex` identifies a table; dense index. -/
abbrev TableIndex := Nat

/-- Modelled from the spec: `AnswerIndex` indexes the answers of a table. -/
abbrev AnswerIndex := Nat

/-- Modelled from the spec: `StackIndex` (depth) indexes the stack frames. -/
abbrev StackIndex := Nat

/-- Modelled from the spec: a depth-first number is a monotone integer with a
distinguished `MAX` sentinel meaning "no (negative) dependency". -/
inductive DepthFirstNumber : Type where
  | fin (n : Nat) : DepthFirstNumber
  | MAX : DepthFirstNumber
deriving DecidableEq, Repr

namespace DepthFirstNumber

/-- Order on depth-first numbers: finite numbers by magnitude, `MAX` on top. -/
def le : DepthFirstNumber → DepthFirstNumber → Bool
  | .fin a, .fin b => a ≤ b
  | _, .MAX => true
  | .MAX, .fin _ => false

/-- Minimum of two depth-first numbers. -/
def dmin (a b : DepthFirstNumber) : DepthFirstNumber :=
  if le a b then a else b

theorem le_refl (a : DepthFirstNumber) : le a a = true := by
  cases a <;> simp [le]

theorem le_trans {a b c : DepthFirstNumber} (h1 : le a b = true)
    (h2 : le b c = true) : le a c = true := by
  cases a <;> cases b <;> cases c <;> simp_all [le] <;> omega

theorem le_total (a b : DepthFirstNumber) : le a b = true ∨ le b a = true := by
  cases a <;> cases b <;> simp [le] <;> omega

theorem le_dmin {d a b : DepthFirstNumber} (h1 : le d a = true)
    (h2 : le d b = true) : le d (dmin a b) = true := by
  unfold dmin; split <;> assumption

theorem dmin_le_left (a b : DepthFirstNumber) : le (dmin a b) a = true := by
  unfold dmin; split
  · exact le_refl a
  · rcases le_total a b with h | h
    · simp_all
    · exact h

theorem dmin_le_right (a b : DepthFirstNumber) : le (dmin a b) b = true := by
  unfold dmin; split
  · assumption
  · exact le_refl b

theorem le_MAX (a : DepthFirstNumber) : le a .MAX = true := by
  cases a <;> simp [le]

end DepthFirstNumber

/-- Modelled from the spec: `Minimums` tracks the smallest positive and
negative dependency depths of a strand. -/
structure Minimums : Type where
  positive : DepthFirstNumber
  negative : DepthFirstNumber
deriving DecidableEq, Repr

namespace Minimums

/-- Modelled from the spec: the initial value `Minimums::MAX = (MAX, MAX)`. -/
def MAX : Minimums := ⟨.MAX, .MAX⟩

/-- Modelled from the spec: `take_minimums` is the component-wise minimum. -/
def take_minimums (m o : Minimums) : Minimums :=
  ⟨DepthFirstNumber.dmin m.positive o.positive,
   DepthFirstNumber.dmin m.negative o.negative⟩

/-- Modelled from the spec: `minimum_of_pos_and_neg = min(pos, neg)`. -/
def minimum_of_pos_and_neg (m : Minimums) : DepthFirstNumber :=
  DepthFirstNumber.dmin m.positive m.negative

end Minimums

/-- The abstract carrier types consumed by the core, with the decidability the
containers need. `S` is a substitution, `C` a region constraint, `E` an
environment, `D` a domain goal, `H` the payload of a non-leaf HH goal, `PC`
a program-clause implication, `I` an inference table, `U` a universe map,
`Q` a canonical goal, `B` the binders of a u-canonical goal. -/
structure Types : Type 1 where
  S : Type
  C : Type
  E : Type
  D : Type
  H : Type
  PC : Type
  I : Type
  U : Type
  Q : Type
  B : Type
  deqS : DecidableEq S
  deqC : DecidableEq C
  deqQ : DecidableEq Q

attribute [instance] Types.deqS Types.deqC Types.deqQ

variable {κ : Types}

/-- Modelled from the spec: a canonical value (binders abstracted away; the
evaluator only ever reads the underlying value or hands the canonical value to
a collaborator). -/
structure Canonical (A : Type) : Type where
  value : A
deriving DecidableEq, Repr

/-- Modelled from the spec: a substitution paired with collected region
constraints. -/
structure ConstrainedSubst (κ : Types) : Type where
  subst : κ.S
  constraints : List κ.C
deriving DecidableEq

/-- Modelled from the spec: a u-canonical goal, keyed by its canonical part for
interning. -/
structure UCanonicalGoal (κ : Types) : Type where
  canonical : κ.Q
deriving DecidableEq

/-- Modelled from the spec: tagged delayed literals conditioning an answer. -/
inductive DelayedLiteral (κ : Types) : Type where
  | Negative (table : TableIndex)
  | Positive (table : TableIndex) (subst : Canonical (ConstrainedSubst κ))
  | CannotProve
deriving DecidableEq

/-- Modelled from the spec: a deduplicated, sorted set of delayed literals. -/
structure DelayedLiteralSet (κ : Types) : Type where
  delayed_literals : List (DelayedLiteral κ)
deriving DecidableEq

/-- Modelled from the spec: an answer is a pair of a canonical constrained
substitution and a set of delayed literals. -/
structure Answer (κ : Types) : Type where
  subst : Canonical (ConstrainedSubst κ)
  delayed_literals : DelayedLiteralSet κ
deriving DecidableEq

/-- Modelled from the spec: an answer is unconditional when it has no delayed
literals and no outstanding region constraints. -/
def Answer.is_unconditional (a : Answer κ) : Bool :=
  a.delayed_literals.delayed_literals.isEmpty && a.subst.value.constraints.isEmpty

/-- Modelled from the spec: a goal is either a leaf domain goal or a compound
hereditary-Harrop goal; the core only consumes the leaf/non-leaf distinction. -/
inductive Goal (κ : Types) : Type where
  | leaf (d : κ.D)
  | hh (h : κ.H)

/-- Modelled from the spec: a value in an environment. -/
structure InEnvironment (κ : Types) (A : Type) : Type where
  environment : κ.E
  goal : A

/-- The type of subgoals occurring in literals: a goal in an environment. -/
abbrev GoalInEnv (κ : Types) := InEnvironment κ (Goal κ)

/-- Modelled from the spec: a literal is a positive or a negative goal. -/
inductive Literal (κ : Types) : Type where
  | Positive (g : GoalInEnv κ)
  | Negative (g : GoalInEnv κ)

/-- Modelled from the spec: the state of a proof-in-progress. -/
structure ExClause (κ : Types) : Type where
  subst : κ.S
  constraints : List κ.C
  subgoals : List (Literal κ)
  delayed_literals : List (DelayedLiteral κ)

/-- Modelled from the spec: the descriptor of the currently selected subgoal
of a strand. -/
structure SelectedSubgoal (κ : Types) : Type where
  subgoal_index : Nat
  subgoal_table : TableIndex
  universe_map : κ.U
  answer_index : AnswerIndex

/-- Modelled from the spec: a strand is an inference-table snapshot, an
ex-clause, and an optional selected subgoal. -/
structure Strand (κ : Types) : Type where
  infer : κ.I
  ex_clause : ExClause κ
  selected_subgoal : Option (SelectedSubgoal κ)

/-- Modelled from the spec: a table carries its canonical goal, its coinductive
flag, its ordered answers (a set), and its queue of pending strands. -/
structure Table (κ : Types) : Type where
  table_goal : UCanonicalGoal κ
  coinductive_goal : Bool
  answers : List (Answer κ)
  strands : List (Strand κ)

namespace Table

/-- Modelled from the spec: fetch the answer at the given index, if present. -/
def answer (t : Table κ) (i : AnswerIndex) : Option (Answer κ) :=
  t.answers.get? i

/-- Modelled from the spec: `next_answer_index` equals the number of answers. -/
def next_answer_index (t : Table κ) : AnswerIndex :=
  t.answers.length

/-- Modelled from the spec: `push_answer` with set semantics — the answer is
appended iff it is not already present; the Bool reports whether it was new. -/
def push_answer (t : Table κ) (a : Answer κ) : Table κ × Bool :=
  if a ∈ t.answers then (t, false)
  else ({ t with answers := t.answers ++ [a] }, true)

/-- Modelled from the spec: strands are pushed FIFO at the back. -/
def push_strand (t : Table κ) (s : Strand κ) : Table κ :=
  { t with strands := t.strands ++ [s] }

/-- Modelled from the spec: `extend_strands` pushes a batch of strands. -/
def extend_strands (t : Table κ) (ss : List (Strand κ)) : Table κ :=
  { t with strands := t.strands ++ ss }

/-- Modelled from the spec: `pop_next_strand` pops LIFO from the back. -/
def pop_next_strand (t : Table κ) : Option (Strand κ × Table κ) :=
  match t.strands.getLast? with
  | none => none
  | some s => some (s, { t with strands := t.strands.dropLast })

/-- Modelled from the spec: `take_strands` moves every pending strand out. -/
def take_strands (t : Table κ) : List (Strand κ) × Table κ :=
  (t.strands, { t with strands := [] })

end Table

/-- Modelled from the spec: a stack frame records the table being solved, its
depth-first number, and whether its goal is coinductive. -/
structure StackFrame (κ : Types) : Type where
  table : TableIndex
  dfn : DepthFirstNumber
  coinductive : Bool

/-- Modelled from the spec: the whole mutable state of one query evaluation:
the tables (dense, indexed by `TableIndex`), the stack, the DFN counter and
the truncation threshold. The program is immutable and is baked into the
collaborator functions. -/
structure Forest (κ : Types) : Type where
  tables : List (Table κ)
  stack : List (StackFrame κ)
  dfn_counter : Nat
  max_size : Nat

namespace Forest

/-- Look a table up by index. -/
def getTable (f : Forest κ) (t : TableIndex) : Option (Table κ) :=
  f.tables.get? t

/-- Replace the table at an index. -/
def setTable (f : Forest κ) (t : TableIndex) (tb : Table κ) : Forest κ :=
  { f with tables := f.tables.set t tb }

/-- The strand queue of a table (empty for an out-of-range index). -/
def strandsOf (f : Forest κ) (t : TableIndex) : List (Strand κ) :=
  match f.getTable t with
  | none => []
  | some tb => tb.strands

/-- Modelled from the spec: `is_active(table)` returns the depth of the frame
for `table`, if the table is on the stack. -/
def is_active (f : Forest κ) (t : TableIndex) : Option StackIndex :=
  f.stack.findIdx? (fun fr => fr.table = t)

/-- Modelled from the spec: every frame from depth `d` to the top of the stack
is coinductive. -/
def top_of_stack_is_coinductive_from (f : Forest κ) (d : StackIndex) : Bool :=
  (f.stack.drop d).all (fun fr => fr.coinductive)

end Forest

/-- Modelled from the spec: the truncation result — the possibly generalized
value with an overflow flag. -/
structure Truncated (A : Type) : Type where
  overflow : Bool
  value : A

/-- Modelled from the spec: a program clause, of which the core only consumes
the implication handed to the resolvent engine. -/
structure ProgramClause (κ : Types) : Type where
  implication : κ.PC

/-- Modelled from the spec: the `Satisfiable` result of the resolvent engine
and the HH simplifier. -/
inductive Satisfiable (A : Type) : Type where
  | Yes (a : A)
  | No

/-- The collaborator contracts the core consumes, modelled from the spec's
interface section as pure functions of the inference-table value. -/
structure Collab (κ : Types) : Type where
  canonicalize_subst : κ.I → ConstrainedSubst κ → Canonical (ConstrainedSubst κ)
  canonicalize_goal : κ.I → GoalInEnv κ → κ.Q
  u_canonicalize : κ.I → κ.Q → UCanonicalGoal κ × κ.U
  invert : κ.I → GoalInEnv κ → Option (GoalInEnv κ)
  truncate_goal : κ.I → Nat → GoalInEnv κ → Truncated (GoalInEnv κ)
  truncate_returned : κ.I → ExClause κ → Nat → ExClause κ
  is_trivial_substitution : UCanonicalGoal κ → Canonical (ConstrainedSubst κ) → Bool
  is_coinductive : UCanonicalGoal κ → Bool
  map_from_canonical_goal : κ.U → κ.Q → GoalInEnv κ
  map_from_canonical_subst : κ.U → Canonical (ConstrainedSubst κ) →
    Canonical (ConstrainedSubst κ)
  apply_answer_subst : κ.I → ExClause κ → GoalInEnv κ → GoalInEnv κ →
    Canonical (ConstrainedSubst κ) → Satisfiable (ExClause κ)
  resolvent_clause : κ.I → InEnvironment κ κ.D → κ.S → κ.PC →
    Satisfiable (ExClause κ)
  simplify_hh_goal : κ.I → κ.S → GoalInEnv κ → Satisfiable (ExClause κ)
  clauses : InEnvironment κ κ.D → List (ProgramClause κ)
  instantiate_universes : κ.I → UCanonicalGoal κ → UCanonicalGoal κ
  ucanonical_binders : UCanonicalGoal κ → κ.B
  fresh_subst : κ.I → κ.B → κ.S
  substitute : UCanonicalGoal κ → κ.S → GoalInEnv κ
  infer_init : κ.I
  cs_le : Canonical (ConstrainedSubst κ) → Canonical (ConstrainedSubst κ) → Bool

/-! ## Outcome types (from `logic.rs`) -/

/-- The result channel of the embedding: a value, a Rust panic (with its
message), or fuel exhaustion of the fuel-indexed recursion. -/
inductive Res (α : Type) : Type where
  | ok (a : α)
  | panicked (msg : String)
  | noFuel
deriving DecidableEq

deriving instance DecidableEq for Except

/-- `RootSearchFail` (logic.rs): failures of a root search. -/
inductive RootSearchFail : Type where
  | NoMoreSolutions
  | QuantumExceeded
deriving DecidableEq, Repr

/-- `RecursiveSearchFail` (logic.rs): failures of a recursive search. -/
inductive RecursiveSearchFail : Type where
  | NoMoreSolutions
  | Cycle (minimums : Minimums)
  | QuantumExceeded
deriving DecidableEq, Repr

/-- `StrandFail` (logic.rs): failures from pursuing one strand. -/
inductive StrandFail (κ : Types) : Type where
  | NoSolution
  | QuantumExceeded
  | Cycle (strand : Strand κ) (minimums : Minimums)

/-- `EnsureSuccess` (logic.rs). -/
inductive EnsureSuccess : Type where
  | AnswerAvailable
  | Coinductive
deriving DecidableEq, Repr

/-- Result of `ensure_answer_recursively`. -/
abbrev EnsureR := Res (Except RecursiveSearchFail EnsureSuccess)

/-- Result of `pursue_next_strand`. -/
abbrev PnsR := Res (Except RecursiveSearchFail Unit)

/-- Result of `pursue_strand` / subgoal pursuit. -/
abbrev StrandR (κ : Types) := Res (Except (StrandFail κ) Unit)

/-! ## Simple helper operations -/

/-- Modelled from the spec: the forest's DFN allocator is monotone: it hands
out the current counter and increments it. -/
def Forest.next_dfn (f : Forest κ) : DepthFirstNumber × Forest κ :=
  (.fin f.dfn_counter, { f with dfn_counter := f.dfn_counter + 1 })

/-- Modelled from the spec: the derived order on delayed literals used for the
sort in `pursue_answer`, variant tags in declaration order
(`Negative`, `Positive`, `CannotProve`), payloads compared by the table index
and the collaborator order on canonical substitutions. -/
def DelayedLiteral.dl_le (co : Collab κ) :
    DelayedLiteral κ → DelayedLiteral κ → Bool
  | .Negative i, .Negative j => i ≤ j
  | .Negative _, .Positive _ _ => true
  | .Negative _, .CannotProve => true
  | .Positive _ _, .Negative _ => false
  | .Positive i c, .Positive j d =>
      if i < j then true else if i = j then co.cs_le c d else false
  | .Positive _ _, .CannotProve => true
  | .CannotProve, .CannotProve => true
  | .CannotProve, _ => false

/-- Insert an element into a list sorted by `le`. -/
def insertLe (le : α → α → Bool) (a : α) : List α → List α
  | [] => [a]
  | b :: bs => if le a b then a :: b :: bs else b :: insertLe le a bs

/-- Insertion sort by `le` (the `sort` call in `pursue_answer`). -/
def sortLe (le : α → α → Bool) : List α → List α
  | [] => []
  | a :: as => insertLe le a (sortLe le as)

/-- Remove adjacent duplicates (the `dedup` call in `pursue_answer`). -/
def dedupAdjacent [DecidableEq α] : List α → List α
  | [] => []
  | [a] => [a]
  | a :: b :: rest =>
      if a = b then dedupAdjacent (b :: rest) else a :: dedupAdjacent (b :: rest)

/-! ## Non-recursive evaluator functions (embedded from `logic.rs`) -/

/-- `Forest::pursue_answer` (logic.rs 422-529): canonicalize the finished
ex-clause, deduplicate the delayed literals, push the answer, and apply the
trivial-answer ("green cut") rule. -/
def pursue_answer (co : Collab κ) (f : Forest κ) (depth : StackIndex)
    (strand : Strand κ) : Forest κ × StrandR κ :=
  match f.stack.get? depth with
  | none => (f, .panicked "stack index out of bounds")
  | some fr =>
    let table := fr.table
    match strand with
    | ⟨infer, ⟨subst, constraints, subgoals, delayed_literals⟩, _⟩ =>
      if !subgoals.isEmpty then (f, .panicked "assert subgoals is_empty")
      else
        let answer_subst := co.canonicalize_subst infer ⟨subst, constraints⟩
        let dl := dedupAdjacent (sortLe (DelayedLiteral.dl_le co) delayed_literals)
        let answer : Answer κ := ⟨answer_subst, ⟨dl⟩⟩
        match f.getTable table with
        | none => (f, .panicked "table index out of bounds")
        | some tb =>
          let is_trivial_answer :=
            answer.delayed_literals.delayed_literals.isEmpty &&
              co.is_trivial_substitution tb.table_goal answer.subst &&
              answer.subst.value.constraints.isEmpty
          match tb.push_answer answer with
          | (tb1, true) =>
            let tb2 := if is_trivial_answer then (tb1.take_strands).2 else tb1
            (f.setTable table tb2, .ok (.ok ()))
          | (_, false) => (f, .ok (.error .NoSolution))

/-- `Forest::abstract_positive_literal` (logic.rs 677-712): truncate the
subgoal (ignoring the overflow flag) and canonicalize the result. -/
def abstract_positive_literal (co : Collab κ) (f : Forest κ) (infer : κ.I)
    (subgoal : GoalInEnv κ) : κ.Q :=
  let truncated_subgoal := (co.truncate_goal infer f.max_size subgoal).value
  co.canonicalize_goal infer truncated_subgoal

/-- `Forest::abstract_negative_literal` (logic.rs 721-821): invert the
subgoal (flounder on failure), flounder if truncation would overflow, and
otherwise canonicalize the (untruncated) inverted subgoal. -/
def abstract_negative_literal (co : Collab κ) (f : Forest κ) (infer : κ.I)
    (subgoal : GoalInEnv κ) : Option κ.Q :=
  match co.invert infer subgoal with
  | none => none
  | some inverted_subgoal =>
    if (co.truncate_goal infer f.max_size inverted_subgoal).overflow then none
    else some (co.canonicalize_goal infer inverted_subgoal)

/-- `Forest::push_initial_strands` (logic.rs 605-667): create the initial
strands of a fresh table from the program clauses (leaf domain goal) or from
the HH simplifier (compound goal). The missing-table case is unreachable:
the caller has just inserted the table. -/
def push_initial_strands (co : Collab κ) (f : Forest κ) (table : TableIndex) :
    Forest κ :=
  match f.getTable table with
  | none => f
  | some tb =>
    let infer := co.infer_init
    let instantiated := co.instantiate_universes infer tb.table_goal
    let subst := co.fresh_subst infer (co.ucanonical_binders instantiated)
    let ie := co.substitute tb.table_goal subst
    match ie.goal with
    | .leaf d =>
      let domain_goal : InEnvironment κ κ.D := ⟨ie.environment, d⟩
      let tb1 := (co.clauses domain_goal).foldl (fun acc clause =>
        let clause_infer := infer
        match co.resolvent_clause clause_infer domain_goal subst
            clause.implication with
        | .Yes resolvent => acc.push_strand ⟨clause_infer, resolvent, none⟩
        | .No => acc) tb
      f.setTable table tb1
    | .hh _ =>
      let hh_goal : GoalInEnv κ := ⟨ie.environment, ie.goal⟩
      match co.simplify_hh_goal infer subst hh_goal with
      | .Yes ex_clause => f.setTable table (tb.push_strand ⟨infer, ex_clause, none⟩)
      | .No => f

/-- `Forest::get_or_create_table_for_ucanonical_goal` (logic.rs 576-592):
intern lookup, else insert a new table (computing its coinductive flag) and
push its initial strands. -/
def get_or_create_table_for_ucanonical_goal (co : Collab κ) (f : Forest κ)
    (goal : UCanonicalGoal κ) : Forest κ × TableIndex :=
  match f.tables.findIdx? (fun tb => tb.table_goal = goal) with
  | some table => (f, table)
  | none =>
    let coinductive_goal := co.is_coinductive goal
    let table := f.tables.length
    let f1 := { f with tables := f.tables ++ [⟨goal, coinductive_goal, [], []⟩] }
    (push_initial_strands co f1 table, table)

/-- `Forest::get_or_create_table_for_subgoal` (logic.rs 544-567): abstract the
literal by polarity (the negative abstraction may flounder), u-canonicalize,
and intern. -/
def get_or_create_table_for_subgoal (co : Collab κ) (f : Forest κ)
    (infer : κ.I) (subgoal : Literal κ) :
    Forest κ × Option (TableIndex × κ.U) :=
  let canonical_subgoal? :=
    match subgoal with
    | .Positive sg => some (abstract_positive_literal co f infer sg)
    | .Negative sg => abstract_negative_literal co f infer sg
  match canonical_subgoal? with
  | none => (f, none)
  | some canonical_subgoal =>
    -- `.1` is the u-canonical goal, `.2` the universe map.
    let uc := co.u_canonicalize infer canonical_subgoal
    -- `.1` is the updated forest, `.2` the table index.
    let ft := get_or_create_table_for_ucanonical_goal co f uc.1
    (ft.1, some (ft.2, uc.2))

/-- `Forest::push_strand_pursuing_next_answer` (logic.rs 969-983): enqueue a
sibling strand identical to `strand` except the answer index is incremented. -/
def push_strand_pursuing_next_answer (f : Forest κ) (depth : StackIndex)
    (strand : Strand κ) (selected_subgoal : SelectedSubgoal κ) :
    Forest κ × Res Unit :=
  match f.stack.get? depth with
  | none => (f, .panicked "stack index out of bounds")
  | some fr =>
    match f.getTable fr.table with
    | none => (f, .panicked "table index out of bounds")
    | some tb =>
      let sel := { selected_subgoal with
        answer_index := selected_subgoal.answer_index + 1 }
      (f.setTable fr.table
        (tb.push_strand ⟨strand.infer, strand.ex_clause, some sel⟩), .ok ())

/-- The per-strand transformation of `delay_strands_after_cycle` (logic.rs
328-336), as a total function: a currently selected negative literal is
removed from the subgoals, recorded as a `Negative` delayed literal, and the
selection is cleared; anything else is left unchanged. -/
def delay_strand (s : Strand κ) : Strand κ :=
  match s.selected_subgoal with
  | none => s
  | some sel =>
    match s.ex_clause.subgoals.get? sel.subgoal_index with
    | some (.Negative _) =>
      { s with
        ex_clause := { s.ex_clause with
          subgoals := s.ex_clause.subgoals.eraseIdx sel.subgoal_index,
          delayed_literals :=
            s.ex_clause.delayed_literals ++ [.Negative sel.subgoal_table] },
        selected_subgoal := none }
    | _ => s

/-- The strand iteration of `delay_strands_after_cycle` (logic.rs 313-341):
transform each strand, and collect each selected subgoal table that is newly
inserted into the visited set. Panics on a strand without a selected subgoal
or with an out-of-range subgoal index, as the source does. -/
def delay_strand_loop :
    List (Strand κ) → List (Strand κ) → List TableIndex → List TableIndex →
    Res (List (Strand κ) × List TableIndex × List TableIndex)
  | [], acc, tablesAcc, visited => .ok (acc, tablesAcc, visited)
  | s :: rest, acc, tablesAcc, visited =>
    match s.selected_subgoal with
    | none => .panicked "delay_strands_after_cycle: no selected subgoal"
    | some sel =>
      match s.ex_clause.subgoals.get? sel.subgoal_index with
      | none => .panicked "subgoal index out of bounds"
      | some _ =>
        if sel.subgoal_table ∈ visited then
          delay_strand_loop rest (acc ++ [delay_strand s]) tablesAcc visited
        else
          delay_strand_loop rest (acc ++ [delay_strand s])
            (tablesAcc ++ [sel.subgoal_table]) (visited ++ [sel.subgoal_table])

/-- The common continuation of `pursue_negative_subgoal` (logic.rs 1083-1098):
remove the (ground) negative subgoal and extend the delayed literals with the
optional delayed literal. -/
def pursue_negative_continue (strand : Strand κ)
    (selected_subgoal : SelectedSubgoal κ)
    (delayed_literal : Option (DelayedLiteral κ)) : Strand κ :=
  { infer := strand.infer,
    ex_clause := { strand.ex_clause with
      subgoals := strand.ex_clause.subgoals.eraseIdx selected_subgoal.subgoal_index,
      delayed_literals :=
        strand.ex_clause.delayed_literals ++ delayed_literal.toList },
    selected_subgoal := none }

/-! ## The mutually recursive evaluator, as a fuel-indexed function cluster.

Each function of the mutual recursion in `logic.rs` becomes a field of
`Funcs`; the bodies call the previous fuel level, so the fuel bounds the call
depth and running out is reported as `Res.noFuel`. -/

/-- The simultaneously defined recursive functions of the evaluator. -/
structure Funcs (κ : Types) : Type where
  ensure : Forest κ → TableIndex → AnswerIndex → Forest κ × EnsureR
  pns : Forest κ → StackIndex → Forest κ × PnsR
  pnsLoop : Forest κ → StackIndex → TableIndex → List (Strand κ) → Minimums →
    Forest κ × PnsR
  pursue : Forest κ → StackIndex → Strand κ → Forest κ × StrandR κ
  positive : Forest κ → StackIndex → Strand κ → SelectedSubgoal κ →
    Forest κ × StrandR κ
  negative : Forest κ → StackIndex → Strand κ → SelectedSubgoal κ →
    Forest κ × StrandR κ
  cycleF : Forest κ → StackIndex → List (Strand κ) → Minimums →
    Forest κ × Res (Option RecursiveSearchFail)
  clearF : Forest κ → TableIndex → List (Strand κ) → Forest κ × Res Unit
  clearGo : Forest κ → List (Strand κ) → Forest κ × Res Unit
  delayF : Forest κ → TableIndex → List TableIndex →
    Forest κ × List TableIndex × Res Unit
  delayTables : Forest κ → List TableIndex → List TableIndex →
    Forest κ × List TableIndex × Res Unit

/-- The zero-fuel cluster: every call reports fuel exhaustion. -/
def noFuelFuncs : Funcs κ where
  ensure := fun f _ _ => (f, .noFuel)
  pns := fun f _ => (f, .noFuel)
  pnsLoop := fun f _ _ _ _ => (f, .noFuel)
  pursue := fun f _ _ => (f, .noFuel)
  positive := fun f _ _ _ => (f, .noFuel)
  negative := fun f _ _ _ => (f, .noFuel)
  cycleF := fun f _ _ _ => (f, .noFuel)
  clearF := fun f _ _ => (f, .noFuel)
  clearGo := fun f _ => (f, .noFuel)
  delayF := fun f _ v => (f, v, .noFuel)
  delayTables := fun f _ v => (f, v, .noFuel)

/-- `Forest::ensure_answer_recursively` (logic.rs 126-165): return a cached
answer, assert the request is for the next index, detect cycles against the
stack (coinductive or not), or push a frame and pursue the next strand. -/
def ensureBody (prev : Funcs κ) (f : Forest κ) (table : TableIndex)
    (answer : AnswerIndex) : Forest κ × EnsureR :=
  match f.getTable table with
  | none => (f, .panicked "table index out of bounds")
  | some tb =>
    match tb.answer answer with
    | some _ => (f, .ok (.ok .AnswerAvailable))
    | none =>
      if tb.next_answer_index ≠ answer then
        (f, .panicked "assert_eq next_answer_index answer")
      else
        match f.is_active table with
        | some depth =>
          if f.top_of_stack_is_coinductive_from depth then
            (f, .ok (.ok .Coinductive))
          else
            match f.stack.get? depth with
            | none => (f, .panicked "stack index out of bounds")
            | some fr => (f, .ok (.error (.Cycle ⟨fr.dfn, .MAX⟩)))
        | none =>
          let (dfn, f1) := f.next_dfn
          let depth := f1.stack.length
          let f2 := { f1 with
            stack := f1.stack ++ [⟨table, dfn, tb.coinductive_goal⟩] }
          match prev.pns f2 depth with
          | (f3, .ok (.ok ())) =>
            ({ f3 with stack := f3.stack.dropLast }, .ok (.ok .AnswerAvailable))
          | (f3, .ok (.error e)) =>
            ({ f3 with stack := f3.stack.dropLast }, .ok (.error e))
          | (f3, .panicked m) => (f3, .panicked m)
          | (f3, .noFuel) => (f3, .noFuel)

/-- `Forest::pursue_next_strand` (logic.rs 177-186): read the table at the
given depth and enter the scheduling loop with no stashed cyclic strands. -/
def pnsBody (prev : Funcs κ) (f : Forest κ) (depth : StackIndex) :
    Forest κ × PnsR :=
  match f.stack.get? depth with
  | none => (f, .panicked "stack index out of bounds")
  | some fr => prev.pnsLoop f depth fr.table [] Minimums.MAX

/-- The scheduling loop of `Forest::pursue_next_strand` (logic.rs 187-234):
pop and pursue strands, stashing cyclic ones; on success or plain failure
re-enqueue the stashed strands; when the queue is exhausted, either report
`NoMoreSolutions` (nothing was stashed) or resolve the cycle. -/
def pnsLoopBody (prev : Funcs κ) (f : Forest κ) (depth : StackIndex)
    (table : TableIndex) (cyclic_strands : List (Strand κ))
    (cyclic_minimums : Minimums) : Forest κ × PnsR :=
  match f.getTable table with
  | none => (f, .panicked "table index out of bounds")
  | some tb =>
    match tb.pop_next_strand with
    | some (strand, tb1) =>
      let f0 := f.setTable table tb1
      match prev.pursue f0 depth strand with
      | (f1, .ok (.ok ())) =>
        match f1.getTable table with
        | none => (f1, .panicked "table index out of bounds")
        | some tbx =>
          (f1.setTable table (tbx.extend_strands cyclic_strands), .ok (.ok ()))
      | (f1, .ok (.error .NoSolution)) =>
        match f1.getTable table with
        | none => (f1, .panicked "table index out of bounds")
        | some tbx =>
          (f1.setTable table (tbx.extend_strands cyclic_strands),
            .ok (.error .QuantumExceeded))
      | (f1, .ok (.error .QuantumExceeded)) =>
        match f1.getTable table with
        | none => (f1, .panicked "table index out of bounds")
        | some tbx =>
          (f1.setTable table (tbx.extend_strands cyclic_strands),
            .ok (.error .QuantumExceeded))
      | (f1, .ok (.error (.Cycle strand2 strand_minimums))) =>
        prev.pnsLoop f1 depth table (cyclic_strands ++ [strand2])
          (cyclic_minimums.take_minimums strand_minimums)
      | (f1, .panicked m) => (f1, .panicked m)
      | (f1, .noFuel) => (f1, .noFuel)
    | none =>
      if cyclic_strands.isEmpty then (f, .ok (.error .NoMoreSolutions))
      else
        match prev.cycleF f depth cyclic_strands cyclic_minimums with
        | (f1, .ok none) => prev.pnsLoop f1 depth table [] cyclic_minimums
        | (f1, .ok (some err)) => (f1, .ok (.error err))
        | (f1, .panicked m) => (f1, .panicked m)
        | (f1, .noFuel) => (f1, .noFuel)

/-- `Forest::cycle` (logic.rs 245-272): decide between closing the subtree
(clear), delaying negative links (requeue and delay), or propagating the
cycle upward (requeue). -/
def cycleBody (prev : Funcs κ) (f : Forest κ) (depth : StackIndex)
    (strands : List (Strand κ)) (minimums : Minimums) :
    Forest κ × Res (Option RecursiveSearchFail) :=
  match f.stack.get? depth with
  | none => (f, .panicked "stack index out of bounds")
  | some fr =>
    let table := fr.table
    match f.getTable table with
    | none => (f, .panicked "table index out of bounds")
    | some tb =>
      if !(tb.pop_next_strand).isNone then
        (f, .panicked "assert pop_next_strand is_none")
      else
        let dfn := fr.dfn
        if minimums.positive = dfn ∧ minimums.negative = DepthFirstNumber.MAX then
          match prev.clearF f table strands with
          | (f1, .ok ()) => (f1, .ok (some .NoMoreSolutions))
          | (f1, .panicked m) => (f1, .panicked m)
          | (f1, .noFuel) => (f1, .noFuel)
        else if DepthFirstNumber.le dfn minimums.positive &&
            DepthFirstNumber.le dfn minimums.negative then
          let visited : List TableIndex := [table]
          let f1 := f.setTable table (tb.extend_strands strands)
          match prev.delayF f1 table visited with
          | (f2, _, .ok ()) => (f2, .ok none)
          | (f2, _, .panicked m) => (f2, .panicked m)
          | (f2, _, .noFuel) => (f2, .noFuel)
        else
          (f.setTable table (tb.extend_strands strands),
            .ok (some (.Cycle minimums)))

/-- `Forest::clear_strands_after_cycle` (logic.rs 280-304): assert the table's
queue is empty, then recursively clear the tables referenced by the given
strands' selected subgoals. -/
def clearBody (prev : Funcs κ) (f : Forest κ) (table : TableIndex)
    (strands : List (Strand κ)) : Forest κ × Res Unit :=
  match f.getTable table with
  | none => (f, .panicked "table index out of bounds")
  | some tb =>
    if !(tb.pop_next_strand).isNone then
      (f, .panicked "assert pop_next_strand is_none")
    else prev.clearGo f strands

/-- The strand iteration of `clear_strands_after_cycle` (logic.rs 286-303):
for each strand, take all strands of its selected subgoal table and clear
them recursively. -/
def clearGoBody (prev : Funcs κ) (f : Forest κ) (strands : List (Strand κ)) :
    Forest κ × Res Unit :=
  match strands with
  | [] => (f, .ok ())
  | strand :: rest =>
    match strand.selected_subgoal with
    | none => (f, .panicked "clear_strands_after_cycle: no selected subgoal")
    | some sel =>
      let strand_table := sel.subgoal_table
      match f.getTable strand_table with
      | none => (f, .panicked "table index out of bounds")
      | some tbs =>
        let (taken, tbs1) := tbs.take_strands
        let f1 := f.setTable strand_table tbs1
        match prev.clearF f1 strand_table taken with
        | (f2, .ok ()) => prev.clearGo f2 rest
        | (f2, .panicked m) => (f2, .panicked m)
        | (f2, .noFuel) => (f2, .noFuel)

/-- `Forest::delay_strands_after_cycle` (logic.rs 310-346): convert the
currently selected negative literals of the table's strands into delayed
literals, then walk into the newly visited subgoal tables. -/
def delayBody (prev : Funcs κ) (f : Forest κ) (table : TableIndex)
    (visited : List TableIndex) : Forest κ × List TableIndex × Res Unit :=
  match f.getTable table with
  | none => (f, visited, .panicked "table index out of bounds")
  | some tb =>
    match delay_strand_loop tb.strands [] [] visited with
    | .ok (newStrands, tablesAcc, visited1) =>
      let f1 := f.setTable table { tb with strands := newStrands }
      prev.delayTables f1 tablesAcc visited1
    | .panicked m => (f, visited, .panicked m)
    | .noFuel => (f, visited, .noFuel)

/-- The table iteration at the end of `delay_strands_after_cycle` (logic.rs
343-345): recursively delay each collected table. -/
def delayTablesBody (prev : Funcs κ) (f : Forest κ) (ts : List TableIndex)
    (visited : List TableIndex) : Forest κ × List TableIndex × Res Unit :=
  match ts with
  | [] => (f, visited, .ok ())
  | t :: rest =>
    match prev.delayF f t visited with
    | (f1, v1, .ok ()) => prev.delayTables f1 rest v1
    | (f1, v1, .panicked m) => (f1, v1, .panicked m)
    | (f1, v1, .noFuel) => (f1, v1, .noFuel)

/-- `Forest::pursue_strand` (logic.rs 352-412): select a subgoal if none is
selected (floundering drops the subgoal and records `CannotProve`), produce
an answer when no subgoals remain, and otherwise dispatch on the polarity of
the selected literal. -/
def pursueBody (co : Collab κ) (prev : Funcs κ) (f : Forest κ)
    (depth : StackIndex) (strand : Strand κ) : Forest κ × StrandR κ :=
  match strand.selected_subgoal with
  | none =>
    if strand.ex_clause.subgoals.length = 0 then
      pursue_answer co f depth strand
    else
      let subgoal_index := strand.ex_clause.subgoals.length - 1
      match strand.ex_clause.subgoals.get? subgoal_index with
      | none => (f, .panicked "subgoal index out of bounds")
      | some lit =>
        match get_or_create_table_for_subgoal co f strand.infer lit with
        | (f1, some (subgoal_table, universe_map)) =>
          prev.pursue f1 depth { strand with
            selected_subgoal := some ⟨subgoal_index, subgoal_table, universe_map, 0⟩ }
        | (f1, none) =>
          prev.pursue f1 depth { strand with
            ex_clause := { strand.ex_clause with
              subgoals := strand.ex_clause.subgoals.eraseIdx subgoal_index,
              delayed_literals :=
                strand.ex_clause.delayed_literals ++ [.CannotProve] } }
  | some selected_subgoal =>
    match strand.ex_clause.subgoals.get? selected_subgoal.subgoal_index with
    | none => (f, .panicked "subgoal index out of bounds")
    | some (.Positive _) => prev.positive f depth strand selected_subgoal
    | some (.Negative _) => prev.negative f depth strand selected_subgoal

/-- `Forest::pursue_positive_subgoal` (logic.rs 834-958): ensure the needed
answer of the positive subgoal's table, enqueue the sibling strand for the
next answer index, and resolve the selected literal against the answer. -/
def positiveBody (co : Collab κ) (prev : Funcs κ) (f : Forest κ)
    (depth : StackIndex) (strand : Strand κ)
    (selected_subgoal : SelectedSubgoal κ) : Forest κ × StrandR κ :=
  match f.stack.get? depth with
  | none => (f, .panicked "stack index out of bounds")
  | some fr =>
    let table := fr.table
    let subgoal_index := selected_subgoal.subgoal_index
    let subgoal_table := selected_subgoal.subgoal_table
    let answer_index := selected_subgoal.answer_index
    let universe_map := selected_subgoal.universe_map
    match prev.ensure f subgoal_table answer_index with
    | (f1, .ok (.ok .AnswerAvailable)) =>
      match push_strand_pursuing_next_answer f1 depth strand selected_subgoal with
      | (f2, .ok ()) =>
        match strand.ex_clause.subgoals.get? subgoal_index with
        | none => (f2, .panicked "subgoal index out of bounds")
        | some (.Negative _) =>
          (f2, .panicked "pursue_positive_subgoal invoked with negative selected literal")
        | some (.Positive subgoal) =>
          let ex_clause1 := { strand.ex_clause with
            subgoals := strand.ex_clause.subgoals.eraseIdx subgoal_index }
          match f2.getTable subgoal_table with
          | none => (f2, .panicked "table index out of bounds")
          | some tbs =>
            let table_goal :=
              co.map_from_canonical_goal universe_map tbs.table_goal.canonical
            match tbs.answer answer_index with
            | none => (f2, .panicked "answer unwrap failed")
            | some answer0 =>
              let answer_subst :=
                co.map_from_canonical_subst universe_map answer0.subst
              match co.apply_answer_subst strand.infer ex_clause1 subgoal
                  table_goal answer_subst with
              | .Yes ex_clause2 =>
                let ex_clause3 :=
                  if !answer0.delayed_literals.delayed_literals.isEmpty then
                    { ex_clause2 with delayed_literals :=
                      ex_clause2.delayed_literals ++
                        [.Positive subgoal_table answer0.subst] }
                  else ex_clause2
                let ex_clause4 :=
                  co.truncate_returned strand.infer ex_clause3 f2.max_size
                prev.pursue f2 depth ⟨strand.infer, ex_clause4, none⟩
              | .No => (f2, .ok (.error .NoSolution))
      | (f2, .panicked m) => (f2, .panicked m)
      | (f2, .noFuel) => (f2, .noFuel)
    | (f1, .ok (.ok .Coinductive)) =>
      match f1.getTable table, f1.getTable subgoal_table with
      | some tbt, some tbs =>
        if tbt.coinductive_goal && tbs.coinductive_goal then
          match strand.ex_clause.subgoals.get? subgoal_index with
          | none => (f1, .panicked "subgoal index out of bounds")
          | some _ =>
            prev.pursue f1 depth ⟨strand.infer,
              { strand.ex_clause with
                subgoals := strand.ex_clause.subgoals.eraseIdx subgoal_index },
              none⟩
        else (f1, .panicked "assert coinductive_goal")
      | _, _ => (f1, .panicked "table index out of bounds")
    | (f1, .ok (.error .NoMoreSolutions)) => (f1, .ok (.error .NoSolution))
    | (f1, .ok (.error .QuantumExceeded)) =>
      match f1.getTable table with
      | none => (f1, .panicked "table index out of bounds")
      | some tbt =>
        (f1.setTable table (tbt.push_strand strand), .ok (.error .QuantumExceeded))
    | (f1, .ok (.error (.Cycle minimums))) =>
      (f1, .ok (.error (.Cycle strand minimums)))
    | (f1, .panicked m) => (f1, .panicked m)
    | (f1, .noFuel) => (f1, .noFuel)

/-- `Forest::pursue_negative_subgoal` (logic.rs 985-1098): ensure the answer
of the negative subgoal's table; an unconditional answer refutes the
negation, a conditional one is delayed, `NoMoreSolutions` lets the negation
succeed, cycles are wrapped with a negative minimum, and `QuantumExceeded`
re-enqueues the strand unchanged. -/
def negativeBody (co : Collab κ) (prev : Funcs κ) (f : Forest κ)
    (depth : StackIndex) (strand : Strand κ)
    (selected_subgoal : SelectedSubgoal κ) : Forest κ × StrandR κ :=
  match f.stack.get? depth with
  | none => (f, .panicked "stack index out of bounds")
  | some fr =>
    let table := fr.table
    let subgoal_table := selected_subgoal.subgoal_table
    let answer_index := selected_subgoal.answer_index
    match prev.ensure f subgoal_table answer_index with
    | (f1, .ok (.ok .AnswerAvailable)) =>
      match f1.getTable subgoal_table with
      | none => (f1, .panicked "table index out of bounds")
      | some tbs =>
        match tbs.answer answer_index with
        | none => (f1, .panicked "answer unwrap failed")
        | some answer0 =>
          if answer0.is_unconditional then (f1, .ok (.error .NoSolution))
          else
            match strand.ex_clause.subgoals.get? selected_subgoal.subgoal_index with
            | none => (f1, .panicked "subgoal index out of bounds")
            | some _ =>
              prev.pursue f1 depth (pursue_negative_continue strand
                selected_subgoal (some (.Negative subgoal_table)))
    | (f1, .ok (.ok .Coinductive)) => (f1, .ok (.error .NoSolution))
    | (f1, .ok (.error (.Cycle minimums))) =>
      let mn := minimums.minimum_of_pos_and_neg
      match f1.stack.get? depth with
      | none => (f1, .panicked "stack index out of bounds")
      | some fr1 => (f1, .ok (.error (.Cycle strand ⟨fr1.dfn, mn⟩)))
    | (f1, .ok (.error .NoMoreSolutions)) =>
      match strand.ex_clause.subgoals.get? selected_subgoal.subgoal_index with
      | none => (f1, .panicked "subgoal index out of bounds")
      | some _ =>
        prev.pursue f1 depth (pursue_negative_continue strand selected_subgoal none)
    | (f1, .ok (.error .QuantumExceeded)) =>
      match f1.getTable table with
      | none => (f1, .panicked "table index out of bounds")
      | some tbt =>
        (f1.setTable table (tbt.push_strand strand), .ok (.error .QuantumExceeded))
    | (f1, .panicked m) => (f1, .panicked m)
    | (f1, .noFuel) => (f1, .noFuel)

/-- One step of the cluster: each function's body calls the previous level. -/
def clusterStep (co : Collab κ) (prev : Funcs κ) : Funcs κ where
  ensure := ensureBody prev
  pns := pnsBody prev
  pnsLoop := pnsLoopBody prev
  pursue := pursueBody co prev
  positive := positiveBody co prev
  negative := negativeBody co prev
  cycleF := cycleBody prev
  clearF := clearBody prev
  clearGo := clearGoBody prev
  delayF := delayBody prev
  delayTables := delayTablesBody prev

/-- The fuel-indexed evaluator cluster. -/
def cluster (co : Collab κ) : Nat → Funcs κ
  | 0 => noFuelFuncs
  | n + 1 => clusterStep co (cluster co n)

/-- `Forest::ensure_answer_recursively`, fuel-indexed. -/
def ensure_answer_recursively (co : Collab κ) (fuel : Nat) (f : Forest κ)
    (table : TableIndex) (answer : AnswerIndex) : Forest κ × EnsureR :=
  (cluster co fuel).ensure f table answer

/-- `Forest::pursue_next_strand`, fuel-indexed. -/
def pursue_next_strand (co : Collab κ) (fuel : Nat) (f : Forest κ)
    (depth : StackIndex) : Forest κ × PnsR :=
  (cluster co fuel).pns f depth

/-- The scheduling loop of `Forest::pursue_next_strand`, fuel-indexed. -/
def pursue_next_strand_loop (co : Collab κ) (fuel : Nat) (f : Forest κ)
    (depth : StackIndex) (table : TableIndex) (cyclic_strands : List (Strand κ))
    (cyclic_minimums : Minimums) : Forest κ × PnsR :=
  (cluster co fuel).pnsLoop f depth table cyclic_strands cyclic_minimums

/-- `Forest::pursue_strand`, fuel-indexed. -/
def pursue_strand (co : Collab κ) (fuel : Nat) (f : Forest κ)
    (depth : StackIndex) (strand : Strand κ) : Forest κ × StrandR κ :=
  (cluster co fuel).pursue f depth strand

/-- `Forest::pursue_positive_subgoal`, fuel-indexed. -/
def pursue_positive_subgoal (co : Collab κ) (fuel : Nat) (f : Forest κ)
    (depth : StackIndex) (strand : Strand κ)
    (selected_subgoal : SelectedSubgoal κ) : Forest κ × StrandR κ :=
  (cluster co fuel).positive f depth strand selected_subgoal

/-- `Forest::pursue_negative_subgoal`, fuel-indexed. -/
def pursue_negative_subgoal (co : Collab κ) (fuel : Nat) (f : Forest κ)
    (depth : StackIndex) (strand : Strand κ)
    (selected_subgoal : SelectedSubgoal κ) : Forest κ × StrandR κ :=
  (cluster co fuel).negative f depth strand selected_subgoal

/-- `Forest::cycle`, fuel-indexed. -/
def cycle (co : Collab κ) (fuel : Nat) (f : Forest κ) (depth : StackIndex)
    (strands : List (Strand κ)) (minimums : Minimums) :
    Forest κ × Res (Option RecursiveSearchFail) :=
  (cluster co fuel).cycleF f depth strands minimums

/-- `Forest::clear_strands_after_cycle`, fuel-indexed. -/
def clear_strands_after_cycle (co : Collab κ) (fuel : Nat) (f : Forest κ)
    (table : TableIndex) (strands : List (Strand κ)) : Forest κ × Res Unit :=
  (cluster co fuel).clearF f table strands

/-- The strand iteration of `clear_strands_after_cycle`, fuel-indexed. -/
def clear_strands_go (co : Collab κ) (fuel : Nat) (f : Forest κ)
    (strands : List (Strand κ)) : Forest κ × Res Unit :=
  (cluster co fuel).clearGo f strands

/-- `Forest::delay_strands_after_cycle`, fuel-indexed. -/
def delay_strands_after_cycle (co : Collab κ) (fuel : Nat) (f : Forest κ)
    (table : TableIndex) (visited : List TableIndex) :
    Forest κ × List TableIndex × Res Unit :=
  (cluster co fuel).delayF f table visited

/-- The table iteration of `delay_strands_after_cycle`, fuel-indexed. -/
def delay_tables_after_cycle (co : Collab κ) (fuel : Nat) (f : Forest κ)
    (ts : List TableIndex) (visited : List TableIndex) :
    Forest κ × List TableIndex × Res Unit :=
  (cluster co fuel).delayTables f ts visited

/-- `Forest::ensure_root_answer` (logic.rs 88-106): assert the stack is empty,
run the recursive search, map its outcome, and panic on a cyclic result. -/
def ensure_root_answer (co : Collab κ) (fuel : Nat) (f : Forest κ)
    (table : TableIndex) (answer : AnswerIndex) :
    Forest κ × Res (Except RootSearchFail Unit) :=
  if !f.stack.isEmpty then (f, .panicked "assert stack is_empty")
  else
    match ensure_answer_recursively co fuel f table answer with
    | (f1, .ok (.ok .AnswerAvailable)) => (f1, .ok (.ok ()))
    | (f1, .ok (.error .NoMoreSolutions)) => (f1, .ok (.error .NoMoreSolutions))
    | (f1, .ok (.error .QuantumExceeded)) => (f1, .ok (.error .QuantumExceeded))
    | (f1, .ok (.ok .Coinductive)) =>
      (f1, .panicked "ensure_root_answer: nothing on the stack but cyclic result")
    | (f1, .ok (.error (.Cycle _))) =>
      (f1, .panicked "ensure_root_answer: nothing on the stack but cyclic result")
    | (f1, .panicked m) => (f1, .panicked m)
    | (f1, .noFuel) => (f1, .noFuel)

/-! ## Unfolding lemmas for the cluster -/

theorem cluster_ensure (co : Collab κ) (n : Nat) :
    (cluster co (n + 1)).ensure = ensureBody (cluster co n) := rfl

theorem cluster_pns (co : Collab κ) (n : Nat) :
    (cluster co (n + 1)).pns = pnsBody (cluster co n) := rfl

theorem cluster_pnsLoop (co : Collab κ) (n : Nat) :
    (cluster co (n + 1)).pnsLoop = pnsLoopBody (cluster co n) := rfl

theorem cluster_pursue (co : Collab κ) (n : Nat) :
    (cluster co (n + 1)).pursue = pursueBody co (cluster co n) := rfl

theorem cluster_positive (co : Collab κ) (n : Nat) :
    (cluster co (n + 1)).positive = positiveBody co (cluster co n) := rfl

theorem cluster_negative (co : Collab κ) (n : Nat) :
    (cluster co (n + 1)).negative = negativeBody co (cluster co n) := rfl

theorem cluster_cycleF (co : Collab κ) (n : Nat) :
    (cluster co (n + 1)).cycleF = cycleBody (cluster co n) := rfl

theorem cluster_clearF (co : Collab κ) (n : Nat) :
    (cluster co (n + 1)).clearF = clearBody (cluster co n) := rfl

theorem cluster_clearGo (co : Collab κ) (n : Nat) :
    (cluster co (n + 1)).clearGo = clearGoBody (cluster co n) := rfl

theorem cluster_delayF (co : Collab κ) (n : Nat) :
    (cluster co (n + 1)).delayF = delayBody (cluster co n) := rfl

theorem cluster_delayTables (co : Collab κ) (n : Nat) :
    (cluster co (n + 1)).delayTables = delayTablesBody (cluster co n) := rfl

/-! ## A concrete instantiation used by witnesses and counterexamples -/

/-- Concrete carrier types: substitutions and canonical goals are numbers,
everything else is trivial. -/
abbrev TypesNat : Types where
  S := Nat
  C := Nat
  E := Unit
  D := Unit
  H := Unit
  PC := Unit
  I := Unit
  U := Unit
  Q := Nat
  B := Unit
  deqS := inferInstanceAs (DecidableEq Nat)
  deqC := inferInstanceAs (DecidableEq Nat)
  deqQ := inferInstanceAs (DecidableEq Nat)

/-- A concrete collaborator assignment: inversion succeeds, truncation never
overflows, every substitution is trivial, and answer application bumps the
substitution (so distinct answers stay distinct). -/
def coNat : Collab TypesNat where
  canonicalize_subst := fun _ cs => ⟨cs⟩
  canonicalize_goal := fun _ _ => 0
  u_canonicalize := fun _ q => (⟨q⟩, ())
  invert := fun _ g => some g
  truncate_goal := fun _ _ g => ⟨false, g⟩
  truncate_returned := fun _ e _ => e
  is_trivial_substitution := fun _ _ => true
  is_coinductive := fun _ => false
  map_from_canonical_goal := fun _ _ => ⟨(), .leaf ()⟩
  map_from_canonical_subst := fun _ c => c
  apply_answer_subst := fun _ e _ _ _ => .Yes { e with subst := e.subst + 1 }
  resolvent_clause := fun _ _ _ _ => .No
  simplify_hh_goal := fun _ _ _ => .No
  clauses := fun _ => []
  instantiate_universes := fun _ g => g
  ucanonical_binders := fun _ => ()
  fresh_subst := fun _ _ => 0
  substitute := fun _ _ => ⟨(), .leaf ()⟩
  infer_init := ()
  cs_le := fun a b => a.value.subst ≤ b.value.subst

/-- Like `coNat` but every inversion fails, so negative literals flounder. -/
def coNatFlounder : Collab TypesNat :=
  { coNat with invert := fun _ _ => none }

/-! ## Step lemmas for the fuel-indexed wrappers -/

theorem ensure_succ (co : Collab κ) (fuel : Nat) :
    ensure_answer_recursively co (fuel + 1) = ensureBody (cluster co fuel) := rfl

theorem pns_succ (co : Collab κ) (fuel : Nat) :
    pursue_next_strand co (fuel + 1) = pnsBody (cluster co fuel) := rfl

theorem pnsLoop_succ (co : Collab κ) (fuel : Nat) :
    pursue_next_strand_loop co (fuel + 1) = pnsLoopBody (cluster co fuel) := rfl

theorem pursue_succ (co : Collab κ) (fuel : Nat) :
    pursue_strand co (fuel + 1) = pursueBody co (cluster co fuel) := rfl

theorem positive_succ (co : Collab κ) (fuel : Nat) :
    pursue_positive_subgoal co (fuel + 1) =
      positiveBody co (cluster co fuel) := rfl

theorem negative_succ (co : Collab κ) (fuel : Nat) :
    pursue_negative_subgoal co (fuel + 1) =
      negativeBody co (cluster co fuel) := rfl

theorem cycle_succ (co : Collab κ) (fuel : Nat) :
    cycle co (fuel + 1) = cycleBody (cluster co fuel) := rfl

theorem clearF_succ (co : Collab κ) (fuel : Nat) :
    clear_strands_after_cycle co (fuel + 1) = clearBody (cluster co fuel) := rfl

theorem clearGo_succ (co : Collab κ) (fuel : Nat) :
    clear_strands_go co (fuel + 1) = clearGoBody (cluster co fuel) := rfl

theorem delayF_succ (co : Collab κ) (fuel : Nat) :
    delay_strands_after_cycle co (fuel + 1) = delayBody (cluster co fuel) := rfl

theorem delayTables_succ (co : Collab κ) (fuel : Nat) :
    delay_tables_after_cycle co (fuel + 1) =
      delayTablesBody (cluster co fuel) := rfl

/-! ## Wrapper view of the cluster fields -/

theorem cluster_ensure_eq (co : Collab κ) (fuel : Nat) :
    (cluster co fuel).ensure = ensure_answer_recursively co fuel := rfl

theorem cluster_pns_eq (co : Collab κ) (fuel : Nat) :
    (cluster co fuel).pns = pursue_next_strand co fuel := rfl

theorem cluster_pnsLoop_eq (co : Collab κ) (fuel : Nat) :
    (cluster co fuel).pnsLoop = pursue_next_strand_loop co fuel := rfl

theorem cluster_pursue_eq (co : Collab κ) (fuel : Nat) :
    (cluster co fuel).pursue = pursue_strand co fuel := rfl

theorem cluster_positive_eq (co : Collab κ) (fuel : Nat) :
    (cluster co fuel).positive = pursue_positive_subgoal co fuel := rfl

theorem cluster_negative_eq (co : Collab κ) (fuel : Nat) :
    (cluster co fuel).negative = pursue_negative_subgoal co fuel := rfl

theorem cluster_cycleF_eq (co : Collab κ) (fuel : Nat) :
    (cluster co fuel).cycleF = cycle co fuel := rfl

theorem cluster_clearF_eq (co : Collab κ) (fuel : Nat) :
    (cluster co fuel).clearF = clear_strands_after_cycle co fuel := rfl

theorem cluster_clearGo_eq (co : Collab κ) (fuel : Nat) :
    (cluster co fuel).clearGo = clear_strands_go co fuel := rfl

theorem cluster_delayF_eq (co : Collab κ) (fuel : Nat) :
    (cluster co fuel).delayF = delay_strands_after_cycle co fuel := rfl

theorem cluster_delayTables_eq (co : Collab κ) (fuel : Nat) :
    (cluster co fuel).delayTables = delay_tables_after_cycle co fuel := rfl

/-! ## C9 -/

/-- C9: for every table and answer index such that the table already contains
an answer at that index, `ensure_answer_recursively` returns `AnswerAvailable`
immediately and returns the forest unchanged (tables, answers, strand queues,
stack and DFN counter are all components of the returned forest, which is the
input forest itself); since the state is unchanged, repeating the request
yields the same result. -/
theorem ensure_cached_idempotent (co : Collab κ) (fuel : Nat) (f : Forest κ)
    (table : TableIndex) (answer : AnswerIndex) (tb : Table κ) (ans : Answer κ)
    (h : f.getTable table = some tb) (ha : tb.answer answer = some ans) :
    ensure_answer_recursively co (fuel + 1) f table answer =
      (f, .ok (.ok .AnswerAvailable)) := by
  simp only [ensure_answer_recursively, cluster, clusterStep, ensureBody, h, ha]

/-- Witness for C9 at a concrete forest with a cached answer. -/
theorem ensure_cached_idempotent_witness :
    ((⟨[⟨⟨0⟩, false, [⟨⟨⟨0, []⟩⟩, ⟨[]⟩⟩], []⟩], [], 0, 10⟩ :
        Forest TypesNat).getTable 0 =
      some ⟨⟨0⟩, false, [⟨⟨⟨0, []⟩⟩, ⟨[]⟩⟩], []⟩) ∧
    ((⟨⟨0⟩, false, [⟨⟨⟨0, []⟩⟩, ⟨[]⟩⟩], []⟩ : Table TypesNat).answer 0 =
      some ⟨⟨⟨0, []⟩⟩, ⟨[]⟩⟩) ∧
    ensure_answer_recursively coNat 3 (⟨[⟨⟨0⟩, false, [⟨⟨⟨0, []⟩⟩, ⟨[]⟩⟩], []⟩],
        [], 0, 10⟩ : Forest TypesNat) 0 0 =
      ((⟨[⟨⟨0⟩, false, [⟨⟨⟨0, []⟩⟩, ⟨[]⟩⟩], []⟩], [], 0, 10⟩ : Forest TypesNat),
        .ok (.ok .AnswerAvailable)) :=
  ⟨rfl, rfl, ensure_cached_idempotent coNat 2 _ 0 0 _ _ rfl rfl⟩

/-! ## C2 -/

/-- Counterexample for C2 as stated: with the answer uncached, the table on
the stack at depth 0, and every frame from depth 0 coinductive, a request
whose index skips ahead of `next_answer_index` panics on the
`assert_eq!` instead of returning `Coinductive`, so the claimed
"if and only if" fails without the additional precondition
`answer = next_answer_index(table)`. -/
theorem ensure_on_stack_skipped_index_not_coinductive :
    ((⟨[⟨⟨0⟩, true, [], []⟩], [⟨0, .fin 0, true⟩], 1, 10⟩ :
        Forest TypesNat).getTable 0).map (fun tb => tb.answer 1) = some none ∧
    Forest.is_active (⟨[⟨⟨0⟩, true, [], []⟩], [⟨0, .fin 0, true⟩], 1, 10⟩ :
      Forest TypesNat) 0 = some 0 ∧
    Forest.top_of_stack_is_coinductive_from
      (⟨[⟨⟨0⟩, true, [], []⟩], [⟨0, .fin 0, true⟩], 1, 10⟩ : Forest TypesNat) 0 =
      true ∧
    (ensure_answer_recursively coNat 5
        (⟨[⟨⟨0⟩, true, [], []⟩], [⟨0, .fin 0, true⟩], 1, 10⟩ : Forest TypesNat)
        0 1).2 ≠ .ok (.ok .Coinductive) := by
  refine ⟨rfl, rfl, rfl, ?_⟩
  decide

/-- C2 (amended with the assertion precondition `answer =
next_answer_index(table)`): on a cache miss for a table that is active on the
stack at depth `d`, `ensure_answer_recursively` returns `Coinductive` if and
only if every stack frame from `d` to the top is coinductive, and otherwise
returns `Cycle (Minimums (positive := dfn of frame d) (negative := MAX))`. -/
theorem ensure_cycle_detection (co : Collab κ) (fuel : Nat) (f : Forest κ)
    (table : TableIndex) (answer : AnswerIndex) (tb : Table κ)
    (d : StackIndex) (fr : StackFrame κ)
    (h : f.getTable table = some tb) (hnc : tb.answer answer = none)
    (hnext : tb.next_answer_index = answer)
    (hact : f.is_active table = some d)
    (hfr : f.stack.get? d = some fr) :
    ensure_answer_recursively co (fuel + 1) f table answer =
      (f, if f.top_of_stack_is_coinductive_from d then .ok (.ok .Coinductive)
          else .ok (.error (.Cycle ⟨fr.dfn, .MAX⟩))) := by
  simp only [ensure_answer_recursively, cluster, clusterStep, ensureBody, h,
    hnc, hnext, hact, hfr]
  by_cases hc : f.top_of_stack_is_coinductive_from d
  · simp [hc]
  · simp [hc, hfr]

/-- Witness for the amended C2 at a concrete coinductive self-cycle. -/
theorem ensure_cycle_detection_witness :
    ((⟨[⟨⟨0⟩, true, [], []⟩], [⟨0, .fin 0, true⟩], 1, 10⟩ :
        Forest TypesNat).getTable 0 = some ⟨⟨0⟩, true, [], []⟩) ∧
    ((⟨⟨0⟩, true, [], []⟩ : Table TypesNat).answer 0 = none) ∧
    ((⟨⟨0⟩, true, [], []⟩ : Table TypesNat).next_answer_index = 0) ∧
    (Forest.is_active (⟨[⟨⟨0⟩, true, [], []⟩], [⟨0, .fin 0, true⟩], 1, 10⟩ :
      Forest TypesNat) 0 = some 0) ∧
    ensure_answer_recursively coNat 4
        (⟨[⟨⟨0⟩, true, [], []⟩], [⟨0, .fin 0, true⟩], 1, 10⟩ : Forest TypesNat)
        0 0 =
      ((⟨[⟨⟨0⟩, true, [], []⟩], [⟨0, .fin 0, true⟩], 1, 10⟩ : Forest TypesNat),
        .ok (.ok .Coinductive)) := by
  refine ⟨rfl, rfl, rfl, rfl, ?_⟩
  have := ensure_cycle_detection coNat 3
    (⟨[⟨⟨0⟩, true, [], []⟩], [⟨0, .fin 0, true⟩], 1, 10⟩ : Forest TypesNat)
    0 0 ⟨⟨0⟩, true, [], []⟩ 0 ⟨0, .fin 0, true⟩ rfl rfl rfl rfl rfl
  simpa using this

/-! ## C4 -/

/-- C4: in `pursue_negative_subgoal`, when the recursive search finds the
requested answer: an unconditional answer (no delayed literals, no
constraints) refutes the negation and the strand fails with `NoSolution`;
a conditional answer makes the strand continue with the negative subgoal
removed and `Negative(subgoal_table)` appended to the ex-clause's delayed
literals, with no subgoal selected. -/
theorem negative_unconditional_refutes_else_delays (co : Collab κ) (fuel : Nat)
    (f f1 : Forest κ) (depth : StackIndex) (strand : Strand κ)
    (sel : SelectedSubgoal κ) (fr : StackFrame κ) (tbs : Table κ)
    (ans : Answer κ)
    (hfr : f.stack.get? depth = some fr)
    (hens : ensure_answer_recursively co fuel f sel.subgoal_table
      sel.answer_index = (f1, .ok (.ok .AnswerAvailable)))
    (h1 : f1.getTable sel.subgoal_table = some tbs)
    (h2 : tbs.answer sel.answer_index = some ans) :
    (ans.is_unconditional = true →
      pursue_negative_subgoal co (fuel + 1) f depth strand sel =
        (f1, .ok (.error .NoSolution))) ∧
    (ans.is_unconditional = false →
      ∀ lit, strand.ex_clause.subgoals.get? sel.subgoal_index = some lit →
        pursue_negative_subgoal co (fuel + 1) f depth strand sel =
          pursue_strand co fuel f1 depth
            ⟨strand.infer,
              ⟨strand.ex_clause.subst, strand.ex_clause.constraints,
                strand.ex_clause.subgoals.eraseIdx sel.subgoal_index,
                strand.ex_clause.delayed_literals ++
                  [.Negative sel.subgoal_table]⟩,
              none⟩) := by
  constructor
  · intro hu
    simp only [pursue_negative_subgoal, cluster, clusterStep, negativeBody,
      hfr, cluster_ensure_eq, hens, h1, h2, hu, if_true]
  · intro hu lit hlit
    simp only [pursue_negative_subgoal, cluster, clusterStep, negativeBody,
      hfr, cluster_ensure_eq, hens, h1, h2, hu, hlit, cluster_pursue_eq,
      pursue_negative_continue, Option.toList, Bool.false_eq_true, if_false]

/-- Witness for C4 at a concrete unconditional cached answer. -/
theorem negative_unconditional_refutes_witness :
    ((⟨[⟨⟨0⟩, false, [], []⟩, ⟨⟨1⟩, false, [⟨⟨⟨0, []⟩⟩, ⟨[]⟩⟩], []⟩],
        [⟨0, .fin 0, false⟩], 1, 10⟩ : Forest TypesNat).stack.get? 0 =
      some ⟨0, .fin 0, false⟩) ∧
    (ensure_answer_recursively coNat 1
        (⟨[⟨⟨0⟩, false, [], []⟩, ⟨⟨1⟩, false, [⟨⟨⟨0, []⟩⟩, ⟨[]⟩⟩], []⟩],
          [⟨0, .fin 0, false⟩], 1, 10⟩ : Forest TypesNat) 1 0 =
      ((⟨[⟨⟨0⟩, false, [], []⟩, ⟨⟨1⟩, false, [⟨⟨⟨0, []⟩⟩, ⟨[]⟩⟩], []⟩],
          [⟨0, .fin 0, false⟩], 1, 10⟩ : Forest TypesNat),
        .ok (.ok .AnswerAvailable))) ∧
    ((⟨⟨⟨0, []⟩⟩, ⟨[]⟩⟩ : Answer TypesNat).is_unconditional = true) ∧
    pursue_negative_subgoal coNat 2
        (⟨[⟨⟨0⟩, false, [], []⟩, ⟨⟨1⟩, false, [⟨⟨⟨0, []⟩⟩, ⟨[]⟩⟩], []⟩],
          [⟨0, .fin 0, false⟩], 1, 10⟩ : Forest TypesNat) 0
        ⟨(), ⟨5, [], [.Negative ⟨(), .leaf ()⟩], []⟩, some ⟨0, 1, (), 0⟩⟩
        ⟨0, 1, (), 0⟩ =
      ((⟨[⟨⟨0⟩, false, [], []⟩, ⟨⟨1⟩, false, [⟨⟨⟨0, []⟩⟩, ⟨[]⟩⟩], []⟩],
          [⟨0, .fin 0, false⟩], 1, 10⟩ : Forest TypesNat),
        .ok (.error .NoSolution)) :=
  ⟨rfl, rfl, rfl,
    (negative_unconditional_refutes_else_delays coNat 1
      (⟨[⟨⟨0⟩, false, [], []⟩, ⟨⟨1⟩, false, [⟨⟨⟨0, []⟩⟩, ⟨[]⟩⟩], []⟩],
        [⟨0, .fin 0, false⟩], 1, 10⟩ : Forest TypesNat)
      (⟨[⟨⟨0⟩, false, [], []⟩, ⟨⟨1⟩, false, [⟨⟨⟨0, []⟩⟩, ⟨[]⟩⟩], []⟩],
        [⟨0, .fin 0, false⟩], 1, 10⟩ : Forest TypesNat) 0
      ⟨(), ⟨5, [], [.Negative ⟨(), .leaf ()⟩], []⟩, some ⟨0, 1, (), 0⟩⟩
      ⟨0, 1, (), 0⟩ ⟨0, .fin 0, false⟩ ⟨⟨1⟩, false, [⟨⟨⟨0, []⟩⟩, ⟨[]⟩⟩], []⟩
      ⟨⟨⟨0, []⟩⟩, ⟨[]⟩⟩ rfl rfl rfl rfl).1 rfl⟩

/-! ## C10 -/

/-- C10: `pursue_negative_subgoal` consults only the single answer index
recorded in the selected subgoal and never enqueues a sibling strand with an
incremented answer index: on `QuantumExceeded` the very same strand is
re-pushed unchanged; a cycle returns the strand unchanged with the forest
exactly as the recursive search left it; `Coinductive` fails the strand
without touching any queue; on `NoMoreSolutions` the strand continues with
its selection cleared; and on `AnswerAvailable` an unconditional answer
fails the strand with the forest exactly as the recursive search left it,
while a conditional answer continues with the delayed-literal continuation,
whose selection is cleared (so any enqueuing with an incremented answer
index happens only through the positive path). -/
theorem negative_no_sibling (co : Collab κ) (fuel : Nat) (f : Forest κ)
    (depth : StackIndex) (strand : Strand κ) (sel : SelectedSubgoal κ)
    (fr : StackFrame κ) (hfr : f.stack.get? depth = some fr) :
    (∀ f1 tbt, ensure_answer_recursively co fuel f sel.subgoal_table
        sel.answer_index = (f1, .ok (.error .QuantumExceeded)) →
      f1.getTable fr.table = some tbt →
      pursue_negative_subgoal co (fuel + 1) f depth strand sel =
        (f1.setTable fr.table (tbt.push_strand strand),
          .ok (.error .QuantumExceeded))) ∧
    (∀ f1 m fr1, ensure_answer_recursively co fuel f sel.subgoal_table
        sel.answer_index = (f1, .ok (.error (.Cycle m))) →
      f1.stack.get? depth = some fr1 →
      pursue_negative_subgoal co (fuel + 1) f depth strand sel =
        (f1, .ok (.error (.Cycle strand
          ⟨fr1.dfn, m.minimum_of_pos_and_neg⟩)))) ∧
    (∀ f1, ensure_answer_recursively co fuel f sel.subgoal_table
        sel.answer_index = (f1, .ok (.ok .Coinductive)) →
      pursue_negative_subgoal co (fuel + 1) f depth strand sel =
        (f1, .ok (.error .NoSolution))) ∧
    (∀ f1 lit, ensure_answer_recursively co fuel f sel.subgoal_table
        sel.answer_index = (f1, .ok (.error .NoMoreSolutions)) →
      strand.ex_clause.subgoals.get? sel.subgoal_index = some lit →
      pursue_negative_subgoal co (fuel + 1) f depth strand sel =
        pursue_strand co fuel f1 depth
          (pursue_negative_continue strand sel none) ∧
      (pursue_negative_continue strand sel none).selected_subgoal = none) ∧
    (∀ f1 tbs ans, ensure_answer_recursively co fuel f sel.subgoal_table
        sel.answer_index = (f1, .ok (.ok .AnswerAvailable)) →
      f1.getTable sel.subgoal_table = some tbs →
      tbs.answer sel.answer_index = some ans →
      ans.is_unconditional = true →
      pursue_negative_subgoal co (fuel + 1) f depth strand sel =
        (f1, .ok (.error .NoSolution))) ∧
    (∀ f1 tbs ans lit, ensure_answer_recursively co fuel f sel.subgoal_table
        sel.answer_index = (f1, .ok (.ok .AnswerAvailable)) →
      f1.getTable sel.subgoal_table = some tbs →
      tbs.answer sel.answer_index = some ans →
      ans.is_unconditional = false →
      strand.ex_clause.subgoals.get? sel.subgoal_index = some lit →
      pursue_negative_subgoal co (fuel + 1) f depth strand sel =
        pursue_strand co fuel f1 depth
          (pursue_negative_continue strand sel
            (some (.Negative sel.subgoal_table))) ∧
      (pursue_negative_continue strand sel
        (some (.Negative sel.subgoal_table))).selected_subgoal = none) := by
  refine ⟨?_, ?_, ?_, ?_, ?_, ?_⟩
  · intro f1 tbt hens htbt
    simp only [pursue_negative_subgoal, cluster, clusterStep, negativeBody,
      hfr, cluster_ensure_eq, hens, htbt]
  · intro f1 m fr1 hens hfr1
    simp only [pursue_negative_subgoal, cluster, clusterStep, negativeBody,
      hfr, cluster_ensure_eq, hens, hfr1]
  · intro f1 hens
    simp only [pursue_negative_subgoal, cluster, clusterStep, negativeBody,
      hfr, cluster_ensure_eq, hens]
  · intro f1 lit hens hlit
    refine ⟨?_, rfl⟩
    simp only [pursue_negative_subgoal, cluster, clusterStep, negativeBody,
      hfr, cluster_ensure_eq, hens, hlit, cluster_pursue_eq]
  · intro f1 tbs ans hens htbs hans hu
    simp only [pursue_negative_subgoal, cluster, clusterStep, negativeBody,
      hfr, cluster_ensure_eq, hens, htbs, hans, hu, if_true]
  · intro f1 tbs ans lit hens htbs hans hu hlit
    refine ⟨?_, rfl⟩
    simp only [pursue_negative_subgoal, cluster, clusterStep, negativeBody,
      hfr, cluster_ensure_eq, hens, htbs, hans, hu, hlit, cluster_pursue_eq,
      Bool.false_eq_true, if_false]

/-- Witness for C10: the `QuantumExceeded` case re-pushes the same strand. -/
theorem negative_no_sibling_witness :
    ((⟨[⟨⟨0⟩, false, [], []⟩,
        ⟨⟨1⟩, false, [⟨⟨⟨7, []⟩⟩, ⟨[]⟩⟩], [⟨(), ⟨7, [], [], []⟩, none⟩]⟩],
        [⟨0, .fin 0, false⟩], 1, 10⟩ : Forest TypesNat).stack.get? 0 =
      some ⟨0, .fin 0, false⟩) ∧
    (ensure_answer_recursively coNat 4
        (⟨[⟨⟨0⟩, false, [], []⟩,
          ⟨⟨1⟩, false, [⟨⟨⟨7, []⟩⟩, ⟨[]⟩⟩], [⟨(), ⟨7, [], [], []⟩, none⟩]⟩],
          [⟨0, .fin 0, false⟩], 1, 10⟩ : Forest TypesNat) 1 1 =
      ((⟨[⟨⟨0⟩, false, [], []⟩, ⟨⟨1⟩, false, [⟨⟨⟨7, []⟩⟩, ⟨[]⟩⟩], []⟩],
          [⟨0, .fin 0, false⟩], 2, 10⟩ : Forest TypesNat),
        .ok (.error .QuantumExceeded))) ∧
    pursue_negative_subgoal coNat 5
        (⟨[⟨⟨0⟩, false, [], []⟩,
          ⟨⟨1⟩, false, [⟨⟨⟨7, []⟩⟩, ⟨[]⟩⟩], [⟨(), ⟨7, [], [], []⟩, none⟩]⟩],
          [⟨0, .fin 0, false⟩], 1, 10⟩ : Forest TypesNat) 0
        ⟨(), ⟨5, [], [.Negative ⟨(), .leaf ()⟩], []⟩, some ⟨0, 1, (), 1⟩⟩
        ⟨0, 1, (), 1⟩ =
      ((⟨[⟨⟨0⟩, false, [],
            [⟨(), ⟨5, [], [.Negative ⟨(), .leaf ()⟩], []⟩, some ⟨0, 1, (), 1⟩⟩]⟩,
          ⟨⟨1⟩, false, [⟨⟨⟨7, []⟩⟩, ⟨[]⟩⟩], []⟩],
          [⟨0, .fin 0, false⟩], 2, 10⟩ : Forest TypesNat),
        .ok (.error .QuantumExceeded)) :=
  ⟨rfl, rfl,
    (negative_no_sibling coNat 4
      (⟨[⟨⟨0⟩, false, [], []⟩,
        ⟨⟨1⟩, false, [⟨⟨⟨7, []⟩⟩, ⟨[]⟩⟩], [⟨(), ⟨7, [], [], []⟩, none⟩]⟩],
        [⟨0, .fin 0, false⟩], 1, 10⟩ : Forest TypesNat) 0
      ⟨(), ⟨5, [], [.Negative ⟨(), .leaf ()⟩], []⟩, some ⟨0, 1, (), 1⟩⟩
      ⟨0, 1, (), 1⟩ ⟨0, .fin 0, false⟩ rfl).1
      (⟨[⟨⟨0⟩, false, [], []⟩, ⟨⟨1⟩, false, [⟨⟨⟨7, []⟩⟩, ⟨[]⟩⟩], []⟩],
        [⟨0, .fin 0, false⟩], 2, 10⟩ : Forest TypesNat)
      ⟨⟨0⟩, false, [], []⟩ rfl rfl⟩

/-! ## C7 -/

/-- `abstract_negative_literal` fails exactly when inversion fails or when
truncating the inverted subgoal reports overflow. -/
theorem abstract_negative_none_iff (co : Collab κ) (f : Forest κ)
    (infer : κ.I) (g : GoalInEnv κ) :
    abstract_negative_literal co f infer g = none ↔
      (co.invert infer g = none ∨
        ∃ g', co.invert infer g = some g' ∧
          (co.truncate_goal infer f.max_size g').overflow = true) := by
  unfold abstract_negative_literal
  cases hinv : co.invert infer g with
  | none => simp [hinv]
  | some g' =>
    by_cases hov : (co.truncate_goal infer f.max_size g').overflow = true
    · simp [hinv, hov]
    · simp [hinv, hov]

/-- C7: subgoal abstraction is asymmetric by polarity: table creation for a
positive literal always yields a table (abstraction never fails, the overflow
flag is ignored), while for a negative literal it fails (floundering) exactly
when inversion of the subgoal fails or truncating the inverted subgoal
reports overflow. -/
theorem abstraction_asymmetry (co : Collab κ) (f : Forest κ) (infer : κ.I) :
    (∀ g, (get_or_create_table_for_subgoal co f infer (.Positive g)).2.isSome
      = true) ∧
    (∀ g, (get_or_create_table_for_subgoal co f infer (.Negative g)).2 = none ↔
      (co.invert infer g = none ∨
        ∃ g', co.invert infer g = some g' ∧
          (co.truncate_goal infer f.max_size g').overflow = true)) := by
  constructor
  · intro g
    rfl
  · intro g
    rw [← abstract_negative_none_iff co f infer g]
    unfold get_or_create_table_for_subgoal
    cases habs : abstract_negative_literal co f infer g with
    | none => simp [habs]
    | some q => simp [habs]

/-! ## C6 -/

/-- When `get_or_create_table_for_subgoal` flounders it leaves the forest
untouched. -/
theorem get_or_create_none_eq (co : Collab κ) (f : Forest κ) (infer : κ.I)
    (lit : Literal κ)
    (h : (get_or_create_table_for_subgoal co f infer lit).2 = none) :
    get_or_create_table_for_subgoal co f infer lit = (f, none) := by
  unfold get_or_create_table_for_subgoal at h ⊢
  cases lit with
  | Positive g => simp at h
  | Negative g =>
    cases habs : abstract_negative_literal co f infer g with
    | none => simp [habs]
    | some q => simp [habs] at h

/-- C6, part one of the statement: the floundering step of the selection loop
in `pursue_strand`: if the last subgoal's table creation flounders, the
subgoal is removed, `CannotProve` is pushed onto the delayed literals, and the
loop continues on the modified strand. -/
theorem pursue_strand_flounder_step (co : Collab κ) (fuel : Nat)
    (f f1 : Forest κ) (depth : StackIndex) (strand : Strand κ)
    (lit : Literal κ)
    (hsel : strand.selected_subgoal = none)
    (hne : strand.ex_clause.subgoals.length ≠ 0)
    (hlast : strand.ex_clause.subgoals.get?
      (strand.ex_clause.subgoals.length - 1) = some lit)
    (hfl : get_or_create_table_for_subgoal co f strand.infer lit = (f1, none)) :
    pursue_strand co (fuel + 1) f depth strand =
      pursue_strand co fuel f1 depth
        { strand with ex_clause := { strand.ex_clause with
            subgoals := strand.ex_clause.subgoals.eraseIdx
              (strand.ex_clause.subgoals.length - 1),
            delayed_literals :=
              strand.ex_clause.delayed_literals ++ [.CannotProve] } } := by
  rw [pursue_succ]
  simp only [pursueBody, hsel, hne, hlast, hfl, cluster_pursue_eq, if_false]

/-- C6: for every subgoal whose table creation flounders, `pursue_strand`
removes the subgoal, pushes `CannotProve` onto the delayed literals, and
continues; in particular, when every subgoal flounders the selection loop
consumes them all and ends in `pursue_answer` on the fully floundered
ex-clause — floundering never aborts the query with an error result. -/
theorem flounder_continues (co : Collab κ) (depth : StackIndex) :
    (∀ fuel (f f1 : Forest κ) (strand : Strand κ) lit,
      strand.selected_subgoal = none →
      strand.ex_clause.subgoals.length ≠ 0 →
      strand.ex_clause.subgoals.get?
        (strand.ex_clause.subgoals.length - 1) = some lit →
      get_or_create_table_for_subgoal co f strand.infer lit = (f1, none) →
      pursue_strand co (fuel + 1) f depth strand =
        pursue_strand co fuel f1 depth
          { strand with ex_clause := { strand.ex_clause with
              subgoals := strand.ex_clause.subgoals.eraseIdx
                (strand.ex_clause.subgoals.length - 1),
              delayed_literals :=
                strand.ex_clause.delayed_literals ++ [.CannotProve] } }) ∧
    (∀ fuel (f : Forest κ) (strand : Strand κ),
      strand.selected_subgoal = none →
      (∀ lit ∈ strand.ex_clause.subgoals,
        (get_or_create_table_for_subgoal co f strand.infer lit).2 = none) →
      strand.ex_clause.subgoals.length < fuel →
      pursue_strand co fuel f depth strand =
        pursue_answer co f depth
          ⟨strand.infer,
            ⟨strand.ex_clause.subst, strand.ex_clause.constraints, [],
              strand.ex_clause.delayed_literals ++
                List.replicate strand.ex_clause.subgoals.length .CannotProve⟩,
            none⟩) := by
  constructor
  · intro fuel f f1 strand lit hsel hne hlast hfl
    exact pursue_strand_flounder_step co fuel f f1 depth strand lit hsel hne
      hlast hfl
  · intro fuel
    induction fuel with
    | zero => intro f strand _ _ hlt; omega
    | succ n ih =>
      intro f strand hsel hall hlt
      obtain ⟨infer, ⟨su, cs, ss, dl⟩, selv⟩ := strand
      simp only at hsel
      subst hsel
      match hss : ss with
      | [] =>
        simp [pursue_strand, cluster, clusterStep, pursueBody]
      | a :: ss' =>
        have hlen : (a :: ss').length ≠ 0 := by simp
        have hidx : (a :: ss').length - 1 < (a :: ss').length := by
          simp
        have hlast : (a :: ss').get? ((a :: ss').length - 1) =
            some ((a :: ss').get ⟨(a :: ss').length - 1, hidx⟩) :=
          List.get?_eq_get hidx
        set lit := (a :: ss').get ⟨(a :: ss').length - 1, hidx⟩ with hlitdef
        have hmem : lit ∈ a :: ss' := List.get_mem _ _ hidx
        have hfl2 := hall lit hmem
        have hfl := get_or_create_none_eq co f infer lit hfl2
        have step := pursue_strand_flounder_step co n f f depth
          ⟨infer, ⟨su, cs, a :: ss', dl⟩, none⟩ lit rfl hlen hlast hfl
        rw [step]
        have hsub : ((a :: ss').eraseIdx ((a :: ss').length - 1)) ⊆ a :: ss' :=
          (List.eraseIdx_sublist _ _).subset
        have hlen2 : ((a :: ss').eraseIdx ((a :: ss').length - 1)).length =
            (a :: ss').length - 1 := by
          rw [List.length_eraseIdx]
          simp [hidx]
        have := ih f ⟨infer, ⟨su, cs,
            (a :: ss').eraseIdx ((a :: ss').length - 1), dl ++ [.CannotProve]⟩,
            none⟩ rfl
          (by intro l hl; exact hall l (hsub hl))
          (by simp only [hlen2]; simp at hlt ⊢; omega)
        rw [this]
        simp only [hlen2]
        have hrep : (dl ++ [DelayedLiteral.CannotProve]) ++
            List.replicate ((a :: ss').length - 1) DelayedLiteral.CannotProve =
            dl ++ List.replicate (a :: ss').length DelayedLiteral.CannotProve := by
          simp [List.append_assoc, List.replicate_succ]
        rw [hrep]

/-- Witness for C6: a strand whose single negative subgoal flounders ends in
`pursue_answer` with `CannotProve` recorded. -/
theorem flounder_continues_witness :
    ((⟨(), ⟨5, [], [.Negative ⟨(), .leaf ()⟩], []⟩, none⟩ :
      Strand TypesNat).selected_subgoal = none) ∧
    ((∀ lit ∈ (⟨(), ⟨5, [], [.Negative ⟨(), .leaf ()⟩], []⟩, none⟩ :
        Strand TypesNat).ex_clause.subgoals,
      (get_or_create_table_for_subgoal coNatFlounder
        (⟨[⟨⟨0⟩, false, [], []⟩], [⟨0, .fin 0, false⟩], 1, 10⟩ : Forest TypesNat)
        () lit).2 = none)) ∧
    pursue_strand coNatFlounder 2
        (⟨[⟨⟨0⟩, false, [], []⟩], [⟨0, .fin 0, false⟩], 1, 10⟩ : Forest TypesNat)
        0 ⟨(), ⟨5, [], [.Negative ⟨(), .leaf ()⟩], []⟩, none⟩ =
      pursue_answer coNatFlounder
        (⟨[⟨⟨0⟩, false, [], []⟩], [⟨0, .fin 0, false⟩], 1, 10⟩ : Forest TypesNat)
        0 ⟨(), ⟨5, [], [], [.CannotProve]⟩, none⟩ := by
  refine ⟨rfl, ?_, ?_⟩
  · intro lit hl
    rw [List.mem_singleton] at hl
    subst hl; rfl
  · have := (flounder_continues coNatFlounder 0).2 2
      (⟨[⟨⟨0⟩, false, [], []⟩], [⟨0, .fin 0, false⟩], 1, 10⟩ : Forest TypesNat)
      ⟨(), ⟨5, [], [.Negative ⟨(), .leaf ()⟩], []⟩, none⟩ rfl
      (by intro lit hl
          rw [List.mem_singleton] at hl
          subst hl; rfl)
      (by simp)
    simpa using this

/-! ## C3 -/

/-- C3 (amended: the cut drops the strands present at push time; strands
stashed as cyclic by the scheduler can still be re-enqueued afterwards):
in `pursue_answer`, whenever a newly pushed answer has an empty
delayed-literal set, a substitution that is a trivial substitution of the
table's goal, and an empty constraint set, the answer is appended and every
remaining strand of the table is dropped. -/
theorem green_cut_drops_strands (co : Collab κ) (f : Forest κ)
    (depth : StackIndex) (strand : Strand κ) (fr : StackFrame κ) (tb : Table κ)
    (ans : Answer κ)
    (hfr : f.stack.get? depth = some fr)
    (hsg : strand.ex_clause.subgoals = [])
    (htb : f.getTable fr.table = some tb)
    (hans : ans = ⟨co.canonicalize_subst strand.infer
      ⟨strand.ex_clause.subst, strand.ex_clause.constraints⟩,
      ⟨dedupAdjacent (sortLe (DelayedLiteral.dl_le co)
        strand.ex_clause.delayed_literals)⟩⟩)
    (hnew : ans ∉ tb.answers)
    (hdl : ans.delayed_literals.delayed_literals = [])
    (htriv : co.is_trivial_substitution tb.table_goal ans.subst = true)
    (hcon : ans.subst.value.constraints = []) :
    pursue_answer co f depth strand =
      (f.setTable fr.table
        { tb with answers := tb.answers ++ [ans], strands := [] },
        .ok (.ok ())) := by
  obtain ⟨infer, ⟨su, cs, sg, dl⟩, selv⟩ := strand
  simp only at hsg hans
  subst hsg
  subst hans
  simp only at hdl htriv hcon
  unfold pursue_answer
  simp only [hfr, htb, List.isEmpty_nil, Bool.not_true, Bool.false_eq_true,
    if_false, Table.push_answer, hnew, ite_false, hdl, htriv, hcon,
    List.isEmpty_nil, Bool.and_self, Table.take_strands, if_true]
  rw [hdl] at hnew
  simp [hnew]

/-- Witness for the amended C3: pushing a trivial answer empties the queue. -/
theorem green_cut_drops_strands_witness :
    ((⟨(), ⟨0, [], [], []⟩, none⟩ : Strand TypesNat).ex_clause.subgoals = []) ∧
    ((⟨⟨⟨0, []⟩⟩, ⟨[]⟩⟩ : Answer TypesNat) ∉
      (⟨⟨0⟩, false, [], [⟨(), ⟨9, [], [], []⟩, none⟩]⟩ :
        Table TypesNat).answers) ∧
    ((⟨⟨⟨0, []⟩⟩, ⟨[]⟩⟩ : Answer TypesNat).delayed_literals.delayed_literals =
      []) ∧
    (coNat.is_trivial_substitution ⟨0⟩ ⟨⟨0, []⟩⟩ = true) ∧
    pursue_answer coNat
        (⟨[⟨⟨0⟩, false, [], [⟨(), ⟨9, [], [], []⟩, none⟩]⟩],
          [⟨0, .fin 0, false⟩], 1, 10⟩ : Forest TypesNat) 0
        ⟨(), ⟨0, [], [], []⟩, none⟩ =
      ((⟨[⟨⟨0⟩, false, [], [⟨(), ⟨9, [], [], []⟩, none⟩]⟩],
          [⟨0, .fin 0, false⟩], 1, 10⟩ : Forest TypesNat).setTable 0
        { (⟨⟨0⟩, false, [], [⟨(), ⟨9, [], [], []⟩, none⟩]⟩ : Table TypesNat)
          with answers := [⟨⟨⟨0, []⟩⟩, ⟨[]⟩⟩], strands := [] },
        .ok (.ok ())) :=
  ⟨rfl, by decide, rfl, rfl,
    green_cut_drops_strands coNat
      (⟨[⟨⟨0⟩, false, [], [⟨(), ⟨9, [], [], []⟩, none⟩]⟩],
        [⟨0, .fin 0, false⟩], 1, 10⟩ : Forest TypesNat) 0
      ⟨(), ⟨0, [], [], []⟩, none⟩ ⟨0, .fin 0, false⟩
      ⟨⟨0⟩, false, [], [⟨(), ⟨9, [], [], []⟩, none⟩]⟩
      ⟨⟨⟨0, []⟩⟩, ⟨[]⟩⟩ rfl rfl rfl rfl (by decide) rfl rfl rfl⟩

/-- Counterexample for C3 as stated: a concrete run in which a trivial
unconditional unconstrained answer is pushed (the green cut fires, emptying
the queue), but a strand stashed as cyclic by `pursue_next_strand` is
re-enqueued right after the cut, and the next root request produces a second
answer from the same table within the same query. -/
theorem green_cut_not_final :
    (ensure_root_answer coNat 20
        (⟨[⟨⟨0⟩, false, [],
          [⟨(), ⟨0, [], [], []⟩, none⟩,
           ⟨(), ⟨5, [], [.Positive ⟨(), .leaf ()⟩], []⟩, some ⟨0, 0, (), 0⟩⟩]⟩],
          [], 0, 10⟩ : Forest TypesNat) 0 0).2 = .ok (.ok ()) ∧
    ((ensure_root_answer coNat 20
        (⟨[⟨⟨0⟩, false, [],
          [⟨(), ⟨0, [], [], []⟩, none⟩,
           ⟨(), ⟨5, [], [.Positive ⟨(), .leaf ()⟩], []⟩, some ⟨0, 0, (), 0⟩⟩]⟩],
          [], 0, 10⟩ : Forest TypesNat) 0 0).1.getTable 0).map
      (fun tb => tb.answers) = some [⟨⟨⟨0, []⟩⟩, ⟨[]⟩⟩] ∧
    ((⟨⟨⟨0, []⟩⟩, ⟨[]⟩⟩ : Answer TypesNat).delayed_literals.delayed_literals =
      [] ∧
     coNat.is_trivial_substitution ⟨0⟩ ⟨⟨0, []⟩⟩ = true ∧
     (⟨⟨0, []⟩⟩ : Canonical (ConstrainedSubst TypesNat)).value.constraints =
      []) ∧
    ((ensure_root_answer coNat 20
        (⟨[⟨⟨0⟩, false, [],
          [⟨(), ⟨0, [], [], []⟩, none⟩,
           ⟨(), ⟨5, [], [.Positive ⟨(), .leaf ()⟩], []⟩, some ⟨0, 0, (), 0⟩⟩]⟩],
          [], 0, 10⟩ : Forest TypesNat) 0 0).1.getTable 0).map
      (fun tb => tb.strands.length) = some 1 ∧
    (ensure_root_answer coNat 20
      (ensure_root_answer coNat 20
        (⟨[⟨⟨0⟩, false, [],
          [⟨(), ⟨0, [], [], []⟩, none⟩,
           ⟨(), ⟨5, [], [.Positive ⟨(), .leaf ()⟩], []⟩, some ⟨0, 0, (), 0⟩⟩]⟩],
          [], 0, 10⟩ : Forest TypesNat) 0 0).1 0 1).2 = .ok (.ok ()) ∧
    ((ensure_root_answer coNat 20
      (ensure_root_answer coNat 20
        (⟨[⟨⟨0⟩, false, [],
          [⟨(), ⟨0, [], [], []⟩, none⟩,
           ⟨(), ⟨5, [], [.Positive ⟨(), .leaf ()⟩], []⟩, some ⟨0, 0, (), 0⟩⟩]⟩],
          [], 0, 10⟩ : Forest TypesNat) 0 0).1 0 1).1.getTable 0).map
      (fun tb => tb.answers.length) = some 2 := by
  refine ⟨?_, ?_, ⟨rfl, rfl, rfl⟩, ?_, ?_, ?_⟩ <;> decide

/-! ## C5 -/

/-- The zero-fuel scheduling loop runs out of fuel. -/
theorem pnsLoop_zero (co : Collab κ) (f : Forest κ) (depth : StackIndex)
    (table : TableIndex) (cyc : List (Strand κ)) (m : Minimums) :
    pursue_next_strand_loop co 0 f depth table cyc m = (f, .noFuel) := rfl


/-- A Bool classifier: is a strand result a cycle failure? -/
def StrandR.isCycle : StrandR κ → Bool
  | .ok (.error (.Cycle _ _)) => true
  | _ => false

/-- Counterexample for C5 as stated: a self-cyclic strand is stashed as
cyclic (its pursuit reports a cycle), yet `pursue_next_strand` still returns
`NoMoreSolutions` — via `cycle`'s closed-subtree case — so `NoMoreSolutions`
is not returned only when no strands were stashed. -/
theorem pns_nms_with_stash :
    ((⟨[⟨⟨0⟩, false, [],
        [⟨(), ⟨5, [], [.Positive ⟨(), .leaf ()⟩], []⟩, some ⟨0, 0, (), 0⟩⟩]⟩],
        [⟨0, .fin 0, false⟩], 1, 10⟩ : Forest TypesNat).strandsOf 0).length
      = 1 ∧
    (StrandR.isCycle (pursue_strand coNat 8
        ((⟨[⟨⟨0⟩, false, [],
          [⟨(), ⟨5, [], [.Positive ⟨(), .leaf ()⟩], []⟩, some ⟨0, 0, (), 0⟩⟩]⟩],
          [⟨0, .fin 0, false⟩], 1, 10⟩ : Forest TypesNat).setTable 0
          ⟨⟨0⟩, false, [], []⟩) 0
        ⟨(), ⟨5, [], [.Positive ⟨(), .leaf ()⟩], []⟩, some ⟨0, 0, (), 0⟩⟩).2 =
      true) ∧
    (pursue_next_strand coNat 10
        (⟨[⟨⟨0⟩, false, [],
          [⟨(), ⟨5, [], [.Positive ⟨(), .leaf ()⟩], []⟩, some ⟨0, 0, (), 0⟩⟩]⟩],
          [⟨0, .fin 0, false⟩], 1, 10⟩ : Forest TypesNat) 0).2 =
      .ok (.error .NoMoreSolutions) := by
  refine ⟨?_, ?_, ?_⟩ <;> decide

/-! ## C1: reachability infrastructure for the cycle-resolution claims -/

/-- Table `u` references table `v` when some pending strand of `u` has
selected a subgoal whose table is `v`. -/
def Edge (f : Forest κ) (u v : TableIndex) : Prop :=
  ∃ s ∈ f.strandsOf u, ∃ sel, s.selected_subgoal = some sel ∧
    sel.subgoal_table = v

/-- The tables directly referenced by a batch of strands through their
selected subgoals. -/
def rootTable (roots : List (Strand κ)) (t : TableIndex) : Prop :=
  ∃ s ∈ roots, ∃ sel, s.selected_subgoal = some sel ∧ sel.subgoal_table = t

/-- The tables reachable from the stashed strands via selected subgoal
tables, walking the strand graph of `f`. -/
def ClearReach (f : Forest κ) (roots : List (Strand κ)) (t : TableIndex) :
    Prop :=
  ∃ u, rootTable roots u ∧ (u = t ∨ Relation.TransGen (Edge f) u t)

theorem strandsOf_eq (f : Forest κ) (t : TableIndex) (tb : Table κ)
    (h : f.getTable t = some tb) : f.strandsOf t = tb.strands := by
  simp [Forest.strandsOf, h]

theorem getTable_setTable_ne (f : Forest κ) (t : TableIndex) (tb : Table κ)
    (u : TableIndex) (hne : u ≠ t) :
    (f.setTable t tb).getTable u = f.getTable u := by
  show (f.tables.set t tb).get? u = f.tables.get? u
  exact List.get?_set_ne _ _ (fun h => hne h.symm)

theorem getTable_setTable_self (f : Forest κ) (t : TableIndex)
    (tb0 tb : Table κ) (h : f.getTable t = some tb0) :
    (f.setTable t tb).getTable t = some tb := by
  show (f.tables.set t tb).get? t = some tb
  rw [List.get?_set_eq]
  show (fun _ => tb) <$> f.tables.get? t = some tb
  rw [show f.tables.get? t = some tb0 from h]
  rfl

theorem strandsOf_setTable (f : Forest κ) (t : TableIndex) (tb0 tb : Table κ)
    (h : f.getTable t = some tb0) (u : TableIndex) :
    (f.setTable t tb).strandsOf u =
      if u = t then tb.strands else f.strandsOf u := by
  by_cases hu : u = t
  · subst hu
    simp [Forest.strandsOf, getTable_setTable_self f u tb0 tb h]
  · simp [Forest.strandsOf, getTable_setTable_ne f t tb u hu, hu]

/-- `f'` differs from `f` only by some strand queues having been emptied. -/
def Shrinks (f f' : Forest κ) : Prop :=
  ∀ u, f'.strandsOf u = f.strandsOf u ∨ f'.strandsOf u = []

theorem Shrinks.refl (f : Forest κ) : Shrinks f f := fun _ => Or.inl (Eq.refl _)

theorem Shrinks.trans {f f1 f2 : Forest κ} (h1 : Shrinks f f1)
    (h2 : Shrinks f1 f2) : Shrinks f f2 := by
  intro u
  rcases h2 u with h | h
  · rw [h]; exact h1 u
  · exact Or.inr h

theorem Shrinks.empty {f f' : Forest κ} (h : Shrinks f f') {u : TableIndex}
    (hu : f.strandsOf u = []) : f'.strandsOf u = [] := by
  rcases h u with h2 | h2
  · rw [h2, hu]
  · exact h2

theorem Shrinks.edge {f f' : Forest κ} (h : Shrinks f f') {u v : TableIndex}
    (he : Edge f' u v) : Edge f u v := by
  obtain ⟨s, hs, sel, hsel, hst⟩ := he
  rcases h u with h2 | h2
  · exact ⟨s, h2 ▸ hs, sel, hsel, hst⟩
  · rw [h2] at hs; cases hs

/-- `clear_strands_after_cycle` and its strand iteration only remove strands:
every table's queue is either untouched or left empty. -/
theorem clear_shrinks (co : Collab κ) : ∀ fuel : Nat,
    (∀ (f : Forest κ) t ss f' r,
      clear_strands_after_cycle co fuel f t ss = (f', r) → Shrinks f f') ∧
    (∀ (f : Forest κ) ss f' r,
      clear_strands_go co fuel f ss = (f', r) → Shrinks f f') := by
  intro fuel
  induction fuel with
  | zero =>
    constructor
    · intro f t ss f' r h
      cases h
      exact Shrinks.refl f
    · intro f ss f' r h
      cases h
      exact Shrinks.refl f
  | succ n ih =>
    constructor
    · intro f t ss f' r h
      rw [clearF_succ] at h
      cases hget : f.getTable t with
      | none =>
        simp only [clearBody, hget] at h
        cases h
        exact Shrinks.refl f
      | some tb =>
        by_cases hassert : tb.pop_next_strand.isNone
        · simp only [clearBody, hget, hassert, Bool.not_true,
            Bool.false_eq_true, if_false, cluster_clearGo_eq] at h
          exact ih.2 f ss f' r h
        · simp only [clearBody, hget, Bool.not_eq_true'] at h
          rw [Bool.not_eq_true] at hassert
          simp only [hassert, Bool.not_false, if_true] at h
          cases h
          exact Shrinks.refl f
    · intro f ss f' r h
      rw [clearGo_succ] at h
      cases ss with
      | nil =>
        simp only [clearGoBody] at h
        cases h
        exact Shrinks.refl f
      | cons s rest =>
        cases hsel : s.selected_subgoal with
        | none =>
          simp only [clearGoBody, hsel] at h
          cases h
          exact Shrinks.refl f
        | some sel =>
          cases hget : f.getTable sel.subgoal_table with
          | none =>
            simp only [clearGoBody, hsel, hget] at h
            cases h
            exact Shrinks.refl f
          | some tbs =>
            simp only [clearGoBody, hsel, hget, Table.take_strands,
              cluster_clearF_eq, cluster_clearGo_eq] at h
            have hshrink1 : Shrinks f
                (f.setTable sel.subgoal_table { tbs with strands := [] }) := by
              intro u
              rw [strandsOf_setTable f sel.subgoal_table tbs _ hget u]
              by_cases hu : u = sel.subgoal_table
              · simp [hu]
              · simp [hu]
            rcases hcf : clear_strands_after_cycle co n
                (f.setTable sel.subgoal_table { tbs with strands := [] })
                sel.subgoal_table tbs.strands with ⟨f2, r2⟩
            rw [hcf] at h
            have hshrink2 := ih.1 _ _ _ _ _ hcf
            cases r2 with
            | ok u0 =>
              cases u0
              have hshrink3 := ih.2 _ _ _ _ h
              exact Shrinks.trans (Shrinks.trans hshrink1 hshrink2) hshrink3
            | panicked msg =>
              cases h
              exact Shrinks.trans hshrink1 hshrink2
            | noFuel =>
              cases h
              exact Shrinks.trans hshrink1 hshrink2

/-- Split a transitive chain at its first edge. -/
theorem transGen_head_split {α : Type} {r : α → α → Prop} {a b : α}
    (h : Relation.TransGen r a b) :
    ∃ c, r a c ∧ (c = b ∨ Relation.TransGen r c b) := by
  induction h with
  | single h => exact ⟨_, h, Or.inl (Eq.refl _)⟩
  | tail hc he ih =>
    obtain ⟨c, rac, hcase⟩ := ih
    rcases hcase with h1 | h1
    · subst h1
      exact ⟨c, rac, Or.inr (Relation.TransGen.single he)⟩
    · exact ⟨c, rac, Or.inr (Relation.TransGen.tail h1 he)⟩

/-- A table left without strands by `clear_strands_after_cycle` either had no
strands to begin with or is reachable from the cleared strands. -/
theorem clear_cleared_reach (co : Collab κ) : ∀ fuel : Nat,
    (∀ (f : Forest κ) t ss f' r,
      clear_strands_after_cycle co fuel f t ss = (f', r) →
      ∀ u, f'.strandsOf u = [] → f.strandsOf u = [] ∨ ClearReach f ss u) ∧
    (∀ (f : Forest κ) ss f' r,
      clear_strands_go co fuel f ss = (f', r) →
      ∀ u, f'.strandsOf u = [] → f.strandsOf u = [] ∨ ClearReach f ss u) := by
  intro fuel
  induction fuel with
  | zero =>
    constructor
    · intro f t ss f' r h u hu
      cases h
      exact Or.inl hu
    · intro f ss f' r h u hu
      cases h
      exact Or.inl hu
  | succ n ih =>
    constructor
    · intro f t ss f' r h u hu
      rw [clearF_succ] at h
      cases hget : f.getTable t with
      | none =>
        simp only [clearBody, hget] at h
        cases h
        exact Or.inl hu
      | some tb =>
        by_cases hassert : tb.pop_next_strand.isNone
        · simp only [clearBody, hget, hassert, Bool.not_true,
            Bool.false_eq_true, if_false, cluster_clearGo_eq] at h
          exact ih.2 f ss f' r h u hu
        · simp only [clearBody, hget, Bool.not_eq_true'] at h
          rw [Bool.not_eq_true] at hassert
          simp only [hassert, Bool.not_false, if_true] at h
          cases h
          exact Or.inl hu
    · intro f ss f' r h u hu
      rw [clearGo_succ] at h
      cases ss with
      | nil =>
        simp only [clearGoBody] at h
        cases h
        exact Or.inl hu
      | cons s rest =>
        cases hsel : s.selected_subgoal with
        | none =>
          simp only [clearGoBody, hsel] at h
          cases h
          exact Or.inl hu
        | some sel =>
          cases hget : f.getTable sel.subgoal_table with
          | none =>
            simp only [clearGoBody, hsel, hget] at h
            cases h
            exact Or.inl hu
          | some tbs =>
            simp only [clearGoBody, hsel, hget, Table.take_strands,
              cluster_clearF_eq, cluster_clearGo_eq] at h
            have hshrink1 : Shrinks f
                (f.setTable sel.subgoal_table { tbs with strands := [] }) := by
              intro v
              rw [strandsOf_setTable f sel.subgoal_table tbs _ hget v]
              by_cases hv : v = sel.subgoal_table
              · simp [hv]
              · simp [hv]
            rcases hcf : clear_strands_after_cycle co n
                (f.setTable sel.subgoal_table { tbs with strands := [] })
                sel.subgoal_table tbs.strands with ⟨f2, r2⟩
            rw [hcf] at h
            have hroot0 : rootTable (s :: rest) sel.subgoal_table :=
              ⟨s, List.mem_cons_self s rest, sel, hsel, Eq.refl _⟩
            have hstr : f.strandsOf sel.subgoal_table = tbs.strands :=
              strandsOf_eq f sel.subgoal_table tbs hget
            have key : ∀ v, f2.strandsOf v = [] →
                f.strandsOf v = [] ∨ ClearReach f (s :: rest) v := by
              intro v hv
              rcases ih.1 _ _ _ _ _ hcf v hv with h1 | h1
              · rw [strandsOf_setTable f sel.subgoal_table tbs _ hget v] at h1
                by_cases hvt : v = sel.subgoal_table
                · exact Or.inr ⟨sel.subgoal_table, hroot0, Or.inl hvt.symm⟩
                · simp only [hvt, if_false] at h1
                  exact Or.inl h1
              · obtain ⟨w, hw, hcase⟩ := h1
                obtain ⟨s', hs', sel', hsel', hst'⟩ := hw
                have hedge : Edge f sel.subgoal_table w := by
                  refine ⟨s', ?_, sel', hsel', hst'⟩
                  rw [hstr]
                  exact hs'
                have hchain : Relation.TransGen (Edge f) sel.subgoal_table v := by
                  rcases hcase with h2 | h2
                  · exact h2 ▸ Relation.TransGen.single hedge
                  · exact Relation.TransGen.head hedge
                      (Relation.TransGen.mono
                        (fun a b hab => Shrinks.edge hshrink1 hab) h2)
                exact Or.inr ⟨sel.subgoal_table, hroot0, Or.inr hchain⟩
            cases r2 with
            | ok u0 =>
              cases u0
              rcases ih.2 _ _ _ _ h u hu with h1 | h1
              · exact key u h1
              · obtain ⟨v, hv, hcase⟩ := h1
                obtain ⟨s', hs', sel', hsel', hst'⟩ := hv
                have hshrink2 : Shrinks f f2 :=
                  Shrinks.trans hshrink1 ((clear_shrinks co n).1 _ _ _ _ _ hcf)
                refine Or.inr ⟨v, ⟨s', List.mem_cons_of_mem s hs', sel',
                  hsel', hst'⟩, ?_⟩
                rcases hcase with h2 | h2
                · exact Or.inl h2
                · exact Or.inr (Relation.TransGen.mono
                    (fun a b hab => Shrinks.edge hshrink2 hab) h2)
            | panicked msg =>
              cases h
              exact key u hu
            | noFuel =>
              cases h
              exact key u hu

/-- Transport an edge along equal strand queues. -/
theorem edge_of_strands_eq {f f' : Forest κ} {v x : TableIndex}
    (h : f'.strandsOf v = f.strandsOf v) (he : Edge f v x) : Edge f' v x := by
  obtain ⟨s, hs, sel, h1, h2⟩ := he
  refine ⟨s, ?_, sel, h1, h2⟩
  rw [h]
  exact hs

/-- After a successful `clear_strands_after_cycle`, every table reachable
from the cleared strands through selected subgoal tables has an empty strand
queue. -/
theorem clear_clears_reachable (co : Collab κ) : ∀ fuel : Nat,
    (∀ (f : Forest κ) t ss f',
      clear_strands_after_cycle co fuel f t ss = (f', .ok ()) →
      ∀ u, ClearReach f ss u → f'.strandsOf u = []) ∧
    (∀ (f : Forest κ) ss f',
      clear_strands_go co fuel f ss = (f', .ok ()) →
      ∀ u, ClearReach f ss u → f'.strandsOf u = []) := by
  intro fuel
  induction fuel with
  | zero =>
    constructor
    · intro f t ss f' h
      cases h
    · intro f ss f' h
      cases h
  | succ n ih =>
    constructor
    · intro f t ss f' h u hreach
      rw [clearF_succ] at h
      cases hget : f.getTable t with
      | none =>
        simp only [clearBody, hget] at h
        cases h
      | some tb =>
        by_cases hassert : tb.pop_next_strand.isNone
        · simp only [clearBody, hget, hassert, Bool.not_true,
            Bool.false_eq_true, if_false, cluster_clearGo_eq] at h
          exact ih.2 f ss f' h u hreach
        · simp only [clearBody, hget, Bool.not_eq_true'] at h
          rw [Bool.not_eq_true] at hassert
          simp only [hassert, Bool.not_false, if_true] at h
          cases h
    · intro f ss f' h u hreach
      rw [clearGo_succ] at h
      cases ss with
      | nil =>
        obtain ⟨v, ⟨s', hs', -⟩, -⟩ := hreach
        cases hs'
      | cons s rest =>
        cases hsel : s.selected_subgoal with
        | none =>
          simp only [clearGoBody, hsel] at h
          cases h
        | some sel =>
          cases hget : f.getTable sel.subgoal_table with
          | none =>
            simp only [clearGoBody, hsel, hget] at h
            cases h
          | some tbs =>
            simp only [clearGoBody, hsel, hget, Table.take_strands,
              cluster_clearF_eq, cluster_clearGo_eq] at h
            set t0 := sel.subgoal_table with ht0
            set f1 := f.setTable t0 { tbs with strands := [] } with hf1
            have hstrset : ∀ v, f1.strandsOf v =
                if v = t0 then [] else f.strandsOf v := by
              intro v
              rw [hf1, strandsOf_setTable f t0 tbs _ hget v]
            have hshrink1 : Shrinks f f1 := by
              intro v
              rw [hstrset v]
              by_cases hv : v = t0
              · simp [hv]
              · simp [hv]
            rcases hcf : clear_strands_after_cycle co n f1 t0 tbs.strands
              with ⟨f2, r2⟩
            rw [hcf] at h
            cases r2 with
            | panicked msg => cases h
            | noFuel => cases h
            | ok u0 =>
              cases u0
              have hstr : f.strandsOf t0 = tbs.strands :=
                strandsOf_eq f t0 tbs hget
              have hshrinkF1F2 : Shrinks f1 f2 :=
                (clear_shrinks co n).1 _ _ _ _ _ hcf
              have hshrinkFF2 : Shrinks f f2 :=
                Shrinks.trans hshrink1 hshrinkF1F2
              have hshrinkF2F' : Shrinks f2 f' :=
                (clear_shrinks co n).2 _ _ _ _ h
              have hf1t0 : f1.strandsOf t0 = [] := by
                rw [hstrset t0]
                simp
              have hedge_ne : ∀ b x, b ≠ t0 → Edge f b x → Edge f1 b x := by
                intro b x hb he
                refine edge_of_strands_eq ?_ he
                rw [hstrset b]
                simp [hb]
              have hroot_taken : ∀ x, Edge f t0 x → rootTable tbs.strands x := by
                intro x he
                obtain ⟨s', hs', sel', hsel', hst'⟩ := he
                rw [hstr] at hs'
                exact ⟨s', hs', sel', hsel', hst'⟩
              have transfer : ∀ w x, Relation.TransGen (Edge f) w x →
                  Relation.TransGen (Edge f1) w x ∨
                  ∃ w', rootTable tbs.strands w' ∧
                    (x = w' ∨ Relation.TransGen (Edge f1) w' x) := by
                intro w x hch
                induction hch with
                | single he =>
                  by_cases hw : w = t0
                  · subst hw
                    exact Or.inr ⟨_, hroot_taken _ he, Or.inl (Eq.refl _)⟩
                  · exact Or.inl (Relation.TransGen.single (hedge_ne _ _ hw he))
                | tail hc he ihc =>
                  rename_i b x2
                  by_cases hb : b = t0
                  · subst hb
                    exact Or.inr ⟨_, hroot_taken _ he, Or.inl (Eq.refl _)⟩
                  · have he1 := hedge_ne _ _ hb he
                    rcases ihc with hch2 | ⟨w', hw', hcase2⟩
                    · exact Or.inl (Relation.TransGen.tail hch2 he1)
                    · rcases hcase2 with h2 | h2
                      · subst h2
                        exact Or.inr ⟨b, hw', Or.inr
                          (Relation.TransGen.single he1)⟩
                      · exact Or.inr ⟨w', hw', Or.inr
                          (Relation.TransGen.tail h2 he1)⟩
              have hinner : ∀ x, ClearReach f1 tbs.strands x →
                  f2.strandsOf x = [] := ih.1 _ _ _ _ hcf
              have hdag : ∀ x, (x = t0 ∨ Relation.TransGen (Edge f) t0 x) →
                  f2.strandsOf x = [] := by
                intro x hx
                rcases hx with hx | hx
                · subst hx
                  exact Shrinks.empty hshrinkF1F2 hf1t0
                · obtain ⟨c, hedge0, hcase⟩ := transGen_head_split hx
                  have hrootc : rootTable tbs.strands c := hroot_taken c hedge0
                  rcases hcase with hc | hc
                  · subst hc
                    exact hinner _ ⟨_, hrootc, Or.inl (Eq.refl _)⟩
                  · rcases transfer c x hc with ht | ⟨w', hw', hcase2⟩
                    · exact hinner x ⟨c, hrootc, Or.inr ht⟩
                    · rcases hcase2 with h2 | h2
                      · exact hinner x ⟨w', hw', Or.inl h2.symm⟩
                      · exact hinner x ⟨w', hw', Or.inr h2⟩
              have star : ∀ v, f2.strandsOf v = [] →
                  f.strandsOf v = [] ∨ v = t0 ∨
                    Relation.TransGen (Edge f) t0 v := by
                intro v hv
                rcases (clear_cleared_reach co n).1 _ _ _ _ _ hcf v hv
                  with h1 | h1
                · rw [hstrset v] at h1
                  by_cases hvt : v = t0
                  · exact Or.inr (Or.inl hvt)
                  · simp only [hvt, if_false] at h1
                    exact Or.inl h1
                · obtain ⟨w, hw, hcase⟩ := h1
                  obtain ⟨s', hs', sel', hsel', hst'⟩ := hw
                  have hedge : Edge f t0 w := by
                    refine ⟨s', ?_, sel', hsel', hst'⟩
                    rw [hstr]
                    exact hs'
                  refine Or.inr (Or.inr ?_)
                  rcases hcase with h2 | h2
                  · exact h2 ▸ Relation.TransGen.single hedge
                  · exact Relation.TransGen.head hedge
                      (Relation.TransGen.mono
                        (fun a b hab => Shrinks.edge hshrink1 hab) h2)
              have chainCases : ∀ v x, Relation.TransGen (Edge f) v x →
                  Relation.TransGen (Edge f2) v x ∨ f2.strandsOf x = [] := by
                intro v x hch
                induction hch with
                | single he =>
                  rcases hshrinkFF2 v with heq | hemp
                  · exact Or.inl (Relation.TransGen.single
                      (edge_of_strands_eq heq he))
                  · rcases star v hemp with h1 | h1 | h1
                    · obtain ⟨sx, hsx, -⟩ := he
                      rw [h1] at hsx
                      cases hsx
                    · subst h1
                      exact Or.inr (hdag _ (Or.inr
                        (Relation.TransGen.single he)))
                    · exact Or.inr (hdag _ (Or.inr
                        (Relation.TransGen.tail h1 he)))
                | tail hc he ihc =>
                  rename_i b x2
                  have hbcase : Relation.TransGen (Edge f2) v b ∨
                      (b = t0 ∨ Relation.TransGen (Edge f) t0 b) := by
                    rcases ihc with h2 | h2
                    · exact Or.inl h2
                    · rcases star b h2 with h3 | h3 | h3
                      · obtain ⟨sx, hsx, -⟩ := he
                        rw [h3] at hsx
                        cases hsx
                      · exact Or.inr (Or.inl h3)
                      · exact Or.inr (Or.inr h3)
                  rcases hbcase with h2 | h2
                  · rcases hshrinkFF2 b with heq | hemp
                    · exact Or.inl (Relation.TransGen.tail h2
                        (edge_of_strands_eq heq he))
                    · rcases star b hemp with h3 | h3 | h3
                      · obtain ⟨sx, hsx, -⟩ := he
                        rw [h3] at hsx
                        cases hsx
                      · subst h3
                        exact Or.inr (hdag _ (Or.inr
                          (Relation.TransGen.single he)))
                      · exact Or.inr (hdag _ (Or.inr
                          (Relation.TransGen.tail h3 he)))
                  · rcases h2 with h2 | h2
                    · subst h2
                      exact Or.inr (hdag _ (Or.inr
                        (Relation.TransGen.single he)))
                    · exact Or.inr (hdag _ (Or.inr
                        (Relation.TransGen.tail h2 he)))
              obtain ⟨v, hv, hcase⟩ := hreach
              obtain ⟨s', hs', sel', hsel', hst'⟩ := hv
              rcases List.mem_cons.mp hs' with hse | hse
              · subst hse
                rw [hsel] at hsel'
                injection hsel' with hsel2
                subst hsel2
                rw [← ht0] at hst'
                rcases hcase with hvu | hch
                · rw [← hvu, ← hst']
                  exact Shrinks.empty hshrinkF2F'
                    (hdag _ (Or.inl (Eq.refl _)))
                · rw [← hst'] at hch
                  exact Shrinks.empty hshrinkF2F' (hdag _ (Or.inr hch))
              · have hrootrest : rootTable rest v := ⟨s', hse, sel', hsel', hst'⟩
                rcases hcase with hvu | hch
                · exact ih.2 _ _ _ h u ⟨v, hrootrest, Or.inl hvu⟩
                · rcases chainCases v u hch with h2 | h2
                  · exact ih.2 _ _ _ h u ⟨v, hrootrest, Or.inr h2⟩
                  · exact Shrinks.empty hshrinkF2F' h2


/-! ### The delaying walk of `delay_strands_after_cycle` -/

/-- Characterization of the strand iteration of `delay_strands_after_cycle`:
on success it maps `delay_strand` over the strands and extends both the
visited set and the collected-table list by the same batch of fresh tables,
and every selected subgoal table ends up visited. -/
theorem delay_strand_loop_ok :
    ∀ (ss : List (Strand κ)) acc ts visited ns ts2 vis2,
    delay_strand_loop ss acc ts visited = .ok (ns, ts2, vis2) →
    ns = acc ++ ss.map delay_strand ∧
    (∃ fresh, ts2 = ts ++ fresh ∧ vis2 = visited ++ fresh ∧
      fresh.Nodup ∧ (∀ x ∈ fresh, x ∉ visited)) ∧
    (∀ s ∈ ss, ∀ sel, s.selected_subgoal = some sel →
      sel.subgoal_table ∈ vis2) := by
  intro ss
  induction ss with
  | nil =>
    intro acc ts visited ns ts2 vis2 h
    simp only [delay_strand_loop] at h
    cases h
    refine ⟨by simp, ⟨[], by simp, by simp, List.nodup_nil, by simp⟩, ?_⟩
    intro s hs
    cases hs
  | cons s rest ih =>
    intro acc ts visited ns ts2 vis2 h
    cases hsel : s.selected_subgoal with
    | none =>
      simp only [delay_strand_loop, hsel] at h
      cases h
    | some sel =>
      cases hidx : s.ex_clause.subgoals.get? sel.subgoal_index with
      | none =>
        simp only [delay_strand_loop, hsel, hidx] at h
        cases h
      | some lit =>
        by_cases hmem : sel.subgoal_table ∈ visited
        · simp only [delay_strand_loop, hsel, hidx, hmem, if_true] at h
          obtain ⟨hns, ⟨fresh, hts, hvis, hnodup, hnotin⟩, hcov⟩ :=
            ih _ _ _ _ _ _ h
          refine ⟨by simp [hns], ⟨fresh, hts, hvis, hnodup, hnotin⟩, ?_⟩
          intro s2 hs2 sel2 hsel2
          rcases List.mem_cons.mp hs2 with h2 | h2
          · subst h2
            rw [hsel] at hsel2
            injection hsel2 with h3
            subst h3
            rw [hvis]
            exact List.mem_append_left _ hmem
          · exact hcov s2 h2 sel2 hsel2
        · simp only [delay_strand_loop, hsel, hidx, hmem, if_false] at h
          obtain ⟨hns, ⟨fresh, hts, hvis, hnodup, hnotin⟩, hcov⟩ :=
            ih _ _ _ _ _ _ h
          refine ⟨by simp [hns], ?_, ?_⟩
          · refine ⟨sel.subgoal_table :: fresh, ?_, ?_, ?_, ?_⟩
            · rw [hts]
              simp
            · rw [hvis]
              simp
            · refine List.nodup_cons.mpr ⟨?_, hnodup⟩
              intro hcontra
              have := hnotin _ hcontra
              simp at this
            · intro x hx
              rcases List.mem_cons.mp hx with h2 | h2
              · subst h2
                exact hmem
              · intro hcontra
                exact hnotin x h2 (List.mem_append_left _ hcontra)
          · intro s2 hs2 sel2 hsel2
            rcases List.mem_cons.mp hs2 with h2 | h2
            · subst h2
              rw [hsel] at hsel2
              injection hsel2 with h3
              subst h3
              rw [hvis]
              refine List.mem_append_left _ ?_
              exact List.mem_append_right _ (List.mem_singleton.mpr (Eq.refl _))
            · exact hcov s2 h2 sel2 hsel2

/-- The effect of the delaying walk, relative to a `scope` of tables being
processed: visited tables outside the scope are untouched, tables in the
scope and freshly visited tables get their strands rewritten by
`delay_strand` (from their state at entry), unvisited tables are untouched,
and all selected subgoal tables of processed strands end up visited. -/
structure DelaySpec (f f2 : Forest κ) (scope visited vis2 : List TableIndex) :
    Prop where
  mono : ∀ x ∈ visited, x ∈ vis2
  untouched : ∀ u ∈ visited, u ∉ scope → f2.strandsOf u = f.strandsOf u
  inScope : ∀ u ∈ scope, f2.strandsOf u = (f.strandsOf u).map delay_strand
  frame : ∀ u, u ∉ vis2 → f2.strandsOf u = f.strandsOf u
  freshP : ∀ u ∈ vis2, u ∉ visited →
    f2.strandsOf u = (f.strandsOf u).map delay_strand
  edges : ∀ u, (u ∈ scope ∨ (u ∈ vis2 ∧ u ∉ visited)) →
    ∀ s ∈ f.strandsOf u, ∀ sel, s.selected_subgoal = some sel →
      sel.subgoal_table ∈ vis2

/-- `delay_strands_after_cycle` (and its table iteration) satisfies
`DelaySpec`: it rewrites exactly the walked tables by `delay_strand`. -/
theorem delay_main (co : Collab κ) : ∀ fuel : Nat,
    (∀ (f : Forest κ) table visited f2 vis2,
      table ∈ visited →
      delay_strands_after_cycle co fuel f table visited = (f2, vis2, .ok ()) →
      DelaySpec f f2 [table] visited vis2) ∧
    (∀ (f : Forest κ) ts visited f2 vis2,
      (∀ x ∈ ts, x ∈ visited) → ts.Nodup →
      delay_tables_after_cycle co fuel f ts visited = (f2, vis2, .ok ()) →
      DelaySpec f f2 ts visited vis2) := by
  intro fuel
  induction fuel with
  | zero =>
    constructor
    · intro f table visited f2 vis2 hmem h
      cases h
    · intro f ts visited f2 vis2 hsub hnd h
      cases h
  | succ n ih =>
    constructor
    · intro f table visited f2 vis2 hmemtv h
      rw [delayF_succ] at h
      cases hget : f.getTable table with
      | none =>
        simp only [delayBody, hget] at h
        cases h
      | some tb =>
        cases hloop : delay_strand_loop tb.strands [] [] visited with
        | panicked msg =>
          simp only [delayBody, hget, hloop] at h
          cases h
        | noFuel =>
          simp only [delayBody, hget, hloop] at h
          cases h
        | ok res =>
          obtain ⟨ns, tsAcc, v1⟩ := res
          simp only [delayBody, hget, hloop, cluster_delayTables_eq] at h
          obtain ⟨hns, ⟨fresh, htsAcc, hv1, hnodup, hnotin⟩, hcov⟩ :=
            delay_strand_loop_ok _ _ _ _ _ _ _ hloop
          simp only [List.nil_append] at hns htsAcc
          subst hns
          subst htsAcc
          have hstrset : ∀ v,
              (f.setTable table { tb with
                strands := tb.strands.map delay_strand }).strandsOf v =
              if v = table then tb.strands.map delay_strand
              else f.strandsOf v :=
            strandsOf_setTable f table tb _ hget
          have hSubFresh : ∀ x ∈ tsAcc, x ∈ v1 := by
            intro x hx
            rw [hv1]
            exact List.mem_append_right _ hx
          have S2 := ih.2 _ tsAcc v1 f2 vis2 hSubFresh hnodup h
          have hfstr : f.strandsOf table = tb.strands :=
            strandsOf_eq f table tb hget
          have hTablev1 : table ∈ v1 := by
            rw [hv1]
            exact List.mem_append_left _ hmemtv
          have hTableNotFresh : table ∉ tsAcc := fun hc => hnotin _ hc hmemtv
          refine ⟨?_, ?_, ?_, ?_, ?_, ?_⟩
          · intro x hx
            refine S2.mono x ?_
            rw [hv1]
            exact List.mem_append_left _ hx
          · intro u hu hnu
            have hune : u ≠ table := by
              intro hc
              exact hnu (hc ▸ List.mem_singleton.mpr (Eq.refl _))
            have h1 : (f.setTable table { tb with
                strands := tb.strands.map delay_strand }).strandsOf u =
                f.strandsOf u := by
              rw [hstrset]
              simp [hune]
            have hu1 : u ∈ v1 := by
              rw [hv1]
              exact List.mem_append_left _ hu
            have hufresh : u ∉ tsAcc := fun hc => hnotin u hc hu
            rw [S2.untouched u hu1 hufresh, h1]
          · intro u hu
            have hut : u = table := List.mem_singleton.mp hu
            subst hut
            have h1 : (f.setTable u { tb with
                strands := tb.strands.map delay_strand }).strandsOf u =
                (f.strandsOf u).map delay_strand := by
              rw [hstrset]
              simp [hfstr]
            rw [S2.untouched u hTablev1 hTableNotFresh, h1]
          · intro u hnu
            have hu1 : u ∉ v1 := fun hc => hnu (S2.mono u hc)
            have hune : u ≠ table := fun hc => hu1 (hc ▸ hTablev1)
            rw [S2.frame u hnu, hstrset]
            simp [hune]
          · intro u hu hnv
            have hune : u ≠ table := fun hc => hnv (hc ▸ hmemtv)
            have h1 : (f.setTable table { tb with
                strands := tb.strands.map delay_strand }).strandsOf u =
                f.strandsOf u := by
              rw [hstrset]
              simp [hune]
            by_cases hu1 : u ∈ v1
            · have hufresh : u ∈ tsAcc := by
                rw [hv1] at hu1
                rcases List.mem_append.mp hu1 with h2 | h2
                · exact absurd h2 hnv
                · exact h2
              rw [S2.inScope u hufresh, h1]
            · rw [S2.freshP u hu hu1, h1]
          · intro u hcase s hs sel hsel
            rcases hcase with hu | ⟨hu, hnv⟩
            · have hut : u = table := List.mem_singleton.mp hu
              subst hut
              rw [hfstr] at hs
              exact S2.mono _ (hcov s hs sel hsel)
            · have hune : u ≠ table := fun hc => hnv (hc ▸ hmemtv)
              have h1 : (f.setTable table { tb with
                  strands := tb.strands.map delay_strand }).strandsOf u =
                  f.strandsOf u := by
                rw [hstrset]
                simp [hune]
              by_cases hu1 : u ∈ v1
              · have hufresh : u ∈ tsAcc := by
                  rw [hv1] at hu1
                  rcases List.mem_append.mp hu1 with h2 | h2
                  · exact absurd h2 hnv
                  · exact h2
                refine S2.edges u (Or.inl hufresh) s ?_ sel hsel
                rw [h1]
                exact hs
              · refine S2.edges u (Or.inr ⟨hu, hu1⟩) s ?_ sel hsel
                rw [h1]
                exact hs
    · intro f ts visited f2 vis2 hsub hnd h
      rw [delayTables_succ] at h
      cases ts with
      | nil =>
        simp only [delayTablesBody] at h
        cases h
        refine ⟨fun x hx => hx, fun u _ _ => Eq.refl _, ?_, fun u _ => Eq.refl _,
          fun u hu hnv => absurd hu hnv, ?_⟩
        · intro u hu
          cases hu
        · intro u hcase
          rcases hcase with h2 | ⟨h2, h3⟩
          · cases h2
          · exact absurd h2 h3
      | cons t rest =>
        rcases hdf : delay_strands_after_cycle co n f t visited with ⟨f1, v1, r1⟩
        simp only [delayTablesBody, cluster_delayF_eq, hdf,
          cluster_delayTables_eq] at h
        cases r1 with
        | panicked msg => cases h
        | noFuel => cases h
        | ok u0 =>
          cases u0
          have htv : t ∈ visited := hsub t (List.mem_cons_self t rest)
          have S1 := ih.1 f t visited f1 v1 htv hdf
          have hrest_sub : ∀ x ∈ rest, x ∈ v1 := fun x hx =>
            S1.mono x (hsub x (List.mem_cons_of_mem _ hx))
          have hndr : rest.Nodup := (List.nodup_cons.mp hnd).2
          have htnr : t ∉ rest := (List.nodup_cons.mp hnd).1
          have S2 := ih.2 f1 rest v1 f2 vis2 hrest_sub hndr h
          refine ⟨?_, ?_, ?_, ?_, ?_, ?_⟩
          · intro x hx
            exact S2.mono x (S1.mono x hx)
          · intro u hu hnu
            have hune : u ≠ t := by
              intro hc
              exact hnu (hc ▸ List.mem_cons_self t rest)
            have hunr : u ∉ rest := fun hc =>
              hnu (List.mem_cons_of_mem _ hc)
            have h1 : f1.strandsOf u = f.strandsOf u :=
              S1.untouched u hu (by
                intro hc
                exact hune (List.mem_singleton.mp hc))
            rw [S2.untouched u (S1.mono u hu) hunr, h1]
          · intro u hu
            rcases List.mem_cons.mp hu with h2 | h2
            · subst h2
              have h1 : f1.strandsOf u = (f.strandsOf u).map delay_strand :=
                S1.inScope u (List.mem_singleton.mpr (Eq.refl _))
              rw [S2.untouched u (S1.mono u htv) htnr, h1]
            · have hune : u ≠ t := by
                intro hc
                subst hc
                exact htnr h2
              have h1 : f1.strandsOf u = f.strandsOf u :=
                S1.untouched u (hsub u hu) (by
                  intro hc
                  exact hune (List.mem_singleton.mp hc))
              rw [S2.inScope u h2, h1]
          · intro u hnu
            have hu1 : u ∉ v1 := fun hc => hnu (S2.mono u hc)
            rw [S2.frame u hnu, S1.frame u hu1]
          · intro u hu hnv
            by_cases hu1 : u ∈ v1
            · have hunr : u ∉ rest := fun hc => hnv (hsub u (List.mem_cons_of_mem _ hc))
              rw [S2.untouched u hu1 hunr, S1.freshP u hu1 hnv]
            · rw [S2.freshP u hu hu1, S1.frame u hu1]
          · intro u hcase s hs sel hsel
            rcases hcase with hu | ⟨hu, hnv⟩
            · rcases List.mem_cons.mp hu with h2 | h2
              · subst h2
                exact S2.mono _ (S1.edges u (Or.inl
                  (List.mem_singleton.mpr (Eq.refl _))) s hs sel hsel)
              · have hune : u ≠ t := by
                  intro hc
                  subst hc
                  exact htnr h2
                have h1 : f1.strandsOf u = f.strandsOf u :=
                  S1.untouched u (hsub u hu) (by
                    intro hc
                    exact hune (List.mem_singleton.mp hc))
                refine S2.edges u (Or.inl h2) s ?_ sel hsel
                rw [h1]
                exact hs
            · by_cases hu1 : u ∈ v1
              · exact S2.mono _ (S1.edges u (Or.inr ⟨hu1, hnv⟩) s hs sel hsel)
              · have h1 : f1.strandsOf u = f.strandsOf u := S1.frame u hu1
                refine S2.edges u (Or.inr ⟨hu, hu1⟩) s ?_ sel hsel
                rw [h1]
                exact hs


/-- In a `DelaySpec` whose scope and initial visited set are the same
singleton, every table reachable from the scope table along `Edge`s of the
pre-state forest ends up in the final visited set. -/
theorem delaySpec_chain {f f2 : Forest κ} {t : TableIndex}
    {vis2 : List TableIndex} (S : DelaySpec f f2 [t] [t] vis2) :
    ∀ u, Relation.TransGen (Edge f) t u → u ∈ vis2 := by
  intro u h
  induction h with
  | single h1 =>
    obtain ⟨s, hs, sel, hsel, hst⟩ := h1
    exact hst ▸ S.edges t (Or.inl (List.mem_singleton.mpr (Eq.refl _)))
      s hs sel hsel
  | tail h1 h2 ih =>
    rename_i b c
    obtain ⟨s, hs, sel, hsel, hst⟩ := h2
    by_cases hbt : b = t
    · subst hbt
      exact hst ▸ S.edges b (Or.inl (List.mem_singleton.mpr (Eq.refl _)))
        s hs sel hsel
    · exact hst ▸ S.edges b
        (Or.inr ⟨ih, fun hc => hbt (List.mem_singleton.mp hc)⟩) s hs sel hsel

/-! ## C1 -/

/-- C1: case analysis of `Forest::cycle` at a stack frame whose table has an
empty queue (the source's assert). If `minimums.positive` equals the frame's
dfn and `minimums.negative` is `MAX`, a successful clear yields
`Some NoMoreSolutions` and every table reachable from the stashed strands
through selected subgoal tables ends with an empty strand queue. Else if
both components are at least the frame's dfn, a successful delaying walk
yields `None`, the stashed strands are requeued with every currently
selected negative literal moved into the delayed literals (the table's final
queue is the stashed strands mapped through `delay_strand`, and likewise for
every reachable table), where `delay_strand` on a strand whose selection is
a negative literal removes the subgoal, appends
`Negative (subgoal table)` to the delayed literals and clears the
selection. Otherwise the strands are requeued and
`Some (Cycle minimums)` is returned. -/
theorem cycle_resolution (co : Collab κ) (fuel : Nat) (f : Forest κ)
    (depth : StackIndex) (strands : List (Strand κ)) (minimums : Minimums)
    (fr : StackFrame κ) (tb : Table κ)
    (hfr : f.stack.get? depth = some fr)
    (htb : f.getTable fr.table = some tb)
    (hempty : tb.strands = []) :
    ((minimums.positive = fr.dfn ∧ minimums.negative = DepthFirstNumber.MAX) →
      ∀ f1, clear_strands_after_cycle co fuel f fr.table strands =
          (f1, .ok ()) →
        cycle co (fuel + 1) f depth strands minimums =
          (f1, .ok (some .NoMoreSolutions)) ∧
        ∀ t, ClearReach f strands t → f1.strandsOf t = []) ∧
    (¬(minimums.positive = fr.dfn ∧
        minimums.negative = DepthFirstNumber.MAX) →
      (DepthFirstNumber.le fr.dfn minimums.positive &&
        DepthFirstNumber.le fr.dfn minimums.negative) = true →
      ∀ f2 v2, delay_strands_after_cycle co fuel
          (f.setTable fr.table (tb.extend_strands strands)) fr.table
          [fr.table] = (f2, v2, .ok ()) →
        cycle co (fuel + 1) f depth strands minimums = (f2, .ok none) ∧
        f2.strandsOf fr.table = strands.map delay_strand ∧
        (∀ t, Relation.TransGen
            (Edge (f.setTable fr.table (tb.extend_strands strands)))
            fr.table t →
          f2.strandsOf t =
            ((f.setTable fr.table
              (tb.extend_strands strands)).strandsOf t).map delay_strand) ∧
        (∀ (s : Strand κ) sel g, s.selected_subgoal = some sel →
          s.ex_clause.subgoals.get? sel.subgoal_index =
            some (.Negative g) →
          delay_strand s = { s with
            ex_clause := { s.ex_clause with
              subgoals := s.ex_clause.subgoals.eraseIdx sel.subgoal_index,
              delayed_literals := s.ex_clause.delayed_literals ++
                [.Negative sel.subgoal_table] },
            selected_subgoal := none })) ∧
    (¬(minimums.positive = fr.dfn ∧
        minimums.negative = DepthFirstNumber.MAX) →
      (DepthFirstNumber.le fr.dfn minimums.positive &&
        DepthFirstNumber.le fr.dfn minimums.negative) = false →
      cycle co (fuel + 1) f depth strands minimums =
        (f.setTable fr.table (tb.extend_strands strands),
          .ok (some (.Cycle minimums)))) := by
  have hpop : tb.pop_next_strand.isNone = true := by
    simp [Table.pop_next_strand, hempty]
  refine ⟨?_, ?_, ?_⟩
  · intro hcond f1 hclear
    rw [cycle_succ]
    refine ⟨?_, ?_⟩
    · simp only [cycleBody, hfr, htb, hpop, Bool.not_true, Bool.false_eq_true,
        if_false, cluster_clearF_eq]
      rw [if_pos hcond, hclear]
    · exact (clear_clears_reachable co fuel).1 f fr.table strands f1 hclear
  · intro hnot hle f2 v2 hdel
    rw [cycle_succ]
    have hmem : fr.table ∈ [fr.table] := List.mem_singleton.mpr (Eq.refl _)
    have S := (delay_main co fuel).1
      (f.setTable fr.table (tb.extend_strands strands)) fr.table [fr.table]
      f2 v2 hmem hdel
    refine ⟨?_, ?_, ?_, ?_⟩
    · simp only [cycleBody, hfr, htb, hpop, Bool.not_true, Bool.false_eq_true,
        if_false, cluster_delayF_eq]
      rw [if_neg hnot, if_pos hle, hdel]
    · have h1 := S.inScope fr.table hmem
      rw [strandsOf_setTable f fr.table tb _ htb fr.table,
        if_pos (Eq.refl _)] at h1
      rw [h1]
      show ((tb.strands ++ strands).map delay_strand) =
        strands.map delay_strand
      rw [hempty]
      rfl
    · intro t ht
      have htv : t ∈ v2 := delaySpec_chain S t ht
      by_cases hteq : t = fr.table
      · subst hteq
        exact S.inScope fr.table hmem
      · exact S.freshP t htv (fun hc => hteq (List.mem_singleton.mp hc))
    · intro s sel g hsel hneg
      simp only [delay_strand, hsel, hneg]
  · intro hnot hle
    rw [cycle_succ]
    simp only [cycleBody, hfr, htb, hpop, Bool.not_true, Bool.false_eq_true,
      if_false]
    rw [if_neg hnot, if_neg (by simp [hle])]

/-- Witness for C1 at a concrete forest: the table at the stack top has an
empty queue, the minimums hit the closing branch, and `cycle` clears and
reports `NoMoreSolutions`. -/
theorem cycle_resolution_witness :
    ((⟨[⟨⟨0⟩, false, [], []⟩], [⟨0, .fin 0, false⟩], 1, 10⟩ :
        Forest TypesNat).stack.get? 0 = some ⟨0, .fin 0, false⟩) ∧
    ((⟨[⟨⟨0⟩, false, [], []⟩], [⟨0, .fin 0, false⟩], 1, 10⟩ :
        Forest TypesNat).getTable 0 = some ⟨⟨0⟩, false, [], []⟩) ∧
    ((⟨⟨0⟩, false, [], []⟩ : Table TypesNat).strands = []) ∧
    cycle coNat 3
        (⟨[⟨⟨0⟩, false, [], []⟩], [⟨0, .fin 0, false⟩], 1, 10⟩ :
          Forest TypesNat) 0 [] ⟨.fin 0, .MAX⟩ =
      ((⟨[⟨⟨0⟩, false, [], []⟩], [⟨0, .fin 0, false⟩], 1, 10⟩ :
          Forest TypesNat), .ok (some .NoMoreSolutions)) := by
  refine ⟨rfl, rfl, rfl, ?_⟩
  exact ((cycle_resolution coNat 2
    (⟨[⟨⟨0⟩, false, [], []⟩], [⟨0, .fin 0, false⟩], 1, 10⟩ : Forest TypesNat)
    0 [] ⟨.fin 0, .MAX⟩ ⟨0, .fin 0, false⟩ ⟨⟨0⟩, false, [], []⟩
    rfl rfl rfl).1 ⟨rfl, rfl⟩
    (⟨[⟨⟨0⟩, false, [], []⟩], [⟨0, .fin 0, false⟩], 1, 10⟩ : Forest TypesNat)
    rfl).1


/-! ### Stack and counter preservation (infrastructure for the root-safety
analysis of `ensure_root_answer`) -/

theorem le_fin_fin {a b : Nat} (h : a ≤ b) :
    DepthFirstNumber.le (.fin a) (.fin b) = true := by
  simp [DepthFirstNumber.le, h]

/-- Every frame of the stack has a dfn at least `d`, and the dfn counter is
at least `d`. -/
def StackOK (d : Nat) (f : Forest κ) : Prop :=
  (∀ fr ∈ f.stack, DepthFirstNumber.le (.fin d) fr.dfn = true) ∧
  d ≤ f.dfn_counter

/-- Both components of the minimums are at least `d`. -/
def MinB (d : Nat) (m : Minimums) : Prop :=
  DepthFirstNumber.le (.fin d) m.positive = true ∧
  DepthFirstNumber.le (.fin d) m.negative = true

/-- `pursue_answer` only edits tables: the stack and the dfn counter are
unchanged, and it never reports a cycle. -/
theorem pursue_answer_stack (co : Collab κ) (f : Forest κ)
    (depth : StackIndex) (s : Strand κ) (f2 : Forest κ) (r : StrandR κ)
    (h : pursue_answer co f depth s = (f2, r)) :
    f2.stack = f.stack ∧ f2.dfn_counter = f.dfn_counter ∧
    ∀ s2 m, r ≠ .ok (.error (.Cycle s2 m)) := by
  obtain ⟨ii, ⟨su, cs, sg, dl⟩, selg⟩ := s
  simp only [pursue_answer] at h
  repeat' split at h
  all_goals cases h
  all_goals refine ⟨rfl, rfl, ?_⟩
  all_goals intro s2 m hm
  all_goals simp at hm

/-- `push_initial_strands` only edits tables. -/
theorem push_initial_strands_stack (co : Collab κ) (f : Forest κ)
    (t : TableIndex) :
    (push_initial_strands co f t).stack = f.stack ∧
    (push_initial_strands co f t).dfn_counter = f.dfn_counter := by
  simp only [push_initial_strands]
  repeat' split
  all_goals exact ⟨rfl, rfl⟩

/-- Table interning only edits tables. -/
theorem goc_ucanonical_stack (co : Collab κ) (f : Forest κ)
    (g : UCanonicalGoal κ) :
    (get_or_create_table_for_ucanonical_goal co f g).1.stack = f.stack ∧
    (get_or_create_table_for_ucanonical_goal co f g).1.dfn_counter =
      f.dfn_counter := by
  simp only [get_or_create_table_for_ucanonical_goal]
  split
  · exact ⟨rfl, rfl⟩
  · exact push_initial_strands_stack co _ _

/-- Subgoal interning only edits tables. -/
theorem goc_subgoal_stack (co : Collab κ) (f : Forest κ) (ii : κ.I)
    (lit : Literal κ) :
    (get_or_create_table_for_subgoal co f ii lit).1.stack = f.stack ∧
    (get_or_create_table_for_subgoal co f ii lit).1.dfn_counter =
      f.dfn_counter := by
  simp only [get_or_create_table_for_subgoal]
  repeat' split
  all_goals first
    | exact ⟨rfl, rfl⟩
    | exact goc_ucanonical_stack co f _

/-- `push_strand_pursuing_next_answer` only edits tables. -/
theorem pspna_stack (f : Forest κ) (depth : StackIndex) (s : Strand κ)
    (sel : SelectedSubgoal κ) (f2 : Forest κ) (r : Res Unit)
    (h : push_strand_pursuing_next_answer f depth s sel = (f2, r)) :
    f2.stack = f.stack ∧ f2.dfn_counter = f.dfn_counter := by
  simp only [push_strand_pursuing_next_answer] at h
  repeat' split at h
  all_goals cases h
  all_goals exact ⟨rfl, rfl⟩

/-- The clearing walk only edits tables. -/
theorem clear_stack (co : Collab κ) : ∀ fuel : Nat,
    (∀ (f : Forest κ) t ss f2 r,
      clear_strands_after_cycle co fuel f t ss = (f2, r) →
      f2.stack = f.stack ∧ f2.dfn_counter = f.dfn_counter) ∧
    (∀ (f : Forest κ) ss f2 r,
      clear_strands_go co fuel f ss = (f2, r) →
      f2.stack = f.stack ∧ f2.dfn_counter = f.dfn_counter) := by
  intro fuel
  induction fuel with
  | zero =>
    constructor
    · intro f t ss f2 r h
      cases h
      exact ⟨rfl, rfl⟩
    · intro f ss f2 r h
      cases h
      exact ⟨rfl, rfl⟩
  | succ n ih =>
    constructor
    · intro f t ss f2 r h
      rw [clearF_succ] at h
      cases hget : f.getTable t with
      | none =>
        simp only [clearBody, hget] at h
        cases h
        exact ⟨rfl, rfl⟩
      | some tb =>
        by_cases hassert : tb.pop_next_strand.isNone
        · simp only [clearBody, hget, hassert, Bool.not_true,
            Bool.false_eq_true, if_false, cluster_clearGo_eq] at h
          exact ih.2 f ss f2 r h
        · simp only [clearBody, hget, Bool.not_eq_true'] at h
          rw [Bool.not_eq_true] at hassert
          simp only [hassert, Bool.not_false, if_true] at h
          cases h
          exact ⟨rfl, rfl⟩
    · intro f ss f2 r h
      rw [clearGo_succ] at h
      cases ss with
      | nil =>
        simp only [clearGoBody] at h
        cases h
        exact ⟨rfl, rfl⟩
      | cons s rest =>
        cases hsel : s.selected_subgoal with
        | none =>
          simp only [clearGoBody, hsel] at h
          cases h
          exact ⟨rfl, rfl⟩
        | some sel =>
          cases hget : f.getTable sel.subgoal_table with
          | none =>
            simp only [clearGoBody, hsel, hget] at h
            cases h
            exact ⟨rfl, rfl⟩
          | some tbs =>
            simp only [clearGoBody, hsel, hget, Table.take_strands,
              cluster_clearF_eq, cluster_clearGo_eq] at h
            rcases hcf : clear_strands_after_cycle co n
                (f.setTable sel.subgoal_table { tbs with strands := [] })
                sel.subgoal_table tbs.strands with ⟨fa, ra⟩
            rw [hcf] at h
            have h1 := ih.1 _ _ _ _ _ hcf
            cases ra with
            | ok u0 =>
              cases u0
              have h2 := ih.2 _ _ _ _ h
              exact ⟨h2.1.trans h1.1, h2.2.trans h1.2⟩
            | panicked msg =>
              cases h
              exact h1
            | noFuel =>
              cases h
              exact h1

/-- The delaying walk only edits tables. -/
theorem delay_stack (co : Collab κ) : ∀ fuel : Nat,
    (∀ (f : Forest κ) t visited f2 v2 r,
      delay_strands_after_cycle co fuel f t visited = (f2, v2, r) →
      f2.stack = f.stack ∧ f2.dfn_counter = f.dfn_counter) ∧
    (∀ (f : Forest κ) ts visited f2 v2 r,
      delay_tables_after_cycle co fuel f ts visited = (f2, v2, r) →
      f2.stack = f.stack ∧ f2.dfn_counter = f.dfn_counter) := by
  intro fuel
  induction fuel with
  | zero =>
    constructor
    · intro f t visited f2 v2 r h
      cases h
      exact ⟨rfl, rfl⟩
    · intro f ts visited f2 v2 r h
      cases h
      exact ⟨rfl, rfl⟩
  | succ n ih =>
    constructor
    · intro f t visited f2 v2 r h
      rw [delayF_succ] at h
      cases hget : f.getTable t with
      | none =>
        simp only [delayBody, hget] at h
        cases h
        exact ⟨rfl, rfl⟩
      | some tb =>
        cases hloop : delay_strand_loop tb.strands [] [] visited with
        | panicked msg =>
          simp only [delayBody, hget, hloop] at h
          cases h
          exact ⟨rfl, rfl⟩
        | noFuel =>
          simp only [delayBody, hget, hloop] at h
          cases h
          exact ⟨rfl, rfl⟩
        | ok res =>
          obtain ⟨ns, tsAcc, v1⟩ := res
          simp only [delayBody, hget, hloop, cluster_delayTables_eq] at h
          have h2 := ih.2 _ _ _ _ _ _ h
          exact ⟨h2.1, h2.2⟩
    · intro f ts visited f2 v2 r h
      rw [delayTables_succ] at h
      cases ts with
      | nil =>
        simp only [delayTablesBody] at h
        cases h
        exact ⟨rfl, rfl⟩
      | cons t rest =>
        rcases hdf : delay_strands_after_cycle co n f t visited
          with ⟨fa, va, ra⟩
        simp only [delayTablesBody, cluster_delayF_eq, hdf,
          cluster_delayTables_eq] at h
        have h1 := ih.1 _ _ _ _ _ _ hdf
        cases ra with
        | ok u0 =>
          cases u0
          have h2 := ih.2 _ _ _ _ _ _ h
          exact ⟨h2.1.trans h1.1, h2.2.trans h1.2⟩
        | panicked msg =>
          cases h
          exact h1
        | noFuel =>
          cases h
          exact h1

/-- `cycle` only edits tables. -/
theorem cycle_stack (co : Collab κ) (fuel : Nat) (f : Forest κ)
    (depth : StackIndex) (ss : List (Strand κ)) (cm : Minimums)
    (f2 : Forest κ) (r : Res (Option RecursiveSearchFail))
    (h : cycle co fuel f depth ss cm = (f2, r)) :
    f2.stack = f.stack ∧ f2.dfn_counter = f.dfn_counter := by
  cases fuel with
  | zero =>
    cases h
    exact ⟨rfl, rfl⟩
  | succ n =>
    rw [cycle_succ] at h
    cases hfr : f.stack.get? depth with
    | none =>
      simp only [cycleBody, hfr] at h
      cases h
      exact ⟨rfl, rfl⟩
    | some fr =>
      cases hget : f.getTable fr.table with
      | none =>
        simp only [cycleBody, hfr, hget] at h
        cases h
        exact ⟨rfl, rfl⟩
      | some tb =>
        by_cases hassert : tb.pop_next_strand.isNone
        · simp only [cycleBody, hfr, hget, hassert, Bool.not_true,
            Bool.false_eq_true, if_false, cluster_clearF_eq,
            cluster_delayF_eq] at h
          split at h
          · rcases hcf : clear_strands_after_cycle co n f fr.table ss
              with ⟨fa, ra⟩
            rw [hcf] at h
            have h1 := (clear_stack co n).1 _ _ _ _ _ hcf
            cases ra with
            | ok u0 =>
              cases u0
              cases h
              exact h1
            | panicked msg =>
              cases h
              exact h1
            | noFuel =>
              cases h
              exact h1
          · split at h
            · rcases hdf : delay_strands_after_cycle co n
                  (f.setTable fr.table (tb.extend_strands ss)) fr.table
                  [fr.table] with ⟨fa, va, ra⟩
              rw [hdf] at h
              have h1 := (delay_stack co n).1 _ _ _ _ _ _ hdf
              cases ra with
              | ok u0 =>
                cases u0
                cases h
                exact h1
              | panicked msg =>
                cases h
                exact h1
              | noFuel =>
                cases h
                exact h1
            · cases h
              exact ⟨rfl, rfl⟩
        · simp only [cycleBody, hfr, hget, Bool.not_eq_true'] at h
          rw [Bool.not_eq_true] at hassert
          simp only [hassert, Bool.not_false, if_true] at h
          cases h
          exact ⟨rfl, rfl⟩

/-- When `cycle` reports a cycle it propagates exactly the minimums it was
given, and the frame at the given depth fails the containment test. -/
theorem cycle_cycle_result (co : Collab κ) (fuel : Nat) (f : Forest κ)
    (depth : StackIndex) (ss : List (Strand κ)) (cm : Minimums)
    (f2 : Forest κ) (m : Minimums)
    (h : cycle co fuel f depth ss cm = (f2, .ok (some (.Cycle m)))) :
    m = cm ∧ ∃ fr, f.stack.get? depth = some fr ∧
      (DepthFirstNumber.le fr.dfn cm.positive &&
        DepthFirstNumber.le fr.dfn cm.negative) = false := by
  cases fuel with
  | zero => cases h
  | succ n =>
    rw [cycle_succ] at h
    cases hfr : f.stack.get? depth with
    | none =>
      simp only [cycleBody, hfr] at h
      cases h
    | some fr =>
      cases hget : f.getTable fr.table with
      | none =>
        simp only [cycleBody, hfr, hget] at h
        cases h
      | some tb =>
        by_cases hassert : tb.pop_next_strand.isNone
        · simp only [cycleBody, hfr, hget, hassert, Bool.not_true,
            Bool.false_eq_true, if_false, cluster_clearF_eq,
            cluster_delayF_eq] at h
          split at h
          · rcases hcf : clear_strands_after_cycle co n f fr.table ss
              with ⟨fa, ra⟩
            rw [hcf] at h
            cases ra with
            | ok u0 =>
              cases u0
              simp at h
            | panicked msg => cases h
            | noFuel => cases h
          · split at h
            · rcases hdf : delay_strands_after_cycle co n
                  (f.setTable fr.table (tb.extend_strands ss)) fr.table
                  [fr.table] with ⟨fa, va, ra⟩
              rw [hdf] at h
              cases ra with
              | ok u0 =>
                cases u0
                simp at h
              | panicked msg => cases h
              | noFuel => cases h
            · rename_i hc1 hc2
              simp only [Prod.mk.injEq, Res.ok.injEq, Option.some.injEq,
                RecursiveSearchFail.Cycle.injEq] at h
              refine ⟨h.2.symm, fr, rfl, ?_⟩
              rw [Bool.not_eq_true] at hc2
              exact hc2
        · simp only [cycleBody, hfr, hget, Bool.not_eq_true'] at h
          rw [Bool.not_eq_true] at hassert
          simp only [hassert, Bool.not_false, if_true] at h
          cases h


/-- The depth-first-number invariant: if every stack frame's dfn and the dfn
counter are at least `d`, then (a) on any non-panicking result the stack is
restored and the counter stays at least `d`, and (b) any reported cycle's
minimums are at least `d`; for the strand scheduler, a reported cycle's
minimums moreover fail the containment test against the frame at the
scheduler's depth. -/
theorem dfn_invariant (co : Collab κ) (d : Nat) : ∀ fuel : Nat,
    (∀ (f : Forest κ) table answer f2 r,
      ensure_answer_recursively co fuel f table answer = (f2, r) →
      StackOK d f →
      ((∀ v, r = .ok v → f2.stack = f.stack ∧ d ≤ f2.dfn_counter) ∧
       (∀ m, r = .ok (.error (.Cycle m)) → MinB d m))) ∧
    (∀ (f : Forest κ) depth f2 r,
      pursue_next_strand co fuel f depth = (f2, r) →
      StackOK d f →
      ((∀ v, r = .ok v → f2.stack = f.stack ∧ d ≤ f2.dfn_counter) ∧
       (∀ m, r = .ok (.error (.Cycle m)) → MinB d m ∧
         ∃ fr, f.stack.get? depth = some fr ∧
           (DepthFirstNumber.le fr.dfn m.positive &&
            DepthFirstNumber.le fr.dfn m.negative) = false))) ∧
    (∀ (f : Forest κ) depth table cs cm f2 r,
      pursue_next_strand_loop co fuel f depth table cs cm = (f2, r) →
      StackOK d f → MinB d cm →
      ((∀ v, r = .ok v → f2.stack = f.stack ∧ d ≤ f2.dfn_counter) ∧
       (∀ m, r = .ok (.error (.Cycle m)) → MinB d m ∧
         ∃ fr, f.stack.get? depth = some fr ∧
           (DepthFirstNumber.le fr.dfn m.positive &&
            DepthFirstNumber.le fr.dfn m.negative) = false))) ∧
    (∀ (f : Forest κ) depth s f2 r,
      pursue_strand co fuel f depth s = (f2, r) →
      StackOK d f →
      ((∀ v, r = .ok v → f2.stack = f.stack ∧ d ≤ f2.dfn_counter) ∧
       (∀ s2 m, r = .ok (.error (.Cycle s2 m)) → MinB d m))) ∧
    (∀ (f : Forest κ) depth s sel f2 r,
      pursue_positive_subgoal co fuel f depth s sel = (f2, r) →
      StackOK d f →
      ((∀ v, r = .ok v → f2.stack = f.stack ∧ d ≤ f2.dfn_counter) ∧
       (∀ s2 m, r = .ok (.error (.Cycle s2 m)) → MinB d m))) ∧
    (∀ (f : Forest κ) depth s sel f2 r,
      pursue_negative_subgoal co fuel f depth s sel = (f2, r) →
      StackOK d f →
      ((∀ v, r = .ok v → f2.stack = f.stack ∧ d ≤ f2.dfn_counter) ∧
       (∀ s2 m, r = .ok (.error (.Cycle s2 m)) → MinB d m))) := by
  intro fuel
  induction fuel with
  | zero =>
    refine ⟨?_, ?_, ?_, ?_, ?_, ?_⟩
    · intro f table answer f2 r h hOK
      cases h
      exact ⟨(fun v hv => nomatch hv), (fun m hm => nomatch hm)⟩
    · intro f depth f2 r h hOK
      cases h
      exact ⟨(fun v hv => nomatch hv), (fun m hm => nomatch hm)⟩
    · intro f depth table cs cm f2 r h hOK hcm
      cases h
      exact ⟨(fun v hv => nomatch hv), (fun m hm => nomatch hm)⟩
    · intro f depth s f2 r h hOK
      cases h
      exact ⟨(fun v hv => nomatch hv), (fun s2 m hm => nomatch hm)⟩
    · intro f depth s sel f2 r h hOK
      cases h
      exact ⟨(fun v hv => nomatch hv), (fun s2 m hm => nomatch hm)⟩
    · intro f depth s sel f2 r h hOK
      cases h
      exact ⟨(fun v hv => nomatch hv), (fun s2 m hm => nomatch hm)⟩
  | succ n ih =>
    obtain ⟨ihE, ihPN, ihPL, ihPU, ihPO, ihNE⟩ := ih
    refine ⟨?_, ?_, ?_, ?_, ?_, ?_⟩
    · -- ensure_answer_recursively
      intro f table answer f2 r h hOK
      rw [ensure_succ] at h
      cases hget : f.getTable table with
      | none =>
        simp only [ensureBody, hget] at h
        cases h
        exact ⟨(fun v hv => nomatch hv), (fun m hm => nomatch hm)⟩
      | some tb =>
        cases hans : tb.answer answer with
        | some a =>
          simp only [ensureBody, hget, hans] at h
          cases h
          exact ⟨fun v hv => ⟨rfl, hOK.2⟩, fun m hm => by simp at hm⟩
        | none =>
          simp only [ensureBody, hget, hans] at h
          by_cases hnext : tb.next_answer_index = answer
          · rw [if_neg (fun hc => hc hnext)] at h
            cases hact : f.is_active table with
            | some depth2 =>
              simp only [hact] at h
              by_cases hco : f.top_of_stack_is_coinductive_from depth2 = true
              · rw [if_pos hco] at h
                cases h
                exact ⟨fun v hv => ⟨rfl, hOK.2⟩, fun m hm => by simp at hm⟩
              · rw [if_neg hco] at h
                cases hfr : f.stack.get? depth2 with
                | none =>
                  simp only [hfr] at h
                  cases h
                  exact ⟨(fun v hv => nomatch hv), (fun m hm => nomatch hm)⟩
                | some fr =>
                  simp only [hfr] at h
                  cases h
                  refine ⟨fun v hv => ⟨rfl, hOK.2⟩, ?_⟩
                  intro m hm
                  simp only [Res.ok.injEq, Except.error.injEq,
                    RecursiveSearchFail.Cycle.injEq] at hm
                  subst hm
                  exact ⟨hOK.1 fr (List.get?_mem hfr),
                    DepthFirstNumber.le_MAX _⟩
            | none =>
              simp only [hact, Forest.next_dfn, cluster_pns_eq] at h
              have hOK2 : StackOK d { f with
                  dfn_counter := f.dfn_counter + 1,
                  stack := f.stack ++
                    [⟨table, .fin f.dfn_counter, tb.coinductive_goal⟩] } := by
                refine ⟨?_, ?_⟩
                · intro fr hfr
                  rcases List.mem_append.mp hfr with h1 | h1
                  · exact hOK.1 fr h1
                  · rw [List.mem_singleton.mp h1]
                    exact le_fin_fin hOK.2
                · exact Nat.le_succ_of_le hOK.2
              split at h
              · rename_i f3 heq
                have HI := ihPN _ _ _ _ heq hOK2
                have h1 := HI.1 _ rfl
                have hst : f3.stack.dropLast = f.stack := by
                  rw [h1.1]
                  simp
                cases h
                exact ⟨fun v hv => ⟨hst, h1.2⟩, fun m hm => by simp at hm⟩
              · rename_i f3 e heq
                have HI := ihPN _ _ _ _ heq hOK2
                have h1 := HI.1 _ rfl
                have hst : f3.stack.dropLast = f.stack := by
                  rw [h1.1]
                  simp
                cases h
                refine ⟨fun v hv => ⟨hst, h1.2⟩, ?_⟩
                intro m hm
                simp only [Res.ok.injEq, Except.error.injEq] at hm
                subst hm
                exact (HI.2 m rfl).1
              · rename_i f3 msg heq
                cases h
                exact ⟨(fun v hv => nomatch hv), (fun m hm => nomatch hm)⟩
              · rename_i f3 heq
                cases h
                exact ⟨(fun v hv => nomatch hv), (fun m hm => nomatch hm)⟩
          · rw [if_pos hnext] at h
            cases h
            exact ⟨(fun v hv => nomatch hv), (fun m hm => nomatch hm)⟩
    · -- pursue_next_strand
      intro f depth f2 r h hOK
      rw [pns_succ] at h
      cases hfr : f.stack.get? depth with
      | none =>
        simp only [pnsBody, hfr] at h
        cases h
        exact ⟨(fun v hv => nomatch hv), (fun m hm => nomatch hm)⟩
      | some fr =>
        simp only [pnsBody, hfr, cluster_pnsLoop_eq] at h
        have HI := ihPL _ _ _ _ _ _ _ h hOK
          ⟨DepthFirstNumber.le_MAX _, DepthFirstNumber.le_MAX _⟩
        refine ⟨HI.1, ?_⟩
        intro m hm
        obtain ⟨hmb, fr2, hfr2, hg⟩ := HI.2 m hm
        exact ⟨hmb, fr2, hfr ▸ hfr2, hg⟩
    · -- pursue_next_strand_loop
      intro f depth table cs cm f2 r h hOK hcm
      rw [pnsLoop_succ] at h
      cases hget : f.getTable table with
      | none =>
        simp only [pnsLoopBody, hget] at h
        cases h
        exact ⟨(fun v hv => nomatch hv), (fun m hm => nomatch hm)⟩
      | some tb =>
        simp only [pnsLoopBody, hget, cluster_pursue_eq, cluster_pnsLoop_eq,
          cluster_cycleF_eq] at h
        cases hpop : tb.pop_next_strand with
        | some pr =>
          obtain ⟨strand, tb1⟩ := pr
          simp only [hpop] at h
          have hOK0 : StackOK d (f.setTable table tb1) := hOK
          rcases hpu : pursue_strand co n (f.setTable table tb1) depth strand
            with ⟨f1, r1⟩
          have HU := ihPU _ _ _ _ _ hpu hOK0
          cases r1 with
          | panicked msg =>
            simp only [hpu] at h
            cases h
            exact ⟨(fun v hv => nomatch hv), (fun m hm => nomatch hm)⟩
          | noFuel =>
            simp only [hpu] at h
            cases h
            exact ⟨(fun v hv => nomatch hv), (fun m hm => nomatch hm)⟩
          | ok v1 =>
            have h1 := HU.1 _ rfl
            cases v1 with
            | ok u0 =>
              cases u0
              simp only [hpu] at h
              cases hgx : f1.getTable table with
              | none =>
                simp only [hgx] at h
                cases h
                exact ⟨(fun v hv => nomatch hv), (fun m hm => nomatch hm)⟩
              | some tbx =>
                simp only [hgx] at h
                cases h
                exact ⟨fun v hv => ⟨h1.1, h1.2⟩, fun m hm => by simp at hm⟩
            | error e =>
              cases e with
              | NoSolution =>
                simp only [hpu] at h
                cases hgx : f1.getTable table with
                | none =>
                  simp only [hgx] at h
                  cases h
                  exact ⟨(fun v hv => nomatch hv), (fun m hm => nomatch hm)⟩
                | some tbx =>
                  simp only [hgx] at h
                  cases h
                  exact ⟨fun v hv => ⟨h1.1, h1.2⟩, fun m hm => by simp at hm⟩
              | QuantumExceeded =>
                simp only [hpu] at h
                cases hgx : f1.getTable table with
                | none =>
                  simp only [hgx] at h
                  cases h
                  exact ⟨(fun v hv => nomatch hv), (fun m hm => nomatch hm)⟩
                | some tbx =>
                  simp only [hgx] at h
                  cases h
                  exact ⟨fun v hv => ⟨h1.1, h1.2⟩, fun m hm => by simp at hm⟩
              | Cycle s2 sm =>
                simp only [hpu] at h
                have hmb := HU.2 s2 sm rfl
                have hOK1 : StackOK d f1 :=
                  ⟨by rw [h1.1]; exact hOK.1, h1.2⟩
                have hcm1 : MinB d (cm.take_minimums sm) :=
                  ⟨DepthFirstNumber.le_dmin hcm.1 hmb.1,
                   DepthFirstNumber.le_dmin hcm.2 hmb.2⟩
                have HL := ihPL _ _ _ _ _ _ _ h hOK1 hcm1
                refine ⟨fun v hv => ⟨(HL.1 v hv).1.trans h1.1, (HL.1 v hv).2⟩,
                  ?_⟩
                intro m hm
                obtain ⟨hmb2, fr2, hfr2, hg⟩ := HL.2 m hm
                exact ⟨hmb2, fr2, h1.1 ▸ hfr2, hg⟩
        | none =>
          simp only [hpop] at h
          by_cases hcs : cs.isEmpty = true
          · rw [if_pos hcs] at h
            cases h
            exact ⟨fun v hv => ⟨rfl, hOK.2⟩, fun m hm => by simp at hm⟩
          · rw [if_neg hcs] at h
            rcases hcy : cycle co n f depth cs cm with ⟨f1, rc⟩
            have hst := cycle_stack co n _ _ _ _ _ _ hcy
            cases rc with
            | panicked msg =>
              simp only [hcy] at h
              cases h
              exact ⟨(fun v hv => nomatch hv), (fun m hm => nomatch hm)⟩
            | noFuel =>
              simp only [hcy] at h
              cases h
              exact ⟨(fun v hv => nomatch hv), (fun m hm => nomatch hm)⟩
            | ok oerr =>
              cases oerr with
              | none =>
                simp only [hcy] at h
                have hOK1 : StackOK d f1 :=
                  ⟨by rw [hst.1]; exact hOK.1, by rw [hst.2]; exact hOK.2⟩
                have HL := ihPL _ _ _ _ _ _ _ h hOK1 hcm
                refine ⟨fun v hv => ⟨(HL.1 v hv).1.trans hst.1, (HL.1 v hv).2⟩,
                  ?_⟩
                intro m hm
                obtain ⟨hmb2, fr2, hfr2, hg⟩ := HL.2 m hm
                exact ⟨hmb2, fr2, hst.1 ▸ hfr2, hg⟩
              | some err =>
                simp only [hcy] at h
                cases h
                refine ⟨fun v hv => ⟨hst.1, by rw [hst.2]; exact hOK.2⟩, ?_⟩
                intro m hm
                simp only [Res.ok.injEq, Except.error.injEq] at hm
                subst hm
                obtain ⟨hmeq, fr2, hfr2, hg⟩ :=
                  cycle_cycle_result co n _ _ _ _ _ _ hcy
                subst hmeq
                exact ⟨hcm, fr2, hfr2, hg⟩
    · -- pursue_strand
      intro f depth s f2 r h hOK
      rw [pursue_succ] at h
      cases hsel : s.selected_subgoal with
      | some sel =>
        simp only [pursueBody, hsel, cluster_positive_eq,
          cluster_negative_eq] at h
        cases hglit : s.ex_clause.subgoals.get? sel.subgoal_index with
        | none =>
          simp only [hglit] at h
          cases h
          exact ⟨(fun v hv => nomatch hv), (fun s2 m hm => nomatch hm)⟩
        | some lit =>
          cases lit with
          | Positive g =>
            simp only [hglit] at h
            exact ihPO _ _ _ _ _ _ h hOK
          | Negative g =>
            simp only [hglit] at h
            exact ihNE _ _ _ _ _ _ h hOK
      | none =>
        simp only [pursueBody, hsel, cluster_pursue_eq] at h
        by_cases hlen : s.ex_clause.subgoals.length = 0
        · rw [if_pos hlen] at h
          have hp := pursue_answer_stack co f depth s f2 r h
          exact ⟨fun v hv => ⟨hp.1, by rw [hp.2.1]; exact hOK.2⟩,
            fun s2 m hm => absurd hm (hp.2.2 s2 m)⟩
        · rw [if_neg hlen] at h
          cases hglit : s.ex_clause.subgoals.get?
              (s.ex_clause.subgoals.length - 1) with
          | none =>
            simp only [hglit] at h
            cases h
            exact ⟨(fun v hv => nomatch hv), (fun s2 m hm => nomatch hm)⟩
          | some lit =>
            simp only [hglit] at h
            rcases hgoc : get_or_create_table_for_subgoal co f s.infer lit
              with ⟨f1, opt⟩
            have hgs0 := goc_subgoal_stack co f s.infer lit
            rw [hgoc] at hgs0
            have hgs : f1.stack = f.stack ∧ f1.dfn_counter = f.dfn_counter :=
              hgs0
            have hOK1 : StackOK d f1 :=
              ⟨by rw [hgs.1]; exact hOK.1, by rw [hgs.2]; exact hOK.2⟩
            cases opt with
            | some pr =>
              obtain ⟨st, um⟩ := pr
              simp only [hgoc] at h
              have HP := ihPU _ _ _ _ _ h hOK1
              exact ⟨fun v hv => ⟨(HP.1 v hv).1.trans hgs.1, (HP.1 v hv).2⟩,
                fun s2 m hm => HP.2 s2 m hm⟩
            | none =>
              simp only [hgoc] at h
              have HP := ihPU _ _ _ _ _ h hOK1
              exact ⟨fun v hv => ⟨(HP.1 v hv).1.trans hgs.1, (HP.1 v hv).2⟩,
                fun s2 m hm => HP.2 s2 m hm⟩
    · -- pursue_positive_subgoal
      intro f depth s sel f2 r h hOK
      rw [positive_succ] at h
      cases hfr : f.stack.get? depth with
      | none =>
        simp only [positiveBody, hfr] at h
        cases h
        exact ⟨(fun v hv => nomatch hv), (fun s2 m hm => nomatch hm)⟩
      | some fr =>
        simp only [positiveBody, hfr, cluster_ensure_eq,
          cluster_pursue_eq] at h
        rcases hens : ensure_answer_recursively co n f sel.subgoal_table
          sel.answer_index with ⟨f1, r1⟩
        cases r1 with
        | panicked msg =>
          simp only [hens] at h
          cases h
          exact ⟨(fun v hv => nomatch hv), (fun s2 m hm => nomatch hm)⟩
        | noFuel =>
          simp only [hens] at h
          cases h
          exact ⟨(fun v hv => nomatch hv), (fun s2 m hm => nomatch hm)⟩
        | ok v1 =>
          have HE := ihE _ _ _ _ _ hens hOK
          have h1 := HE.1 _ rfl
          have hOK1 : StackOK d f1 := ⟨by rw [h1.1]; exact hOK.1, h1.2⟩
          cases v1 with
          | error e =>
            cases e with
            | NoMoreSolutions =>
              simp only [hens] at h
              cases h
              exact ⟨fun v hv => ⟨h1.1, h1.2⟩, fun s2 m hm => by simp at hm⟩
            | QuantumExceeded =>
              simp only [hens] at h
              cases hgt : f1.getTable fr.table with
              | none =>
                simp only [hgt] at h
                cases h
                exact ⟨(fun v hv => nomatch hv), (fun s2 m hm => nomatch hm)⟩
              | some tbt =>
                simp only [hgt] at h
                cases h
                exact ⟨fun v hv => ⟨h1.1, h1.2⟩, fun s2 m hm => by simp at hm⟩
            | Cycle mm =>
              simp only [hens] at h
              cases h
              refine ⟨fun v hv => ⟨h1.1, h1.2⟩, ?_⟩
              intro s2 m hm
              simp only [Res.ok.injEq, Except.error.injEq,
                StrandFail.Cycle.injEq] at hm
              obtain ⟨hs2, hmm⟩ := hm
              subst hmm
              exact HE.2 mm rfl
          | ok es =>
            cases es with
            | Coinductive =>
              simp only [hens] at h
              cases hgt1 : f1.getTable fr.table with
              | none =>
                cases hgt2 : f1.getTable sel.subgoal_table with
                | none =>
                  simp only [hgt1, hgt2] at h
                  cases h
                  exact ⟨(fun v hv => nomatch hv), (fun s2 m hm => nomatch hm)⟩
                | some tbs =>
                  simp only [hgt1, hgt2] at h
                  cases h
                  exact ⟨(fun v hv => nomatch hv), (fun s2 m hm => nomatch hm)⟩
              | some tbt =>
                cases hgt2 : f1.getTable sel.subgoal_table with
                | none =>
                  simp only [hgt1, hgt2] at h
                  cases h
                  exact ⟨(fun v hv => nomatch hv), (fun s2 m hm => nomatch hm)⟩
                | some tbs =>
                  simp only [hgt1, hgt2] at h
                  by_cases hcoin :
                      (tbt.coinductive_goal && tbs.coinductive_goal) = true
                  · rw [if_pos hcoin] at h
                    cases hglit : s.ex_clause.subgoals.get?
                        sel.subgoal_index with
                    | none =>
                      simp only [hglit] at h
                      cases h
                      exact ⟨(fun v hv => nomatch hv),
                        (fun s2 m hm => nomatch hm)⟩
                    | some lit =>
                      simp only [hglit] at h
                      have HP := ihPU _ _ _ _ _ h hOK1
                      exact ⟨fun v hv => ⟨(HP.1 v hv).1.trans h1.1,
                        (HP.1 v hv).2⟩, fun s2 m hm => HP.2 s2 m hm⟩
                  · rw [if_neg hcoin] at h
                    cases h
                    exact ⟨(fun v hv => nomatch hv),
                      (fun s2 m hm => nomatch hm)⟩
            | AnswerAvailable =>
              simp only [hens] at h
              rcases hps : push_strand_pursuing_next_answer f1 depth s sel
                with ⟨f3, r2⟩
              cases r2 with
              | panicked msg =>
                simp only [hps] at h
                cases h
                exact ⟨(fun v hv => nomatch hv), (fun s2 m hm => nomatch hm)⟩
              | noFuel =>
                simp only [hps] at h
                cases h
                exact ⟨(fun v hv => nomatch hv), (fun s2 m hm => nomatch hm)⟩
              | ok u0 =>
                cases u0
                simp only [hps] at h
                have hp2 := pspna_stack _ _ _ _ _ _ hps
                have hOK2 : StackOK d f3 :=
                  ⟨by rw [hp2.1, h1.1]; exact hOK.1,
                   by rw [hp2.2]; exact h1.2⟩
                cases hglit : s.ex_clause.subgoals.get?
                    sel.subgoal_index with
                | none =>
                  simp only [hglit] at h
                  cases h
                  exact ⟨(fun v hv => nomatch hv), (fun s2 m hm => nomatch hm)⟩
                | some lit =>
                  cases lit with
                  | Negative g =>
                    simp only [hglit] at h
                    cases h
                    exact ⟨(fun v hv => nomatch hv),
                      (fun s2 m hm => nomatch hm)⟩
                  | Positive g =>
                    simp only [hglit] at h
                    cases hgt : f3.getTable sel.subgoal_table with
                    | none =>
                      simp only [hgt] at h
                      cases h
                      exact ⟨(fun v hv => nomatch hv),
                        (fun s2 m hm => nomatch hm)⟩
                    | some tbs =>
                      simp only [hgt] at h
                      cases hga : tbs.answer sel.answer_index with
                      | none =>
                        simp only [hga] at h
                        cases h
                        exact ⟨(fun v hv => nomatch hv),
                          (fun s2 m hm => nomatch hm)⟩
                      | some answer0 =>
                        simp only [hga] at h
                        split at h
                        · have HP := ihPU _ _ _ _ _ h hOK2
                          exact ⟨fun v hv =>
                            ⟨(HP.1 v hv).1.trans (hp2.1.trans h1.1),
                             (HP.1 v hv).2⟩,
                            fun s2 m hm => HP.2 s2 m hm⟩
                        · cases h
                          exact ⟨fun v hv => ⟨hp2.1.trans h1.1,
                            by rw [hp2.2]; exact h1.2⟩,
                            fun s2 m hm => by simp at hm⟩
    · -- pursue_negative_subgoal
      intro f depth s sel f2 r h hOK
      rw [negative_succ] at h
      cases hfr : f.stack.get? depth with
      | none =>
        simp only [negativeBody, hfr] at h
        cases h
        exact ⟨(fun v hv => nomatch hv), (fun s2 m hm => nomatch hm)⟩
      | some fr =>
        simp only [negativeBody, hfr, cluster_ensure_eq,
          cluster_pursue_eq] at h
        rcases hens : ensure_answer_recursively co n f sel.subgoal_table
          sel.answer_index with ⟨f1, r1⟩
        cases r1 with
        | panicked msg =>
          simp only [hens] at h
          cases h
          exact ⟨(fun v hv => nomatch hv), (fun s2 m hm => nomatch hm)⟩
        | noFuel =>
          simp only [hens] at h
          cases h
          exact ⟨(fun v hv => nomatch hv), (fun s2 m hm => nomatch hm)⟩
        | ok v1 =>
          have HE := ihE _ _ _ _ _ hens hOK
          have h1 := HE.1 _ rfl
          have hOK1 : StackOK d f1 := ⟨by rw [h1.1]; exact hOK.1, h1.2⟩
          cases v1 with
          | ok es =>
            cases es with
            | AnswerAvailable =>
              simp only [hens] at h
              cases hgt : f1.getTable sel.subgoal_table with
              | none =>
                simp only [hgt] at h
                cases h
                exact ⟨(fun v hv => nomatch hv), (fun s2 m hm => nomatch hm)⟩
              | some tbs =>
                simp only [hgt] at h
                cases hga : tbs.answer sel.answer_index with
                | none =>
                  simp only [hga] at h
                  cases h
                  exact ⟨(fun v hv => nomatch hv), (fun s2 m hm => nomatch hm)⟩
                | some answer0 =>
                  simp only [hga] at h
                  by_cases hu : answer0.is_unconditional = true
                  · rw [if_pos hu] at h
                    cases h
                    exact ⟨fun v hv => ⟨h1.1, h1.2⟩,
                      fun s2 m hm => by simp at hm⟩
                  · rw [if_neg hu] at h
                    cases hglit : s.ex_clause.subgoals.get?
                        sel.subgoal_index with
                    | none =>
                      simp only [hglit] at h
                      cases h
                      exact ⟨(fun v hv => nomatch hv),
                        (fun s2 m hm => nomatch hm)⟩
                    | some lit =>
                      simp only [hglit] at h
                      have HP := ihPU _ _ _ _ _ h hOK1
                      exact ⟨fun v hv => ⟨(HP.1 v hv).1.trans h1.1,
                        (HP.1 v hv).2⟩, fun s2 m hm => HP.2 s2 m hm⟩
            | Coinductive =>
              simp only [hens] at h
              cases h
              exact ⟨fun v hv => ⟨h1.1, h1.2⟩, fun s2 m hm => by simp at hm⟩
          | error e =>
            cases e with
            | NoMoreSolutions =>
              simp only [hens] at h
              cases hglit : s.ex_clause.subgoals.get?
                  sel.subgoal_index with
              | none =>
                simp only [hglit] at h
                cases h
                exact ⟨(fun v hv => nomatch hv), (fun s2 m hm => nomatch hm)⟩
              | some lit =>
                simp only [hglit] at h
                have HP := ihPU _ _ _ _ _ h hOK1
                exact ⟨fun v hv => ⟨(HP.1 v hv).1.trans h1.1,
                  (HP.1 v hv).2⟩, fun s2 m hm => HP.2 s2 m hm⟩
            | QuantumExceeded =>
              simp only [hens] at h
              cases hgt : f1.getTable fr.table with
              | none =>
                simp only [hgt] at h
                cases h
                exact ⟨(fun v hv => nomatch hv), (fun s2 m hm => nomatch hm)⟩
              | some tbt =>
                simp only [hgt] at h
                cases h
                exact ⟨fun v hv => ⟨h1.1, h1.2⟩, fun s2 m hm => by simp at hm⟩
            | Cycle mm =>
              simp only [hens] at h
              cases hfr1 : f1.stack.get? depth with
              | none =>
                simp only [hfr1] at h
                cases h
                exact ⟨(fun v hv => nomatch hv), (fun s2 m hm => nomatch hm)⟩
              | some fr1 =>
                simp only [hfr1] at h
                cases h
                refine ⟨fun v hv => ⟨h1.1, h1.2⟩, ?_⟩
                intro s2 m hm
                simp only [Res.ok.injEq, Except.error.injEq,
                  StrandFail.Cycle.injEq] at hm
                obtain ⟨hs2, hmm⟩ := hm
                subst hmm
                have hmb := HE.2 mm rfl
                refine ⟨?_, ?_⟩
                · refine hOK.1 fr1 ?_
                  have hmem := List.get?_mem hfr1
                  rw [h1.1] at hmem
                  exact hmem
                · exact DepthFirstNumber.le_dmin hmb.1 hmb.2


/-! ## C8 -/

/-- C8: with an empty stack, an existing table, and a requested answer index
that is cached or equal to the table's next answer index,
`ensure_root_answer` never reaches its own panic branches: the recursive
search cannot return `Coinductive` or `Cycle` at the root, and the overall
result is success, `NoMoreSolutions`, `QuantumExceeded`, or a
panic or fuel exhaustion propagated verbatim from the recursive search. -/
theorem ensure_root_no_cyclic (co : Collab κ) (fuel : Nat) (f : Forest κ)
    (table : TableIndex) (answer : AnswerIndex) (tb : Table κ)
    (hstack : f.stack = [])
    (htb : f.getTable table = some tb)
    (hans : tb.answer answer ≠ none ∨ tb.next_answer_index = answer) :
    (∀ f1, ensure_answer_recursively co fuel f table answer ≠
      (f1, .ok (.ok .Coinductive))) ∧
    (∀ f1 m, ensure_answer_recursively co fuel f table answer ≠
      (f1, .ok (.error (.Cycle m)))) ∧
    (∀ f1 r, ensure_root_answer co fuel f table answer = (f1, r) →
      r = .ok (.ok ()) ∨ r = .ok (.error .NoMoreSolutions) ∨
      r = .ok (.error .QuantumExceeded) ∨
      (∃ m, r = .panicked m ∧
        ensure_answer_recursively co fuel f table answer = (f1, .panicked m)) ∨
      (r = .noFuel ∧
        ensure_answer_recursively co fuel f table answer = (f1, .noFuel))) := by
  have key : ∀ f1 r1, ensure_answer_recursively co fuel f table answer =
      (f1, r1) →
      r1 ≠ .ok (.ok .Coinductive) ∧
      ∀ m, r1 ≠ .ok (.error (.Cycle m)) := by
    intro f1 r1 h1
    cases fuel with
    | zero =>
      cases h1
      exact ⟨by simp, fun m => by simp⟩
    | succ n =>
      rw [ensure_succ] at h1
      have hact : f.is_active table = none := by
        simp [Forest.is_active, hstack]
      simp only [ensureBody, htb] at h1
      cases hca : tb.answer answer with
      | some a =>
        simp only [hca] at h1
        cases h1
        exact ⟨by simp, fun m => by simp⟩
      | none =>
        simp only [hca] at h1
        have hnext : tb.next_answer_index = answer := by
          rcases hans with hc | hc
          · exact absurd hca hc
          · exact hc
        rw [if_neg (fun hc => hc hnext)] at h1
        simp only [hact, hstack, Forest.next_dfn, cluster_pns_eq,
          List.nil_append, List.length_nil] at h1
        split at h1
        · rename_i f3 heq
          cases h1
          exact ⟨by simp, fun m => by simp⟩
        · rename_i f3 e heq
          cases h1
          refine ⟨by simp, ?_⟩
          intro m hc
          simp only [Res.ok.injEq, Except.error.injEq] at hc
          subst hc
          have hOK2 : StackOK f.dfn_counter { f with
              dfn_counter := f.dfn_counter + 1,
              stack := [⟨table, .fin f.dfn_counter, tb.coinductive_goal⟩] } := by
            refine ⟨?_, ?_⟩
            · intro fr hfr
              rw [List.mem_singleton.mp hfr]
              exact DepthFirstNumber.le_refl _
            · exact Nat.le_succ _
          have HI := (dfn_invariant co f.dfn_counter n).2.1 _ _ _ _ heq hOK2
          obtain ⟨hmb, fr, hfr, hg⟩ := HI.2 m rfl
          simp only [List.get?] at hfr
          cases hfr
          simp [hmb.1, hmb.2] at hg
        · rename_i f3 msg heq
          cases h1
          exact ⟨by simp, fun m => by simp⟩
        · rename_i f3 heq
          cases h1
          exact ⟨by simp, fun m => by simp⟩
  refine ⟨fun f1 hc => (key f1 _ hc).1 rfl,
    fun f1 m hc => (key f1 _ hc).2 m rfl, ?_⟩
  intro f1 r hroot
  have hempty : f.stack.isEmpty = true := by
    rw [hstack]
    rfl
  simp only [ensure_root_answer, hempty, Bool.not_true, Bool.false_eq_true,
    if_false] at hroot
  rcases he : ensure_answer_recursively co fuel f table answer with ⟨fe, re⟩
  cases re with
  | panicked msg =>
    simp only [he] at hroot
    cases hroot
    exact Or.inr (Or.inr (Or.inr (Or.inl ⟨msg, rfl, rfl⟩)))
  | noFuel =>
    simp only [he] at hroot
    cases hroot
    exact Or.inr (Or.inr (Or.inr (Or.inr ⟨rfl, rfl⟩)))
  | ok v =>
    cases v with
    | ok es =>
      cases es with
      | AnswerAvailable =>
        simp only [he] at hroot
        cases hroot
        exact Or.inl rfl
      | Coinductive =>
        exact absurd rfl ((key fe _ he).1)
    | error e =>
      cases e with
      | NoMoreSolutions =>
        simp only [he] at hroot
        cases hroot
        exact Or.inr (Or.inl rfl)
      | QuantumExceeded =>
        simp only [he] at hroot
        cases hroot
        exact Or.inr (Or.inr (Or.inl rfl))
      | Cycle m =>
        exact absurd rfl ((key fe _ he).2 m)

/-- Witness for C8 at a concrete root query with an empty stack: the
recursive search ends in `NoMoreSolutions`, never in a cyclic result. -/
theorem ensure_root_no_cyclic_witness :
    ((⟨[⟨⟨0⟩, false, [], []⟩], [], 0, 10⟩ : Forest TypesNat).stack = []) ∧
    ((⟨[⟨⟨0⟩, false, [], []⟩], [], 0, 10⟩ : Forest TypesNat).getTable 0 =
      some ⟨⟨0⟩, false, [], []⟩) ∧
    ((⟨⟨0⟩, false, [], []⟩ : Table TypesNat).next_answer_index = 0) ∧
    ensure_answer_recursively coNat 3
        (⟨[⟨⟨0⟩, false, [], []⟩], [], 0, 10⟩ : Forest TypesNat) 0 0 ≠
      ((⟨[⟨⟨0⟩, false, [], []⟩], [], 1, 10⟩ : Forest TypesNat),
        .ok (.ok .Coinductive)) ∧
    ensure_answer_recursively coNat 3
        (⟨[⟨⟨0⟩, false, [], []⟩], [], 0, 10⟩ : Forest TypesNat) 0 0 ≠
      ((⟨[⟨⟨0⟩, false, [], []⟩], [], 1, 10⟩ : Forest TypesNat),
        .ok (.error (.Cycle ⟨.fin 0, .MAX⟩))) := by
  refine ⟨rfl, rfl, rfl, ?_, ?_⟩
  · exact (ensure_root_no_cyclic coNat 3
      (⟨[⟨⟨0⟩, false, [], []⟩], [], 0, 10⟩ : Forest TypesNat) 0 0
      ⟨⟨0⟩, false, [], []⟩ rfl rfl (Or.inr rfl)).1
      (⟨[⟨⟨0⟩, false, [], []⟩], [], 1, 10⟩ : Forest TypesNat)
  · exact (ensure_root_no_cyclic coNat 3
      (⟨[⟨⟨0⟩, false, [], []⟩], [], 0, 10⟩ : Forest TypesNat) 0 0
      ⟨⟨0⟩, false, [], []⟩ rfl rfl (Or.inr rfl)).2.1
      (⟨[⟨⟨0⟩, false, [], []⟩], [], 1, 10⟩ : Forest TypesNat) ⟨.fin 0, .MAX⟩


/-! ## C5, revisited with the origin of `NoMoreSolutions` -/

theorem le_fin_zero (x : DepthFirstNumber) :
    DepthFirstNumber.le (.fin 0) x = true := by
  cases x <;> simp [DepthFirstNumber.le]

/-- `StackOK 0` holds of every forest, so the stack-preservation clauses of
`dfn_invariant` apply unconditionally. -/
theorem stackOK_zero (f : Forest κ) : StackOK 0 f :=
  ⟨fun fr _ => le_fin_zero fr.dfn, Nat.zero_le _⟩

/-- A table with nothing to pop has an empty strand queue. -/
theorem strands_nil_of_pop_none (tb : Table κ)
    (h : tb.pop_next_strand = none) : tb.strands = [] := by
  unfold Table.pop_next_strand at h
  cases hl : tb.strands.getLast? with
  | some s =>
    rw [hl] at h
    cases h
  | none =>
    exact List.getLast?_eq_none_iff.mp hl

/-- When `cycle` returns `none` it has taken the delaying branch: the queue
of the frame's table ends up as the requeued strands (the old queue plus the
stash) rewritten by `delay_strand`. -/
theorem cycle_none_result (co : Collab κ) (fuel : Nat) (f : Forest κ)
    (depth : StackIndex) (ss : List (Strand κ)) (cm : Minimums)
    (f1 : Forest κ)
    (h : cycle co fuel f depth ss cm = (f1, .ok none)) :
    ∃ fr tb, f.stack.get? depth = some fr ∧ f.getTable fr.table = some tb ∧
      f1.strandsOf fr.table = (tb.strands ++ ss).map delay_strand := by
  cases fuel with
  | zero => cases h
  | succ n =>
    rw [cycle_succ] at h
    cases hfr : f.stack.get? depth with
    | none =>
      simp only [cycleBody, hfr] at h
      cases h
    | some fr =>
      cases hget : f.getTable fr.table with
      | none =>
        simp only [cycleBody, hfr, hget] at h
        cases h
      | some tb =>
        by_cases hassert : tb.pop_next_strand.isNone
        · simp only [cycleBody, hfr, hget, hassert, Bool.not_true,
            Bool.false_eq_true, if_false, cluster_clearF_eq,
            cluster_delayF_eq] at h
          split at h
          · rcases hcf : clear_strands_after_cycle co n f fr.table ss
              with ⟨fa, ra⟩
            rw [hcf] at h
            cases ra with
            | ok u0 =>
              cases u0
              simp at h
            | panicked msg => cases h
            | noFuel => cases h
          · split at h
            · rcases hdf : delay_strands_after_cycle co n
                  (f.setTable fr.table (tb.extend_strands ss)) fr.table
                  [fr.table] with ⟨fa, va, ra⟩
              rw [hdf] at h
              cases ra with
              | ok u0 =>
                cases u0
                cases h
                have hmem : fr.table ∈ [fr.table] :=
                  List.mem_singleton.mpr (Eq.refl _)
                have S := (delay_main co n).1 _ fr.table [fr.table] _ _
                  hmem hdf
                have h1 := S.inScope fr.table hmem
                rw [strandsOf_setTable f fr.table tb _ hget fr.table,
                  if_pos (Eq.refl _)] at h1
                exact ⟨fr, tb, rfl, hget, h1⟩
              | panicked msg => cases h
              | noFuel => cases h
            · cases h
        · simp only [cycleBody, hfr, hget, Bool.not_eq_true'] at h
          rw [Bool.not_eq_true] at hassert
          simp only [hassert, Bool.not_false, if_true] at h
          cases h

/-- C5 (amended: `NoMoreSolutions` can also be produced by `cycle` on the
stashed strands): whenever the pursued strand fails with `NoSolution` or
`QuantumExceeded`, the stashed cyclic strands are re-enqueued into the table
and the loop returns `QuantumExceeded` — never `NoMoreSolutions`; and when
the loop (entered at the depth's own frame table) returns `NoMoreSolutions`,
either the strand queue was empty with nothing stashed and the forest comes
back unchanged, or an actual `cycle` call on a nonempty stash, made with the
table's queue empty, itself reported `NoMoreSolutions` and produced the
final forest. -/
theorem pns_fail_requeues_and_nms_origin (co : Collab κ) (depth : StackIndex)
    (table : TableIndex) :
    (∀ (fuel : Nat) (f : Forest κ) tb strand tb1 cyc m f1 r tbx,
      f.getTable table = some tb →
      tb.pop_next_strand = some (strand, tb1) →
      pursue_strand co fuel (f.setTable table tb1) depth strand = (f1, r) →
      (r = .ok (.error .NoSolution) ∨ r = .ok (.error .QuantumExceeded)) →
      f1.getTable table = some tbx →
      pursue_next_strand_loop co (fuel + 1) f depth table cyc m =
        (f1.setTable table (tbx.extend_strands cyc),
          .ok (.error .QuantumExceeded))) ∧
    (∀ (fuel : Nat) (f : Forest κ) cyc m f' fr,
      f.stack.get? depth = some fr → fr.table = table →
      pursue_next_strand_loop co fuel f depth table cyc m =
        (f', .ok (.error .NoMoreSolutions)) →
      (cyc = [] ∧ f' = f ∧ f.strandsOf table = []) ∨
      (∃ (n2 : Nat) (g : Forest κ) (cy : List (Strand κ)) (mm : Minimums),
        n2 < fuel ∧ cy ≠ [] ∧ g.strandsOf table = [] ∧
        cycle co n2 g depth cy mm = (f', .ok (some .NoMoreSolutions)))) := by
  constructor
  · intro fuel f tb strand tb1 cyc m f1 r tbx hget hpop hps hr htbx
    rw [pnsLoop_succ]
    simp only [pnsLoopBody, hget, hpop, cluster_pursue_eq, hps]
    rcases hr with hr | hr <;> subst hr <;> simp only [htbx]
  · intro fuel
    induction fuel with
    | zero =>
      intro f cyc m f' fr hfr htab h
      rw [pnsLoop_zero] at h
      simp at h
    | succ n ih =>
      intro f cyc m f' fr hfr htab h
      rw [pnsLoop_succ] at h
      cases hget : f.getTable table with
      | none =>
        simp only [pnsLoopBody, hget] at h
        simp at h
      | some tb =>
        cases hpop : tb.pop_next_strand with
        | some st =>
          obtain ⟨strand, tb1⟩ := st
          rcases hps : pursue_strand co n (f.setTable table tb1) depth strand
            with ⟨f1, r⟩
          simp only [pnsLoopBody, hget, hpop, cluster_pursue_eq, hps] at h
          cases r with
          | ok e =>
            cases e with
            | ok u =>
              cases u
              cases htbx : f1.getTable table with
              | none => simp only [htbx] at h; simp at h
              | some tbx => simp only [htbx] at h; simp at h
            | error sf =>
              cases sf with
              | NoSolution =>
                cases htbx : f1.getTable table with
                | none => simp only [htbx] at h; simp at h
                | some tbx => simp only [htbx] at h; simp at h
              | QuantumExceeded =>
                cases htbx : f1.getTable table with
                | none => simp only [htbx] at h; simp at h
                | some tbx => simp only [htbx] at h; simp at h
              | Cycle s2 m2 =>
                rw [cluster_pnsLoop_eq] at h
                have hpres := ((dfn_invariant co 0 n).2.2.2.1 _ _ _ _ _ hps
                  (stackOK_zero _)).1 _ rfl
                have hfr1 : f1.stack.get? depth = some fr := by
                  rw [hpres.1]
                  exact hfr
                rcases ih f1 (cyc ++ [s2]) (m.take_minimums m2) f' fr hfr1
                    htab h
                  with ⟨hnil, -, -⟩ | ⟨n2, g, cy, mm, hlt, hcy2, hgs, hcyc2⟩
                · simp at hnil
                · exact Or.inr ⟨n2, g, cy, mm, Nat.lt_succ_of_lt hlt, hcy2,
                    hgs, hcyc2⟩
          | panicked msg => simp at h
          | noFuel => simp at h
        | none =>
          simp only [pnsLoopBody, hget, hpop] at h
          by_cases hcy : cyc.isEmpty
          · simp only [hcy, if_true] at h
            have hf : f' = f := by
              have := congrArg Prod.fst h
              simpa using this.symm
            refine Or.inl ⟨List.isEmpty_iff.mp hcy, hf, ?_⟩
            rw [strandsOf_eq f table tb hget]
            exact strands_nil_of_pop_none tb hpop
          · simp only [hcy, if_false, Bool.false_eq_true] at h
            rcases hcyc : cycle co n f depth cyc m with ⟨f1, rc⟩
            simp only [cluster_cycleF_eq, hcyc] at h
            have hne : cyc ≠ [] := fun hc => hcy (by rw [hc]; rfl)
            cases rc with
            | ok o =>
              cases o with
              | none =>
                rw [cluster_pnsLoop_eq] at h
                have hst := cycle_stack co n _ _ _ _ _ _ hcyc
                have hfr1 : f1.stack.get? depth = some fr := by
                  rw [hst.1]
                  exact hfr
                rcases ih f1 [] m f' fr hfr1 htab h
                  with ⟨-, -, hq⟩ | ⟨n2, g, cy, mm, hlt, hcy2, hgs, hcyc2⟩
                · exfalso
                  obtain ⟨fr', tb', hfr', hget', hmap⟩ :=
                    cycle_none_result co n f depth cyc m f1 hcyc
                  rw [hfr] at hfr'
                  injection hfr' with heqfr
                  subst heqfr
                  rw [htab] at hmap
                  rw [hmap] at hq
                  simp only [List.map_eq_nil, List.append_eq_nil] at hq
                  exact hne hq.2
                · exact Or.inr ⟨n2, g, cy, mm, Nat.lt_succ_of_lt hlt, hcy2,
                    hgs, hcyc2⟩
              | some err =>
                cases err with
                | NoMoreSolutions =>
                  have hf : f' = f1 := by
                    have := congrArg Prod.fst h
                    simpa using this.symm
                  subst hf
                  refine Or.inr ⟨n, f, cyc, m, Nat.lt_succ_self n, hne, ?_,
                    hcyc⟩
                  rw [strandsOf_eq f table tb hget]
                  exact strands_nil_of_pop_none tb hpop
                | Cycle mm2 => simp at h
                | QuantumExceeded => simp at h
            | panicked msg => simp at h
            | noFuel => simp at h

/-- Witness for C5: a strand failing with `NoSolution` (a duplicate answer)
makes the loop re-enqueue the stashed cyclic strand and return
`QuantumExceeded`. -/
theorem pns_fail_requeues_witness :
    ((⟨[⟨⟨0⟩, false, [⟨⟨⟨7, []⟩⟩, ⟨[]⟩⟩], [⟨(), ⟨7, [], [], []⟩, none⟩]⟩],
        [⟨0, .fin 0, false⟩], 1, 10⟩ : Forest TypesNat).getTable 0 =
      some ⟨⟨0⟩, false, [⟨⟨⟨7, []⟩⟩, ⟨[]⟩⟩], [⟨(), ⟨7, [], [], []⟩, none⟩]⟩) ∧
    ((⟨⟨0⟩, false, [⟨⟨⟨7, []⟩⟩, ⟨[]⟩⟩], [⟨(), ⟨7, [], [], []⟩, none⟩]⟩ :
      Table TypesNat).pop_next_strand = some (⟨(), ⟨7, [], [], []⟩, none⟩,
        ⟨⟨0⟩, false, [⟨⟨⟨7, []⟩⟩, ⟨[]⟩⟩], []⟩)) ∧
    pursue_next_strand_loop coNat 2
        (⟨[⟨⟨0⟩, false, [⟨⟨⟨7, []⟩⟩, ⟨[]⟩⟩], [⟨(), ⟨7, [], [], []⟩, none⟩]⟩],
          [⟨0, .fin 0, false⟩], 1, 10⟩ : Forest TypesNat) 0 0
        [⟨(), ⟨8, [], [], []⟩, none⟩] Minimums.MAX =
      (((⟨[⟨⟨0⟩, false, [⟨⟨⟨7, []⟩⟩, ⟨[]⟩⟩], [⟨(), ⟨7, [], [], []⟩, none⟩]⟩],
          [⟨0, .fin 0, false⟩], 1, 10⟩ : Forest TypesNat).setTable 0
          ⟨⟨0⟩, false, [⟨⟨⟨7, []⟩⟩, ⟨[]⟩⟩], []⟩).setTable 0
        ((⟨⟨0⟩, false, [⟨⟨⟨7, []⟩⟩, ⟨[]⟩⟩], []⟩ : Table TypesNat).extend_strands
          [⟨(), ⟨8, [], [], []⟩, none⟩]),
        .ok (.error .QuantumExceeded)) :=
  ⟨rfl, rfl,
    (pns_fail_requeues_and_nms_origin coNat 0 0).1 1
      (⟨[⟨⟨0⟩, false, [⟨⟨⟨7, []⟩⟩, ⟨[]⟩⟩], [⟨(), ⟨7, [], [], []⟩, none⟩]⟩],
        [⟨0, .fin 0, false⟩], 1, 10⟩ : Forest TypesNat)
      ⟨⟨0⟩, false, [⟨⟨⟨7, []⟩⟩, ⟨[]⟩⟩], [⟨(), ⟨7, [], [], []⟩, none⟩]⟩
      ⟨(), ⟨7, [], [], []⟩, none⟩
      ⟨⟨0⟩, false, [⟨⟨⟨7, []⟩⟩, ⟨[]⟩⟩], []⟩
      [⟨(), ⟨8, [], [], []⟩, none⟩] Minimums.MAX
      ((⟨[⟨⟨0⟩, false, [⟨⟨⟨7, []⟩⟩, ⟨[]⟩⟩], [⟨(), ⟨7, [], [], []⟩, none⟩]⟩],
        [⟨0, .fin 0, false⟩], 1, 10⟩ : Forest TypesNat).setTable 0
        ⟨⟨0⟩, false, [⟨⟨⟨7, []⟩⟩, ⟨[]⟩⟩], []⟩)
      (.ok (.error .NoSolution))
      ⟨⟨0⟩, false, [⟨⟨⟨7, []⟩⟩, ⟨[]⟩⟩], []⟩
      rfl rfl rfl (Or.inl rfl) rfl⟩

end ChalkSLG
